import Mathlib

/-!
Verification of the Digitree B+-tree (`src/b-tree.ts`, `src/nodes.ts`,
`src/path.ts`, `src/key-range.ts`).

The embedding specializes the two type parameters the way the library's own
test-suite does: `TEntry = TKey = number`, with the default key extractor
(`entry => entry`) and the default comparator (`(a, b) => a < b ? -1 : a > b ?
1 : 0`), and models JavaScript numbers that occur in the tree as `Int`.

JavaScript `undefined` matters in two places (out-of-range array reads whose
results are stored as partition keys, and comparisons against such values), so
the routing-key ("partition") domain is `Option Int`: `some k` is a genuine
number, `none` is `undefined`.  The JS comparisons `a < undefined`,
`undefined < a` and `undefined < undefined` are all `false`, which the default
comparator turns into `0`; `jsCompare` reproduces exactly that.

Mutable state (the tree's root and version counter, paths into the tree) is
rendered by explicit state passing: every mutating method becomes a function
from the old `BTreeT` (root + version) to the new one, and a `Path` is the
list of child indices chosen at each branch level plus the leaf index, the
`on` flag, and the version stamp, exactly the data of the source's `Path`
(the node references of the source are recovered from the root and the index
chain).  Methods that `throw` return `Except BTreeErr`.
-/

namespace Digitree

/-- Node capacity, `NodeCapacity = 64` in `b-tree.ts`. -/
def NodeCapacity : Nat := 64

/-- A JavaScript value used as a key: `some k` is a number, `none` is
`undefined` (produced by out-of-range array reads). -/
abbrev JKey := Option Int

/-- The default comparator `(a, b) => a < b ? -1 : a > b ? 1 : 0` on JS
values.  Any comparison involving `undefined` is `false` in JS, so the
comparator returns `0` whenever either side is `undefined`. -/
def jsCompare : JKey → JKey → Int
  | some a, some b => if a < b then -1 else if a > b then 1 else 0
  | _, _ => 0

/-- The `compareKeys` wrapper re-checks antisymmetry and throws
`InconsistentComparator` when it fails.  For `jsCompare` the check never
fires (see `compareKeys_consistent`), so the embedding uses the raw result. -/
def compareKeys (a b : JKey) : Int := jsCompare a b

/-- Tree nodes (`nodes.ts`): a `LeafNode` holds the ordered entry array, a
`BranchNode` holds partition keys and child nodes. -/
inductive Node where
  | leaf (entries : List Int)
  | branch (partitions : List JKey) (nodes : List Node)

/-- Entry list of a node when it is a leaf (`node as LeafNode` casts in the
source; a cast applied to a branch would yield `undefined` fields, modelled
as the empty list, and never happens on shape-correct trees). -/
def Node.entriesOf : Node → List Int
  | .leaf es => es
  | .branch _ _ => []

/-- Partition list of a node when it is a branch. -/
def Node.partitionsOf : Node → List JKey
  | .leaf _ => []
  | .branch ps _ => ps

/-- Child list of a node when it is a branch. -/
def Node.nodesOf : Node → List Node
  | .leaf _ => []
  | .branch _ ns => ns

/-! Recursions over `Node` are written with an explicit fuel instantiated
with the computable node measure `Node.sz`, which strictly drops from a
branch to each of its children; this keeps every definition structurally
recursive (and hence both executable and kernel-computable) while the fuel
never actually runs out. -/

mutual

/-- A computable structural measure on nodes, used as recursion fuel. -/
def Node.sz : Node → Nat
  | .leaf _ => 1
  | .branch _ ns => Node.szList ns + 2

/-- Sum of `Node.sz` over a list of nodes. -/
def Node.szList : List Node → Nat
  | [] => 0
  | c :: rest => Node.sz c + Node.szList rest

end

/-- Fueled in-order flattening. -/
def Node.toListGo : Nat → Node → List Int
  | _, .leaf es => es
  | 0, .branch _ _ => []
  | fuel + 1, .branch _ ns => (ns.map (Node.toListGo fuel)).flatten

/-- In-order flattening of a tree: the entries of all leaves, left to right. -/
def Node.toList (n : Node) : List Int := Node.toListGo n.sz n

/-- Total number of entries stored below a node. -/
def Node.count (n : Node) : Nat := n.toList.length

/-! ## Bisection searches (`indexOfEntry`, `indexOfKey`)

The source's `while (lo <= hi)` loops become recursion on the interval
width.  `lo` starts at `0` and only ever grows, so it is a `Nat`; `hi` can
reach `-1`, so it stays an `Int`.  `(lo + hi) >>> 1` on the in-range
non-negative values that occur is floor division by two. -/

/-- Loop of `indexOfEntry`: binary search over leaf entries.  Returns
`(on, index)`: `on` iff the key was found, `index` the match or the
insertion point ("crack").  The interval `hi + 1 - lo` shrinks at each
step; the fuel, instantiated with `es.length + 1`, never runs out. -/
def indexOfEntryGo (es : List Int) (key : JKey) : Nat → Nat → Int → Bool × Nat
  | 0, lo, _ => (false, lo)
  | fuel + 1, lo, hi =>
    if (lo : Int) ≤ hi then
      let split : Nat := (lo + hi).toNat / 2
      let result := compareKeys key (some (es.getD split 0))
      if result = 0 then (true, split)
      else if result < 0 then indexOfEntryGo es key fuel lo (split - 1)
      else indexOfEntryGo es key fuel (split + 1) hi
    else (false, lo)

/-- Binary search over a leaf's entries (`indexOfEntry` in the source). -/
def indexOfEntry (es : List Int) (key : JKey) : Bool × Nat :=
  indexOfEntryGo es key (es.length + 1) 0 ((es.length : Int) - 1)

/-- Loop of `indexOfKey`: binary search over branch partitions; an exact
match returns the *right* child's index (`split + 1`, ties break right). -/
def indexOfKeyGo (ps : List JKey) (key : JKey) : Nat → Nat → Int → Nat
  | 0, lo, _ => lo
  | fuel + 1, lo, hi =>
    if (lo : Int) ≤ hi then
      let split : Nat := (lo + hi).toNat / 2
      let result := compareKeys key (ps.getD split none)
      if result = 0 then split + 1
      else if result < 0 then indexOfKeyGo ps key fuel lo (split - 1)
      else indexOfKeyGo ps key fuel (split + 1) hi
    else lo

/-- Binary search over a branch's partitions (`indexOfKey` in the source). -/
def indexOfKey (ps : List JKey) (key : JKey) : Nat :=
  indexOfKeyGo ps key (ps.length + 1) 0 ((ps.length : Int) - 1)

/-! ## Shape well-formedness

Structural facts every node hanging below the root satisfies in any tree the
engine builds: a branch has one more child than partitions, and every leaf is
non-empty.  (Entry ordering is a separate predicate, `ordB` below.)  The root
may additionally be an empty leaf. -/

/-- Fueled shape check. -/
def Node.wfShapeGo : Nat → Node → Bool
  | _, .leaf es => !es.isEmpty
  | 0, .branch _ _ => false
  | fuel + 1, .branch ps ns =>
    ns.length = ps.length + 1 && ns.all (Node.wfShapeGo fuel)

/-- Shape well-formedness of a non-root subtree. -/
def Node.wfShape (n : Node) : Bool := Node.wfShapeGo n.sz n

/-- Shape well-formedness of the whole tree: the root may be a (possibly
empty) leaf, otherwise it is a shape-correct branch. -/
def Node.wfRootShape : Node → Bool
  | .leaf _ => true
  | .branch ps ns =>
    ns.length = ps.length + 1 && ns.all Node.wfShape

/-! ## Paths

A `Path` in the source holds `(BranchNode, index)` pairs, a leaf reference, a
leaf index, the `on` flag and the version stamp.  Relative to the tree's
root, the node references are determined by the child indices, so the
embedding stores the index chain. -/

structure PathIdx where
  branches : List Nat
  leafIndex : Nat
  isOn : Bool
  version : Nat
deriving DecidableEq, Repr

/-- Child `i` of a node (`node.nodes[i]`; out-of-range and leaf accesses are
`undefined` in JS and only happen on malformed input, modelled by an empty
leaf). -/
def Node.childAt (n : Node) (i : Nat) : Node := n.nodesOf.getD i (.leaf [])

/-- The node reached from `n` by following the child indices `is`. -/
def Node.alongD : Node → List Nat → Node
  | n, [] => n
  | n, i :: is => (n.childAt i).alongD is

/-- Entries of the leaf a path's index chain leads to. -/
def Node.leafAt (n : Node) (is : List Nat) : List Int := (n.alongD is).entriesOf

/-- The `(node, index)` frames of a path, top-down (`path.branches`). -/
def framesOf : Node → List Nat → List (Node × Nat)
  | _, [] => []
  | n, i :: is => (n, i) :: framesOf (n.childAt i) is

/-- Fueled `getPath`. -/
def getPathGo (key : JKey) : Nat → Node → PathIdx
  | _, .leaf es =>
    let r := indexOfEntry es key
    ⟨[], r.2, r.1, 0⟩
  | 0, .branch _ _ => ⟨[], 0, false, 0⟩
  | fuel + 1, .branch ps ns =>
    let index := indexOfKey ps key
    let path := getPathGo key fuel ((Node.branch ps ns).childAt index)
    { path with branches := index :: path.branches }

/-- Build a path to the given key (`getPath`, used by `find`). -/
def getPath (n : Node) (key : JKey) : PathIdx := getPathGo key n.sz n

/-- Fueled `getFirst`. -/
def getFirstGo : Nat → Node → PathIdx
  | _, .leaf es => ⟨[], 0, decide (es.length > 0), 0⟩
  | 0, .branch _ _ => ⟨[], 0, false, 0⟩
  | fuel + 1, .branch ps ns =>
    let path := getFirstGo fuel ((Node.branch ps ns).childAt 0)
    { path with branches := 0 :: path.branches }

/-- Path to the first-most entry (`getFirst`, used by `first()`). -/
def getFirst (n : Node) : PathIdx := getFirstGo n.sz n

/-- Fueled `getLast`. -/
def getLastGo : Nat → Node → PathIdx
  | _, .leaf es =>
    ⟨[], if es.length > 0 then es.length - 1 else 0, decide (es.length > 0), 0⟩
  | 0, .branch _ _ => ⟨[], 0, false, 0⟩
  | fuel + 1, .branch ps ns =>
    let index := ns.length - 1
    let path := getLastGo fuel ((Node.branch ps ns).childAt index)
    { path with branches := index :: path.branches }

/-- Path to the last-most entry (`getLast`, used by `last()`).  The chosen
child index is `nodes.length - 1`. -/
def getLast (n : Node) : PathIdx := getLastGo n.sz n

/-- Fueled `moveToFirst` descent data. -/
def moveToFirstIdxGo : Nat → Node → List Nat × Nat × Bool
  | _, .leaf es => ([], 0, decide (es.length > 0))
  | 0, .branch _ _ => ([], 0, false)
  | fuel + 1, .branch ps ns =>
    let r := moveToFirstIdxGo fuel ((Node.branch ps ns).childAt 0)
    (0 :: r.1, r.2)

/-- Descent data appended by `moveToFirst(node, path)`: the pushed branch
indices (all `0`), the new leaf index, and the new `on` flag. -/
def moveToFirstIdx (n : Node) : List Nat × Nat × Bool := moveToFirstIdxGo n.sz n

/-- Fueled `moveToLast` descent data. -/
def moveToLastIdxGo : Nat → Node → List Nat × Nat × Bool
  | _, .leaf es =>
    ([], if es.length > 0 then es.length - 1 else 0, decide (es.length > 0))
  | 0, .branch _ _ => ([], 0, false)
  | fuel + 1, .branch ps ns =>
    let index := ps.length
    let r := moveToLastIdxGo fuel ((Node.branch ps ns).childAt index)
    (index :: r.1, r.2)

/-- Descent data appended by `moveToLast(node, path)`: the pushed branch
indices (each `partitions.length`), the new leaf index and `on` flag. -/
def moveToLastIdx (n : Node) : List Nat × Nat × Bool := moveToLastIdxGo n.sz n

/-! ## Path movement (`internalNext`, `internalPrior`)

The source loops scan `path.branches` from the innermost frame outward,
counting how many trailing frames sit at their last (resp. first) child,
then splice those off, step the next frame's index, and descend into the
adjacent subtree. -/

/-- The `popCount`/`found` scan of `internalNext`, on the reversed frame
list: skip trailing frames whose index equals `partitions.length`. -/
def popScanNext : List (Node × Nat) → Nat × Bool
  | [] => (0, false)
  | (n, i) :: rest =>
    if i = n.partitionsOf.length then
      let r := popScanNext rest
      (r.1 + 1, r.2)
    else (0, true)

/-- The `popCount`/`opening` scan of `internalPrior`, on the reversed frame
list: skip trailing frames whose index is `0`. -/
def popScanPrior : List (Node × Nat) → Nat × Bool
  | [] => (0, false)
  | (_, i) :: rest =>
    if i = 0 then
      let r := popScanPrior rest
      (r.1 + 1, r.2)
    else (0, true)

/-- One step forward (`internalNext`).  `t` is the tree root the path's node
references point into. -/
def internalNext (t : Node) (p : PathIdx) : PathIdx :=
  let leafEs := t.leafAt p.branches
  if !p.isOn then
    -- attempt to move onto the crack
    if (framesOf t p.branches).all (fun f => f.2 < f.1.nodesOf.length) &&
        p.leafIndex < leafEs.length then
      { p with isOn := true }
    else p
  else if p.leafIndex + 1 ≥ leafEs.length then
    -- `leafIndex >= entries.length - 1` (JS arithmetic on possibly-empty leaf)
    let frames := framesOf t p.branches
    let scan := popScanNext frames.reverse
    if !scan.2 then
      { p with leafIndex := leafEs.length, isOn := false }
    else
      let branches₁ := p.branches.take (p.branches.length - scan.1)
      let lastIdx := branches₁.getLast?.getD 0 + 1
      let branches₂ := branches₁.dropLast ++ [lastIdx]
      let child := t.alongD branches₂
      let r := moveToFirstIdx child
      ⟨branches₂ ++ r.1, r.2.1, r.2.2, p.version⟩
  else { p with leafIndex := p.leafIndex + 1, isOn := true }

/-- One step backward (`internalPrior`; its leading `validatePath` lives in
the `Except` wrappers).  Unlike `internalNext` it never reads the leaf's
entries, only indices. -/
def internalPrior (t : Node) (p : PathIdx) : PathIdx :=
  if p.leafIndex = 0 then
    -- `leafIndex <= 0`
    let frames := framesOf t p.branches
    let scan := popScanPrior frames.reverse
    if !scan.2 then
      { p with leafIndex := 0, isOn := false }
    else
      let branches₁ := p.branches.take (p.branches.length - scan.1)
      let lastIdx := branches₁.getLast?.getD 0 - 1
      let branches₂ := branches₁.dropLast ++ [lastIdx]
      let child := t.alongD branches₂
      let r := moveToLastIdx child
      ⟨branches₂ ++ r.1, r.2.1, r.2.2, p.version⟩
  else { p with leafIndex := p.leafIndex - 1, isOn := true }
  -- the else branch also covers a leafIndex beyond the leaf (an end crack):
  -- `--leafIndex; on = true`, exactly as in the source

/-! ## Insertion (`leafInsert`, `branchInsert`, `internalInsertAt`)

The source walks the path downward with `find` and then propagates splits
upward through `path.branches` with a `while` loop; the embedding renders
this as structural recursion along the path's index chain, rebuilding the
(otherwise in-place mutated) nodes on the way out. -/

/-- The `Split` record returned by `leafInsert`/`branchInsert`: the promoted
partition key, the new right node, and the path-index delta. -/
structure SplitInfo where
  key : JKey
  right : Node
  indexDelta : Nat

/-- Leaf-level insert (`leafInsert`).  Returns the updated original leaf's
entries, the path's new leaf index, and the split if the leaf was full.

In the source, `moveEntries` is the very array the new `LeafNode` wraps, so
the `Split` key `keyFromEntry(moveEntries[0])`, evaluated after the new
entry was (possibly) spliced into the new leaf, is the key of the new
sibling's final first entry; `newLeaf.head?` reproduces that (with `none`
for the `undefined` read off an empty array). -/
def leafInsert (es : List Int) (index : Nat) (entry : Int) :
    List Int × Nat × Option SplitInfo :=
  if es.length < NodeCapacity then
    (es.insertIdx index entry, index, none)
  else
    let mid := (es.length + 1) / 2
    let left := es.take mid
    let move := es.drop mid
    if index < mid then
      let newLeaf := move
      (left.insertIdx index entry, index,
        some ⟨newLeaf.head?, .leaf newLeaf, 0⟩)
    else
      let li := index - left.length
      let newLeaf := move.insertIdx li entry
      (left, li, some ⟨newLeaf.head?, .leaf newLeaf, 1⟩)

/-- Branch-level split propagation (`branchInsert`) at one frame.  `j` is
the frame's index, `child` the already-updated tracked child.  Returns the
updated node, the frame's new index, and the further split if any. -/
def branchInsert (ps : List JKey) (ns : List Node) (j : Nat) (child : Node)
    (s : SplitInfo) : Node × Nat × Option SplitInfo :=
  let j₁ := j + s.indexDelta
  let ps₁ := ps.insertIdx j s.key
  let ns₁ := (ns.set j child).insertIdx (j + 1) s.right
  if ns₁.length ≤ NodeCapacity then
    (.branch ps₁ ns₁, j₁, none)
  else
    let mid := ns₁.length / 2
    let moveP := ps₁.drop mid
    let psLeft := (ps₁.take mid).dropLast
    let newPartition := (ps₁.take mid).getLastD none
    let moveN := ns₁.drop mid
    let nsLeft := ns₁.take mid
    let j₂ := if j₁ ≥ mid then j₁ - mid else j₁
    (.branch psLeft nsLeft, j₂,
      some ⟨newPartition, .branch moveP moveN, if j₂ < mid then 0 else 1⟩)

/-- Result of inserting along a path: rebuilt subtree, adjusted branch
indices, adjusted leaf index, and a pending split. -/
structure InsResult where
  node : Node
  idxs : List Nat
  leafIndex : Nat
  split : Option SplitInfo

/-- Insert `entry` along the found path (`internalInsertAt`'s downward walk
plus its upward `while (split && branchIndex >= 0)` loop, rendered as
recursion over the index chain). -/
def insertAlong : Node → List Nat → Nat → Int → InsResult
  | n, [], li, entry =>
    let r := leafInsert n.entriesOf li entry
    ⟨.leaf r.1, [], r.2.1, r.2.2⟩
  | n, j :: rest, li, entry =>
    let sub := insertAlong (n.childAt j) rest li entry
    match sub.split with
    | none =>
      ⟨.branch n.partitionsOf (n.nodesOf.set j sub.node), j :: sub.idxs,
        sub.leafIndex, none⟩
    | some s =>
      let r := branchInsert n.partitionsOf n.nodesOf j sub.node s
      ⟨r.1, r.2.1 :: sub.idxs, sub.leafIndex, r.2.2⟩

/-- The root-level part of `internalInsertAt`: run the path insert and, if a
split survives past the root, grow a new root with the old root and the
split-off node as its two children. -/
def internalInsertAt (root : Node) (p : PathIdx) (entry : Int) : Node × PathIdx :=
  let r := insertAlong root p.branches p.leafIndex entry
  match r.split with
  | none => (r.node, { p with branches := r.idxs, leafIndex := r.leafIndex })
  | some s =>
    (.branch [s.key] [r.node, s.right],
      { p with branches := s.indexDelta :: r.idxs, leafIndex := r.leafIndex })

/-! ## The tree object and its public operations -/

/-- The `BTree` object's mutable state: root node and version counter. -/
structure BTreeT where
  root : Node
  version : Nat

/-- A freshly constructed tree: an empty root leaf, version 0. -/
def BTreeT.mkEmpty : BTreeT := ⟨.leaf [], 0⟩

/-- `find(key)`: path to the key or the crack before it, stamped with the
current version. -/
def BTreeT.find (t : BTreeT) (k : Int) : PathIdx :=
  { getPath t.root (some k) with version := t.version }

/-- `first()`. -/
def BTreeT.first (t : BTreeT) : PathIdx :=
  { getFirst t.root with version := t.version }

/-- `last()`. -/
def BTreeT.last (t : BTreeT) : PathIdx :=
  { getLast t.root with version := t.version }

/-- `isValid(path)`: the path's stamp equals the tree's version. -/
def BTreeT.isValid (t : BTreeT) (p : PathIdx) : Bool :=
  p.version = t.version

/-- `internalInsert`: find the key; a hit has its `on` flag cleared and
inserts nothing, a miss inserts at the crack. -/
def BTreeT.internalInsert (t : BTreeT) (entry : Int) : Node × PathIdx :=
  let path := t.find entry
  if path.isOn then
    (t.root, { path with isOn := false })
  else
    let r := internalInsertAt t.root path entry
    (r.1, { r.2 with isOn := true })

/-- `insert(entry)`: on success (`on` = true) the version is bumped and
stamped onto the returned path. -/
def BTreeT.insert (t : BTreeT) (entry : Int) : BTreeT × PathIdx :=
  let r := t.internalInsert entry
  if r.2.isOn then
    (⟨r.1, t.version + 1⟩, { r.2 with version := t.version + 1 })
  else
    (⟨r.1, t.version⟩, r.2)

/-- Fold a list of inserts from the empty tree (ignoring returned paths). -/
def insertList (ks : List Int) : BTreeT :=
  ks.foldl (fun t k => (t.insert k).1) BTreeT.mkEmpty

/-! ## Deletion and rebalancing

`internalDelete` / `rebalanceLeaf` / `rebalanceBranch` / `updatePartition`
mutate the nodes referenced by `path.branches` in place.  The embedding
decomposes the path into explicit frames (`partitions`, `nodes`, chosen
index), applies the source's splices to those frames, and rebuilds the tree
by re-attaching each level's updated child on the way back up, exactly
mirroring what the aliased in-place mutation leaves behind. -/

/-- A `PathBranch` frame with its node's contents inlined. -/
structure DFrame where
  ps : List JKey
  ns : List Node
  idx : Nat

instance : Inhabited DFrame := ⟨⟨[], [], 0⟩⟩

/-- The frames of a path, top-down. -/
def dframesOf : Node → List Nat → List DFrame
  | _, [] => []
  | n, i :: is => ⟨n.partitionsOf, n.nodesOf, i⟩ :: dframesOf (n.childAt i) is

/-- `updatePartition(nodeIndex, path, depth, newKey)`: write `newKey` into
`path.branches[depth].partitions[nodeIndex - 1]`, or, when the child is the
0th of its branch, recurse into the parent's own partition. -/
def updatePartition (nodeIndex : Nat) (frames : List DFrame) (depth : Nat)
    (newKey : JKey) : List DFrame :=
  if nodeIndex > 0 then
    frames.modify (fun f => { f with ps := f.ps.set (nodeIndex - 1) newKey }) depth
  else
    match depth with
    | d + 1 => updatePartition (frames.getD d default).idx frames d newKey
    | 0 => frames

/-- Reattach the (updated) current node into its (updated) ancestor frames,
producing the tree the in-place mutation leaves behind. -/
def rebuildFrames : List DFrame → Node → Node
  | [], cur => cur
  | f :: rest, cur => .branch f.ps (f.ns.set f.idx (rebuildFrames rest cur))

/-- `rebalanceBranch(path, depth)` with `depth = frames.length`: `cur` is
the branch being rebalanced, `frames` its strict ancestors.  Returns the
final root of the whole tree (the source's `undefined` return means "no
root change", i.e. the already-mutated tree, here `rebuildFrames`). -/
def rebalanceBranchGo : Nat → List DFrame → Node → Node
  | fuel, frames, cur =>
    let ps := cur.partitionsOf
    let ns := cur.nodesOf
    match frames.getLast? with
    | none =>
      -- depth === 0
      if ps.length = 0 then ns.getD 0 (.leaf [])  -- collapse child into root
      else cur
    | some parent =>
      if ns.length ≥ NodeCapacity <<< 1 then
        -- source slip kept faithfully: the early exit compares against
        -- `NodeCapacity << 1` (= 128), which a branch can never reach, so
        -- rebalancing always proceeds for a non-root branch
        rebuildFrames frames cur
      else
        match fuel with
        | 0 => rebuildFrames frames cur  -- fuel is the path depth; never 0 with a parent frame
        | fuel + 1 =>
          let pIndex := parent.idx
          let pps := parent.ps
          let pns := parent.ns
          let depthPred := frames.length - 1
          let rightSib := if pIndex < pns.length then pns[pIndex + 1]? else none
          let leftSib := if pIndex > 0 then pns[pIndex - 1]? else none
          let rs := rightSib.getD (.leaf [])
          let ls := leftSib.getD (.leaf [])
          if rightSib.isSome ∧ rs.nodesOf.length > NodeCapacity >>> 1 then
            -- borrow from right sibling
            let cur' := Node.branch (ps ++ [pps.getD pIndex none])
              (ns ++ [rs.nodesOf.headD (.leaf [])])
            let rightKey := rs.partitionsOf.headD none
            let rs' := Node.branch rs.partitionsOf.tail rs.nodesOf.tail
            let frames₁ := frames.modify
              (fun f => { f with ns := f.ns.set (pIndex + 1) rs' }) depthPred
            let frames₂ := updatePartition (pIndex + 1) frames₁ depthPred rightKey
            rebuildFrames frames₂ cur'
          else if leftSib.isSome ∧ ls.nodesOf.length > NodeCapacity >>> 1 then
            -- borrow from left sibling
            let cur' := Node.branch (pps.getD (pIndex - 1) none :: ps)
              (ls.nodesOf.getLastD (.leaf []) :: ns)
            let pKey := ls.partitionsOf.getLastD none
            let ls' := Node.branch ls.partitionsOf.dropLast ls.nodesOf.dropLast
            let frames₁ := frames.modify
              (fun f => { f with ns := f.ns.set (pIndex - 1) ls' }) depthPred
            let frames₂ := updatePartition pIndex frames₁ depthPred pKey
            rebuildFrames frames₂ cur'
          else if rightSib.isSome ∧ rs.nodesOf.length + ns.length ≤ NodeCapacity then
            -- merge right sibling into self
            let pKey := pps.getD pIndex none
            let pps' := pps.eraseIdx pIndex
            let cur' := Node.branch (ps ++ [pKey] ++ rs.partitionsOf) (ns ++ rs.nodesOf)
            let pns' := (pns.set pIndex cur').eraseIdx (pIndex + 1)
            let frames₁ := frames.modify
              (fun f => { f with ps := pps', ns := pns' }) depthPred
            let frames₂ := if pIndex = 0 ∧ pps'.length > 0 then
                updatePartition pIndex frames₁ depthPred (pps'.getD 0 none)
              else frames₁
            rebalanceBranchGo fuel frames₂.dropLast
              (Node.branch (frames₂.getLastD default).ps (frames₂.getLastD default).ns)
          else if leftSib.isSome ∧ ls.nodesOf.length + ns.length ≤ NodeCapacity then
            -- merge self into left sibling
            let pKey := pps.getD (pIndex - 1) none
            let pps' := pps.eraseIdx (pIndex - 1)
            let newLeft := Node.branch (ls.partitionsOf ++ [pKey] ++ ps) (ls.nodesOf ++ ns)
            let pns' := (pns.set (pIndex - 1) newLeft).eraseIdx pIndex
            let frames₁ := frames.modify
              (fun f => { f with ps := pps', ns := pns' }) depthPred
            rebalanceBranchGo fuel frames₁.dropLast
              (Node.branch (frames₁.getLastD default).ps (frames₁.getLastD default).ns)
          else rebuildFrames frames cur

/-- `rebalanceBranch(path, depth)` with `depth = frames.length`: `cur` is
the branch being rebalanced, `frames` its strict ancestors.  Returns the
final root of the whole tree (the source's `undefined` return means "no
root change", i.e. the already-mutated tree, here `rebuildFrames`).  The
fuel is the frame count, which each upward recursion step decrements
together with `dropLast`, so it never runs out. -/
def rebalanceBranch (frames : List DFrame) (cur : Node) : Node :=
  rebalanceBranchGo frames.length frames cur

/-- `rebalanceLeaf(path, depth)` with `depth = frames.length`: `leaf` is the
just-spliced leaf's entries, `frames` the path's branch frames.  Returns the
final root of the whole tree. -/
def rebalanceLeaf (frames : List DFrame) (leaf : List Int) : Node :=
  if frames.length = 0 ∨ leaf.length ≥ NodeCapacity >>> 1 then
    rebuildFrames frames (.leaf leaf)
  else
    match frames.getLast? with
    | none => .leaf leaf  -- unreachable: frames.length ≠ 0 here
    | some parent =>
      let pIndex := parent.idx
      let pps := parent.ps
      let pns := parent.ns
      let depthPred := frames.length - 1
      let rightSib := if pIndex < pns.length then pns[pIndex + 1]? else none
      let leftSib := if pIndex > 0 then pns[pIndex - 1]? else none
      let rs := (rightSib.getD (.leaf [])).entriesOf
      let ls := (leftSib.getD (.leaf [])).entriesOf
      if rightSib.isSome ∧ rs.length > NodeCapacity >>> 1 then
        -- borrow one entry from the right sibling
        let entry := rs.headD 0
        let leaf' := leaf ++ [entry]
        let rs' := rs.tail
        let frames₁ := frames.modify
          (fun f => { f with ns := f.ns.set (pIndex + 1) (.leaf rs') }) depthPred
        let frames₂ := updatePartition (pIndex + 1) frames₁ depthPred rs'.head?
        rebuildFrames frames₂ (.leaf leaf')
      else if leftSib.isSome ∧ ls.length > NodeCapacity >>> 1 then
        -- borrow one entry from the left sibling
        let entry := ls.getLastD 0
        let leaf' := entry :: leaf
        let ls' := ls.dropLast
        let frames₁ := frames.modify
          (fun f => { f with ns := f.ns.set (pIndex - 1) (.leaf ls') }) depthPred
        let frames₂ := updatePartition pIndex frames₁ depthPred (some entry)
        rebuildFrames frames₂ (.leaf leaf')
      else if rightSib.isSome ∧ rs.length + leaf.length ≤ NodeCapacity then
        -- merge the right sibling into this leaf (right sibling deleted)
        let leaf' := leaf ++ rs
        let pps' := pps.eraseIdx pIndex
        let pns' := (pns.set pIndex (.leaf leaf')).eraseIdx (pIndex + 1)
        let frames₁ := frames.modify
          (fun f => { f with ps := pps', ns := pns' }) depthPred
        let frames₂ := if pIndex = 0 then
            updatePartition pIndex frames₁ depthPred leaf'.head?
          else frames₁
        rebalanceBranch frames₂.dropLast
          (Node.branch (frames₂.getLastD default).ps (frames₂.getLastD default).ns)
      else if leftSib.isSome ∧ ls.length + leaf.length ≤ NodeCapacity then
        -- merge this leaf into the left sibling (this leaf deleted)
        let newLeft := ls ++ leaf
        let pps' := pps.eraseIdx (pIndex - 1)
        let pns' := (pns.set (pIndex - 1) (.leaf newLeft)).eraseIdx pIndex
        let frames₁ := frames.modify
          (fun f => { f with ps := pps', ns := pns' }) depthPred
        rebalanceBranch frames₁.dropLast
          (Node.branch (frames₁.getLastD default).ps (frames₁.getLastD default).ns)
      else rebuildFrames frames (.leaf leaf)

/-- `internalDelete(path)`: splice the entry out of the leaf; on a non-root
leaf propagate a new index-0 key upward (`updatePartition`, reading the
possibly out-of-range `entries[leafIndex]`) and rebalance.  Returns whether
an entry was removed, together with the new root. -/
def BTreeT.internalDelete (t : BTreeT) (p : PathIdx) : Bool × Node :=
  if p.isOn then
    let leafEs := t.root.leafAt p.branches
    let leaf' := leafEs.eraseIdx p.leafIndex
    if p.branches.length = 0 then
      (true, .leaf leaf')
    else
      let frames := dframesOf t.root p.branches
      let frames₁ := if p.leafIndex = 0 then
          updatePartition (frames.getLastD default).idx frames
            (frames.length - 1) leaf'[p.leafIndex]?
        else frames
      (true, rebalanceLeaf frames₁ leaf')
  else (false, t.root)

/-- Error kinds the engine throws. -/
inductive BTreeErr where
  | stalePath
deriving DecidableEq

instance {ε α : Type} [DecidableEq ε] [DecidableEq α] : DecidableEq (Except ε α)
  | .ok a, .ok b =>
    if h : a = b then isTrue (by rw [h]) else isFalse (fun hc => h (Except.ok.inj hc))
  | .ok _, .error _ => isFalse (fun hc => Except.noConfusion hc)
  | .error _, .ok _ => isFalse (fun hc => Except.noConfusion hc)
  | .error a, .error b =>
    if h : a = b then isTrue (by rw [h]) else isFalse (fun hc => h (Except.error.inj hc))

/-- `deleteAt(path)`: validate, delete, and bump the version on success. -/
def BTreeT.deleteAt (t : BTreeT) (p : PathIdx) : Except BTreeErr (Bool × BTreeT) :=
  if ¬ t.isValid p then .error .stalePath
  else
    let r := t.internalDelete p
    if r.1 then .ok (true, ⟨r.2, t.version + 1⟩)
    else .ok (false, ⟨r.2, t.version⟩)

/-! ## Iteration, counting, and the remaining path-taking operations -/

/-- Entry at an on-path, as `at()` reads it (`leafNode.entries[leafIndex]`). -/
def entryAtPath (t : Node) (p : PathIdx) : Option Int :=
  (t.leafAt p.branches)[p.leafIndex]?

/-- The entries yielded by `internalAscending(path)`: repeat "yield,
`moveNext`" while the path is on.  The loop terminates because each step
advances the path's flat position (`internalNext_position` below); the
`fuel` argument is always instantiated with `count + 1`, which that bound
shows is enough. -/
def ascendList (t : Node) (fuel : Nat) (p : PathIdx) : List Int :=
  match fuel with
  | 0 => []
  | fuel + 1 =>
    if p.isOn then
      (t.leafAt p.branches).getD p.leafIndex 0 :: ascendList t fuel (internalNext t p)
    else []

/-- The entries yielded by `internalDescending(path)`. -/
def descendList (t : Node) (fuel : Nat) (p : PathIdx) : List Int :=
  match fuel with
  | 0 => []
  | fuel + 1 =>
    if p.isOn then
      (t.leafAt p.branches).getD p.leafIndex 0 :: descendList t fuel (internalPrior t p)
    else []

/-- `ascending(path)`: validate, clone, and iterate.  (The `moveNext` calls
inside the iteration also validate, but the version cannot change during a
pure traversal, so they never throw here.) -/
def BTreeT.ascending (t : BTreeT) (p : PathIdx) : Except BTreeErr (List Int) :=
  if ¬ t.isValid p then .error .stalePath
  else .ok (ascendList t.root (t.root.count + 1) p)

/-- `descending(path)`. -/
def BTreeT.descending (t : BTreeT) (p : PathIdx) : Except BTreeErr (List Int) :=
  if ¬ t.isValid p then .error .stalePath
  else .ok (descendList t.root (t.root.count + 1) p)

/-- The ascending loop of `getCount`: add the entries from `leafIndex` to
the leaf's end, jump to the leaf's last slot, and step forward. -/
def countGo (t : Node) (fuel : Nat) (p : PathIdx) (acc : Nat) : Nat :=
  match fuel with
  | 0 => acc
  | fuel + 1 =>
    if p.isOn then
      let len := (t.leafAt p.branches).length
      countGo t fuel (internalNext t { p with leafIndex := len - 1 })
        (acc + (len - p.leafIndex))
    else acc

/-- The descending loop of `getCount`.  Unlike the ascending loop it calls
`internalPrior`, which begins with `validatePath`, so a stale path throws
once the loop body runs. -/
def countGoDesc (t : BTreeT) (fuel : Nat) (p : PathIdx) (acc : Nat) :
    Except BTreeErr Nat :=
  match fuel with
  | 0 => .ok acc
  | fuel + 1 =>
    if p.isOn then
      if p.version ≠ t.version then .error .stalePath
      else countGoDesc t fuel (internalPrior t.root { p with leafIndex := 0 })
        (acc + (p.leafIndex + 1))
    else .ok acc

/-- `getCount()` with no `from` argument: walk from `first()`. -/
def BTreeT.getCount (t : BTreeT) : Nat :=
  countGo t.root (t.root.count + 1) t.first 0

/-- `getCount(from)`: clone the given path and walk in the requested
direction.  Note that, unlike every other path-taking operation, it does
*not* call `validatePath` up front; the ascending walk never checks the
stamp at all. -/
def BTreeT.getCountFrom (t : BTreeT) (p : PathIdx) (ascending : Bool) :
    Except BTreeErr Nat :=
  if ascending then .ok (countGo t.root (t.root.count + 1) p 0)
  else countGoDesc t (t.root.count + 1) p 0

/-- `at(path)`: validate, then read the entry (or `undefined`). -/
def BTreeT.at (t : BTreeT) (p : PathIdx) : Except BTreeErr (Option Int) :=
  if ¬ t.isValid p then .error .stalePath
  else .ok (if p.isOn then entryAtPath t.root p else none)

/-- `moveNext(path)`: validate, then step. -/
def BTreeT.moveNext (t : BTreeT) (p : PathIdx) : Except BTreeErr PathIdx :=
  if ¬ t.isValid p then .error .stalePath
  else .ok (internalNext t.root p)

/-- `next(path)`: clone, then `moveNext` the clone. -/
def BTreeT.next (t : BTreeT) (p : PathIdx) : Except BTreeErr PathIdx :=
  t.moveNext p

/-- `movePrior(path)`: validate, then step backward. -/
def BTreeT.movePrior (t : BTreeT) (p : PathIdx) : Except BTreeErr PathIdx :=
  if ¬ t.isValid p then .error .stalePath
  else .ok (internalPrior t.root p)

/-- `prior(path)`: clone, then `movePrior` the clone. -/
def BTreeT.prior (t : BTreeT) (p : PathIdx) : Except BTreeErr PathIdx :=
  t.movePrior p

/-- Overwrite the entry at a path position (`path.leafNode.entries[path.leafIndex] = newEntry`). -/
def setLeafEntry : Node → List Nat → Nat → Int → Node
  | .leaf es, [], i, v => .leaf (es.set i v)
  | .branch ps ns, j :: rest, i, v =>
    .branch ps (ns.set j (setLeafEntry (ns.getD j (.leaf [])) rest i v))
  | n, _, _, _ => n

/-- `internalUpdate(path, newEntry)`: same key overwrites in place, a
changed key deletes and re-inserts (re-finding after each mutation).
Returns the new root, the result path, and `wasUpdate`. -/
def BTreeT.internalUpdate (t : BTreeT) (p : PathIdx) (newEntry : Int) :
    Node × PathIdx × Bool :=
  if p.isOn then
    let oldKey := (t.root.leafAt p.branches).getD p.leafIndex 0
    if compareKeys (some oldKey) (some newEntry) ≠ 0 then
      let r := t.internalInsert newEntry
      if r.2.isOn then
        let t₁ : BTreeT := ⟨r.1, t.version⟩
        let d := t₁.internalDelete (t₁.find oldKey)
        let t₂ : BTreeT := ⟨d.2, t.version⟩
        (t₂.root, t₂.find newEntry, false)
      else (r.1, r.2, false)
    else (setLeafEntry t.root p.branches p.leafIndex newEntry, p, true)
  else (t.root, p, true)

/-- `updateAt(path, newEntry)`: validate, update, bump the version when the
result path is on. -/
def BTreeT.updateAt (t : BTreeT) (p : PathIdx) (newEntry : Int) :
    Except BTreeErr ((PathIdx × Bool) × BTreeT) :=
  if ¬ t.isValid p then .error .stalePath
  else
    let r := t.internalUpdate p newEntry
    if r.2.1.isOn then
      .ok (({ r.2.1 with version := t.version + 1 }, r.2.2), ⟨r.1, t.version + 1⟩)
    else .ok ((r.2.1, r.2.2), ⟨r.1, t.version⟩)

/-- `merge(newEntry, getUpdated)`: find by key; on a hit call the
user callback (which receives and may mutate the tree state, modelled by
state passing) and apply the result through `updateAt` — which is where a
callback that mutated the tree trips `validatePath`.  On a miss insert the
new entry.  The `on` result bumps the version once more, as the source
does. -/
def BTreeT.merge (t : BTreeT) (newEntry : Int)
    (getUpdated : Int → BTreeT → Int × BTreeT) :
    Except BTreeErr ((PathIdx × Bool) × BTreeT) :=
  let newKey := newEntry
  let path := t.find newKey
  if path.isOn then
    let existing := (t.root.leafAt path.branches).getD path.leafIndex 0
    let r := getUpdated existing t
    match r.2.updateAt path r.1 with
    | .error e => .error e
    | .ok ((p', wasU), t') =>
      if p'.isOn then
        .ok (({ p' with version := t'.version + 1 }, wasU), ⟨t'.root, t'.version + 1⟩)
      else .ok ((p', wasU), t')
  else
    let r := internalInsertAt t.root path newEntry
    .ok (({ r.2 with isOn := true, version := t.version + 1 }, false),
      ⟨r.1, t.version + 1⟩)

/-! ## Range scans (`key-range.ts`, `range`, `findFirst`, `findLast`) -/

/-- `KeyBound`: a key plus inclusivity flag. -/
structure KeyBoundF where
  key : Int
  inclusive : Bool

/-- `KeyRange`: optional bounds and a direction. -/
structure KeyRangeF where
  first : Option KeyBoundF
  last : Option KeyBoundF
  isAscending : Bool

/-- `findFirst(range)` (assumes `range.first` is defined): find the bound's
key and nudge one step in scan direction when unmatched or exclusive. -/
def BTreeT.findFirst (t : BTreeT) (r : KeyRangeF) : PathIdx :=
  let b := r.first.getD ⟨0, true⟩
  let startPath := t.find b.key
  if ¬ startPath.isOn ∨ ¬ b.inclusive then
    if r.isAscending then internalNext t.root startPath
    else internalPrior t.root startPath
  else startPath

/-- `findLast(range)` (assumes `range.last` is defined). -/
def BTreeT.findLast (t : BTreeT) (r : KeyRangeF) : PathIdx :=
  let b := r.last.getD ⟨0, true⟩
  let endPath := t.find b.key
  if ¬ endPath.isOn ∨ ¬ b.inclusive then
    if r.isAscending then internalPrior t.root endPath
    else internalNext t.root endPath
  else endPath

/-- The `for (let path of iterable)` loop of `range`: stop when the path (or
the end path) is off, or the current key passes `endKey` in scan direction;
otherwise yield and step. -/
def rangeGo (t : Node) (fuel : Nat) (p : PathIdx) (endOn : Bool) (endKey : JKey)
    (isAscending : Bool) : List Int :=
  match fuel with
  | 0 => []
  | fuel + 1 =>
    if ¬ p.isOn then []
    else if ¬ endOn then []
    else if compareKeys (entryAtPath t p) endKey * (if isAscending then 1 else -1) > 0 then []
    else (t.leafAt p.branches).getD p.leafIndex 0 ::
      rangeGo t fuel ((if isAscending then internalNext else internalPrior) t p)
        endOn endKey isAscending

/-- `range(keyRange)`: compute the start and end paths from the bounds
(defaulting to the tree's ends in scan direction), read `endKey` off the end
path (an `undefined` read on an empty tree), and run the bounded loop. -/
def BTreeT.range (t : BTreeT) (r : KeyRangeF) : List Int :=
  let startPath := match r.first with
    | some _ => t.findFirst r
    | none => if r.isAscending then t.first else t.last
  let endPath := match r.last with
    | some _ => t.findLast r
    | none => if r.isAscending then t.last else t.first
  let endKey : JKey := entryAtPath t.root endPath
  rangeGo t.root (t.root.count + 1) startPath endPath.isOn endKey r.isAscending

/-! ## Concrete scenarios used by the claim theorems -/

/-- The regression scenario of the repository's own test "should not corrupt
tree when deleting index 0 causes leaf to become empty (bug #1)": three
leaves under the root, the middle one holding a single entry. -/
def c2Tree : BTreeT :=
  ⟨.branch [some 50, some 100]
    [.leaf ((List.range 32).map Int.ofNat),
     .leaf [50],
     .leaf ((List.range 32).map (fun i => Int.ofNat i + 100))], 0⟩

/-- The tree after `deleteAt(find(50))` on `c2Tree`. -/
def c2After : BTreeT :=
  match c2Tree.deleteAt (c2Tree.find 50) with
  | .ok r => r.2
  | .error _ => c2Tree

/-- Partitions of a three-level tree for the branch-rebalancing scenario:
keys `base, base+2, base+4, …` split two to a leaf. -/
def c3Parts (base : Int) : List JKey :=
  (List.range 32).map (fun j => some (base + 2 * (j + 1)))

/-- Leaves of the branch-rebalancing scenario. -/
def c3Leaves (base : Int) : List Node :=
  (List.range 33).map (fun j => .leaf [base + 2 * j, base + 2 * j + 1])

/-- A root with two branch children of 33 leaf-children each.  Deleting key
`1` makes leaf `[0, 1]` underflow and merge with its right neighbour, so the
left branch drops to exactly `Capacity/2 = 32` children. -/
def c3Tree : BTreeT :=
  ⟨.branch [some 100]
    [.branch (c3Parts 0) (c3Leaves 0), .branch (c3Parts 100) (c3Leaves 100)], 0⟩

/-- The tree after `deleteAt(find(1))` on `c3Tree`. -/
def c3After : BTreeT :=
  match c3Tree.deleteAt (c3Tree.find 1) with
  | .ok r => r.2
  | .error _ => c3Tree

/-- The keys `0 … Capacity` in ascending order. -/
def c7Keys : List Int := (List.range (NodeCapacity + 1)).map Int.ofNat

/-! ## Specification-side predicates used by the proofs

These are proof infrastructure (not translations of source code): the
ordering invariant the tree maintains, flat positions of paths, and path
validity.  They are all executable so that concrete witnesses evaluate. -/

/-- Lower-bound check: `none` is "unbounded below". -/
def lowOkB : JKey → Int → Bool
  | none, _ => true
  | some l, x => l ≤ x

/-- Upper-bound check (strict): `none` is "unbounded above". -/
def highOkB : Int → JKey → Bool
  | _, none => true
  | x, some h => x < h

/-- Strict comparison of an optional lower bound against a partition key. -/
def jkLowLt : JKey → JKey → Bool
  | none, _ => true
  | some _, none => true
  | some a, some b => a < b

/-- Strictly ascending entry list. -/
def chainLtB : List Int → Bool
  | [] => true
  | [_] => true
  | a :: b :: rest => a < b && chainLtB (b :: rest)

/-- Interval check of a child sequence against its partition keys: child
`j` lies in `[pⱼ₋₁, pⱼ)`, partitions are genuine (`some`) keys, and each
lies strictly between the surrounding bounds.  The cons structure forces
`nodes.length = partitions.length + 1`. -/
def ordSeq (chk : JKey → Node → JKey → Bool) :
    JKey → List JKey → List Node → JKey → Bool
  | lo, [], [n], hi => chk lo n hi
  | lo, p :: ps, n :: ns, hi =>
    p.isSome && jkLowLt lo p && jkLowLt p hi && chk lo n p && ordSeq chk p ps ns hi
  | _, _, _, _ => false

/-- Fueled ordering invariant. -/
def ordGo : Nat → JKey → Node → JKey → Bool
  | _, lo, .leaf es, hi =>
    chainLtB es && es.all (fun x => lowOkB lo x && highOkB x hi)
  | 0, _, .branch _ _, _ => false
  | fuel + 1, lo, .branch ps ns, hi =>
    ordSeq (fun l c h => ordGo fuel l c h) lo ps ns hi

/-- The ordering invariant: every leaf is strictly sorted inside the key
interval assigned to it by the partitions above. -/
def ordB (lo : JKey) (n : Node) (hi : JKey) : Bool := ordGo n.sz lo n hi

/-- Flat position of a path's branch prefix: entries in subtrees left of
the chosen child, summed along the descent. -/
def posGo : Node → List Nat → Nat
  | _, [] => 0
  | n, j :: rest =>
    ((n.nodesOf.take j).map Node.count).sum + posGo (n.childAt j) rest

/-- Flat position of a path: entries strictly before it in tree order. -/
def position (n : Node) (p : PathIdx) : Nat := posGo n p.branches + p.leafIndex

/-- Structural validity of an on-path: the index chain descends through
real children and ends at a real leaf slot. -/
def validOnB : Node → List Nat → Nat → Bool
  | .leaf es, [], li => li < es.length
  | .branch _ ns, j :: rest, li => j < ns.length && validOnB (ns.getD j (.leaf [])) rest li
  | _, _, _ => false

/-- Insertion into a sorted list at the count of smaller entries. -/
def insSorted (k : Int) (l : List Int) : List Int :=
  l.insertIdx (l.countP (fun x => decide (x < k))) k

/-- `ordSeq` instantiated with the fuel-free invariant as the child check. -/
def ordSeqB (lo : JKey) (ps : List JKey) (ns : List Node) (hi : JKey) : Bool :=
  ordSeq (fun l c h => ordB l c h) lo ps ns hi

/-- Strictly increasing chain of partition keys above a lower bound. -/
def chainKeyB : JKey → List JKey → Bool
  | _, [] => true
  | lo, p :: ps => jkLowLt lo p && chainKeyB p ps

/-- Structural validity of a path that may rest on the crack one past the
leaf's last entry. -/
def validOffB : Node → List Nat → Nat → Bool
  | .leaf es, [], li => li ≤ es.length
  | .branch _ ns, j :: rest, li => j < ns.length && validOffB (ns.getD j (.leaf [])) rest li
  | _, _, _ => false

/-- Structural validity of an index chain prefix: it descends through real
children (without any condition on where it stops). -/
def validToB : Node → List Nat → Bool
  | _, [] => true
  | .branch _ ns, j :: rest => j < ns.length && validToB (ns.getD j (.leaf [])) rest
  | .leaf _, _ :: _ => false

/-- Well-formedness of a whole tree state: the ordering invariant plus the
root shape invariant. -/
def WFB (t : BTreeT) : Bool := ordB none t.root none && t.root.wfRootShape

/-- Entries stored in a delete frame outside the tracked child. -/
def frameRest (f : DFrame) : Nat :=
  ((f.ns.take f.idx).map Node.count).sum +
    ((f.ns.drop (f.idx + 1)).map Node.count).sum

/-- Entries stored outside the tracked spine of a delete-frame stack. -/
def framesBase (frames : List DFrame) : Nat := (frames.map frameRest).sum

/-- Shape health of one delete frame: the tracked index is a real child,
the branch ratio holds, and every untracked child is shape-correct. -/
def frameOkB (f : DFrame) : Bool :=
  decide (f.idx < f.ns.length) && decide (f.ns.length = f.ps.length + 1) &&
    (f.ns.take f.idx).all Node.wfShape &&
    (f.ns.drop (f.idx + 1)).all Node.wfShape

/-- Shape health of a delete-frame stack. -/
def framesOkB (frames : List DFrame) : Bool := frames.all frameOkB

/-- The data of a frame that `updatePartition` cannot change: children,
tracked index, and partition count. -/
def frameSkel (f : DFrame) : List Node × Nat × Nat := (f.ns, f.idx, f.ps.length)

/-- Fueled check that every branch of the tree keeps at least one
partition (two children). -/
def branch2Go : Nat → Node → Bool
  | _, .leaf _ => true
  | 0, .branch _ _ => false
  | fuel + 1, .branch ps ns => decide (1 ≤ ps.length) && ns.all (branch2Go fuel)

/-- Every branch of the tree has at least two children. -/
def branch2B (n : Node) : Bool := branch2Go n.sz n

/-- Leaf test. -/
def Node.isLeafB : Node → Bool
  | .leaf _ => true
  | .branch _ _ => false

/-- Every frame's children are branch nodes. -/
def stackBranchKids (frames : List DFrame) : Bool :=
  frames.all fun f => f.ns.all fun c => !c.isLeafB

/-- Fueled check that each branch's children are homogeneous: all leaves or
all branches (true of every tree of uniform leaf depth). -/
def homoGo : Nat → Node → Bool
  | _, .leaf _ => true
  | 0, .branch _ _ => false
  | fuel + 1, .branch _ ns =>
    (ns.all Node.isLeafB || ns.all fun c => !c.isLeafB) && ns.all (homoGo fuel)

/-- Each branch's children are all leaves or all branches. -/
def homoB (n : Node) : Bool := homoGo n.sz n

/-- Soundness payload of `insertAlong` relative to the interval `[lo, hi)`:
either no split with the ordered insertion intact, or a split whose
promoted key cleanly separates the two ordered halves. -/
def InsOK (lo hi : JKey) (k : Int) (n : Node) (r : InsResult) : Prop :=
  match r.split with
  | none => ordB lo r.node hi = true ∧ r.node.wfShape = true ∧
      r.node.toList = insSorted k n.toList
  | some s =>
      ∃ m : Int, s.key = some m ∧
        jkLowLt lo (some m) = true ∧ jkLowLt (some m) hi = true ∧
        ordB lo r.node (some m) = true ∧ ordB (some m) s.right hi = true ∧
        r.node.wfShape = true ∧ s.right.wfShape = true ∧
        r.node.toList ++ s.right.toList = insSorted k n.toList

/-! ## Theorems

Basic lemmas about the embedded definitions, followed by the claim
theorems. -/

theorem compareKeys_consistent (a b : JKey) :
    jsCompare a b ≠ 0 → jsCompare b a ≠ jsCompare a b := by
  cases a with
  | none => simp [jsCompare]
  | some x =>
    cases b with
    | none => simp [jsCompare]
    | some y =>
      simp only [jsCompare]
      rcases lt_trichotomy x y with h | h | h
      · simp [h, not_lt.mpr h.le, h.not_lt]
      · simp [h]
      · simp [h, not_lt.mpr h.le, h.not_lt]

theorem Node.sizeOf_lt_of_mem {n : Node} {ps : List JKey} {ns : List Node} (h : n ∈ ns) :
    sizeOf n < sizeOf (Node.branch ps ns) := by
  have := List.sizeOf_lt_of_mem h
  simp only [Node.branch.sizeOf_spec]
  omega

theorem Node.inductionOn {P : Node → Prop}
    (hleaf : ∀ es, P (.leaf es))
    (hbranch : ∀ ps ns, (∀ n ∈ ns, P n) → P (.branch ps ns)) :
    ∀ n, P n := by
  intro n
  induction n using Node.rec (motive_2 := fun ns => ∀ n ∈ ns, P n) with
  | leaf es => exact hleaf es
  | branch ps ns ih => exact hbranch ps ns ih
  | nil =>
    rename_i n h
    cases h
  | cons head tail ihh iht =>
    rename_i n h
    rcases List.mem_cons.mp h with rfl | h
    · exact ihh
    · exact iht n h

theorem Node.sz_pos (n : Node) : 1 ≤ n.sz := by
  cases n <;> simp [Node.sz]

theorem Node.sz_le_szList {c : Node} {ns : List Node} (h : c ∈ ns) :
    c.sz ≤ Node.szList ns := by
  induction ns with
  | nil => cases h
  | cons head tail ih =>
    rcases List.mem_cons.mp h with rfl | h
    · simp [Node.szList]
    · have := ih h
      simp [Node.szList]
      omega

theorem Node.sz_lt_of_mem {c : Node} {ps : List JKey} {ns : List Node} (h : c ∈ ns) :
    c.sz < (Node.branch ps ns).sz := by
  have := Node.sz_le_szList h
  simp [Node.sz]
  omega

theorem List.all_congr_mem {α : Type} {f g : α → Bool} (l : List α)
    (h : ∀ x ∈ l, f x = g x) : l.all f = l.all g := by
  induction l with
  | nil => rfl
  | cons a t ih =>
    simp only [List.all_cons, h a (by simp)]
    rw [ih (fun x hx => h x (by simp [hx]))]

theorem Node.toListGo_congr :
    ∀ (fuel : Nat) (n : Node), n.sz ≤ fuel → Node.toListGo fuel n = n.toList := by
  intro fuel
  induction fuel using Nat.strong_induction_on with
  | _ fuel ih =>
    intro n hle
    match n with
    | .leaf es => cases fuel <;> rfl
    | .branch ps ns =>
      have hpos : 2 ≤ (Node.branch ps ns).sz := by
        simp [Node.sz]
      match fuel, hle with
      | fuel + 1, hle =>
        obtain ⟨m, hm⟩ : ∃ m, (Node.branch ps ns).sz = m + 1 :=
          ⟨(Node.branch ps ns).sz - 1, by omega⟩
        rw [Node.toList, hm, Node.toListGo, Node.toListGo]
        congr 1
        apply List.map_congr_left
        intro c hc
        have hlt : c.sz < (Node.branch ps ns).sz := Node.sz_lt_of_mem hc
        calc Node.toListGo fuel c = c.toList := ih fuel (by omega) c (by omega)
          _ = Node.toListGo m c := (ih m (by omega) c (by omega)).symm

theorem Node.toList_leaf (es : List Int) : (Node.leaf es).toList = es := rfl

theorem Node.toList_branch (ps : List JKey) (ns : List Node) :
    (Node.branch ps ns).toList = (ns.map Node.toList).flatten := by
  have hpos : 2 ≤ (Node.branch ps ns).sz := by
    simp [Node.sz]
  obtain ⟨m, hm⟩ : ∃ m, (Node.branch ps ns).sz = m + 1 :=
    ⟨(Node.branch ps ns).sz - 1, by omega⟩
  rw [Node.toList, hm, Node.toListGo]
  congr 1
  apply List.map_congr_left
  intro c hc
  have hlt : c.sz < (Node.branch ps ns).sz := Node.sz_lt_of_mem hc
  exact Node.toListGo_congr m c (by omega)

theorem Node.count_leaf (es : List Int) : (Node.leaf es).count = es.length := by
  simp [Node.count, Node.toList_leaf]

theorem Node.count_branch (ps : List JKey) (ns : List Node) :
    (Node.branch ps ns).count = (ns.map Node.count).sum := by
  simp only [Node.count, Node.toList_branch, List.length_flatten, List.map_map]
  rfl

theorem Node.wfShapeGo_congr :
    ∀ (fuel : Nat) (n : Node), n.sz ≤ fuel → Node.wfShapeGo fuel n = n.wfShape := by
  intro fuel
  induction fuel using Nat.strong_induction_on with
  | _ fuel ih =>
    intro n hle
    match n with
    | .leaf es => cases fuel <;> rfl
    | .branch ps ns =>
      have hpos : 2 ≤ (Node.branch ps ns).sz := by
        simp [Node.sz]
      match fuel, hle with
      | fuel + 1, hle =>
        obtain ⟨m, hm⟩ : ∃ m, (Node.branch ps ns).sz = m + 1 :=
          ⟨(Node.branch ps ns).sz - 1, by omega⟩
        rw [Node.wfShape, hm, Node.wfShapeGo, Node.wfShapeGo]
        congr 1
        apply List.all_congr_mem
        intro c hc
        have hlt : c.sz < (Node.branch ps ns).sz := Node.sz_lt_of_mem hc
        calc Node.wfShapeGo fuel c = c.wfShape := ih fuel (by omega) c (by omega)
          _ = Node.wfShapeGo m c := (ih m (by omega) c (by omega)).symm

theorem Node.wfShape_leaf (es : List Int) :
    (Node.leaf es).wfShape = !es.isEmpty := rfl

theorem Node.wfShape_branch (ps : List JKey) (ns : List Node) :
    (Node.branch ps ns).wfShape =
      (decide (ns.length = ps.length + 1) && ns.all Node.wfShape) := by
  have hpos : 2 ≤ (Node.branch ps ns).sz := by
    simp [Node.sz]
  obtain ⟨m, hm⟩ : ∃ m, (Node.branch ps ns).sz = m + 1 :=
    ⟨(Node.branch ps ns).sz - 1, by omega⟩
  rw [Node.wfShape, hm, Node.wfShapeGo]
  congr 1
  apply List.all_congr_mem
  intro c hc
  have hlt : c.sz < (Node.branch ps ns).sz := Node.sz_lt_of_mem hc
  exact Node.wfShapeGo_congr m c (by omega)

theorem List.one_le_sizeOf {α : Type} [SizeOf α] (l : List α) : 1 ≤ sizeOf l := by
  cases l <;> simp_arith

theorem Node.sizeOf_childAt_lt (ps : List JKey) (ns : List Node) (i : Nat) :
    sizeOf ((Node.branch ps ns).childAt i) < sizeOf (Node.branch ps ns) := by
  simp only [Node.childAt, Node.nodesOf]
  by_cases h : i < ns.length
  · have hm : ns.getD i (Node.leaf []) ∈ ns := by
      rw [List.getD_eq_getElem _ _ h]
      exact List.getElem_mem h
    exact Node.sizeOf_lt_of_mem hm
  · rw [List.getD_eq_default _ _ (Nat.le_of_not_lt h)]
    have h1 := List.one_le_sizeOf ps
    have h2 := List.one_le_sizeOf ns
    simp only [Node.branch.sizeOf_spec, Node.leaf.sizeOf_spec, List.nil.sizeOf_spec]
    omega

theorem Node.sz_childAt_lt (ps : List JKey) (ns : List Node) (i : Nat) :
    ((Node.branch ps ns).childAt i).sz < (Node.branch ps ns).sz := by
  simp only [Node.childAt, Node.nodesOf]
  by_cases h : i < ns.length
  · have hm : ns.getD i (Node.leaf []) ∈ ns := by
      rw [List.getD_eq_getElem _ _ h]
      exact List.getElem_mem h
    exact Node.sz_lt_of_mem hm
  · rw [List.getD_eq_default _ _ (Nat.le_of_not_lt h)]
    simp [Node.sz]

theorem getPathGo_congr (key : JKey) :
    ∀ (fuel : Nat) (n : Node), n.sz ≤ fuel → getPathGo key fuel n = getPath n key := by
  intro fuel
  induction fuel using Nat.strong_induction_on with
  | _ fuel ih =>
    intro n hle
    match n with
    | .leaf es => cases fuel <;> rfl
    | .branch ps ns =>
      have hpos : 2 ≤ (Node.branch ps ns).sz := by simp [Node.sz]
      match fuel, hle with
      | fuel + 1, hle =>
        obtain ⟨m, hm⟩ : ∃ m, (Node.branch ps ns).sz = m + 1 :=
          ⟨(Node.branch ps ns).sz - 1, by omega⟩
        have hc := Node.sz_childAt_lt ps ns (indexOfKey ps key)
        rw [getPath, hm, getPathGo, getPathGo]
        have h1 := ih fuel (by omega) ((Node.branch ps ns).childAt (indexOfKey ps key)) (by omega)
        have h2 := ih m (by omega) ((Node.branch ps ns).childAt (indexOfKey ps key)) (by omega)
        rw [h1, h2]

theorem getPath_leaf (es : List Int) (key : JKey) :
    getPath (.leaf es) key = ⟨[], (indexOfEntry es key).2, (indexOfEntry es key).1, 0⟩ := rfl

theorem getPath_branch (ps : List JKey) (ns : List Node) (key : JKey) :
    getPath (.branch ps ns) key =
      (let index := indexOfKey ps key
       let path := getPath ((Node.branch ps ns).childAt index) key
       { path with branches := index :: path.branches }) := by
  have hpos : 2 ≤ (Node.branch ps ns).sz := by simp [Node.sz]
  obtain ⟨m, hm⟩ : ∃ m, (Node.branch ps ns).sz = m + 1 :=
    ⟨(Node.branch ps ns).sz - 1, by omega⟩
  have hc := Node.sz_childAt_lt ps ns (indexOfKey ps key)
  rw [getPath, hm, getPathGo]
  rw [getPathGo_congr _ m _ (by omega)]

theorem getFirstGo_congr :
    ∀ (fuel : Nat) (n : Node), n.sz ≤ fuel → getFirstGo fuel n = getFirst n := by
  intro fuel
  induction fuel using Nat.strong_induction_on with
  | _ fuel ih =>
    intro n hle
    match n with
    | .leaf es => cases fuel <;> rfl
    | .branch ps ns =>
      have hpos : 2 ≤ (Node.branch ps ns).sz := by simp [Node.sz]
      match fuel, hle with
      | fuel + 1, hle =>
        obtain ⟨m, hm⟩ : ∃ m, (Node.branch ps ns).sz = m + 1 :=
          ⟨(Node.branch ps ns).sz - 1, by omega⟩
        have hc := Node.sz_childAt_lt ps ns 0
        rw [getFirst, hm, getFirstGo, getFirstGo]
        rw [ih fuel (by omega) _ (by omega), ih m (by omega) _ (by omega)]

theorem getFirst_leaf (es : List Int) :
    getFirst (.leaf es) = ⟨[], 0, decide (es.length > 0), 0⟩ := rfl

theorem getFirst_branch (ps : List JKey) (ns : List Node) :
    getFirst (.branch ps ns) =
      (let path := getFirst ((Node.branch ps ns).childAt 0)
       { path with branches := 0 :: path.branches }) := by
  have hpos : 2 ≤ (Node.branch ps ns).sz := by simp [Node.sz]
  obtain ⟨m, hm⟩ : ∃ m, (Node.branch ps ns).sz = m + 1 :=
    ⟨(Node.branch ps ns).sz - 1, by omega⟩
  have hc := Node.sz_childAt_lt ps ns 0
  rw [getFirst, hm, getFirstGo, getFirstGo_congr m _ (by omega)]

theorem getLastGo_congr :
    ∀ (fuel : Nat) (n : Node), n.sz ≤ fuel → getLastGo fuel n = getLast n := by
  intro fuel
  induction fuel using Nat.strong_induction_on with
  | _ fuel ih =>
    intro n hle
    match n with
    | .leaf es => cases fuel <;> rfl
    | .branch ps ns =>
      have hpos : 2 ≤ (Node.branch ps ns).sz := by simp [Node.sz]
      match fuel, hle with
      | fuel + 1, hle =>
        obtain ⟨m, hm⟩ : ∃ m, (Node.branch ps ns).sz = m + 1 :=
          ⟨(Node.branch ps ns).sz - 1, by omega⟩
        have hc := Node.sz_childAt_lt ps ns (ns.length - 1)
        rw [getLast, hm, getLastGo, getLastGo]
        rw [ih fuel (by omega) _ (by omega), ih m (by omega) _ (by omega)]

theorem getLast_leaf (es : List Int) :
    getLast (.leaf es) =
      ⟨[], if es.length > 0 then es.length - 1 else 0, decide (es.length > 0), 0⟩ := rfl

theorem getLast_branch (ps : List JKey) (ns : List Node) :
    getLast (.branch ps ns) =
      (let index := ns.length - 1
       let path := getLast ((Node.branch ps ns).childAt index)
       { path with branches := index :: path.branches }) := by
  have hpos : 2 ≤ (Node.branch ps ns).sz := by simp [Node.sz]
  obtain ⟨m, hm⟩ : ∃ m, (Node.branch ps ns).sz = m + 1 :=
    ⟨(Node.branch ps ns).sz - 1, by omega⟩
  have hc := Node.sz_childAt_lt ps ns (ns.length - 1)
  rw [getLast, hm, getLastGo, getLastGo_congr m _ (by omega)]

theorem moveToFirstIdxGo_congr :
    ∀ (fuel : Nat) (n : Node), n.sz ≤ fuel → moveToFirstIdxGo fuel n = moveToFirstIdx n := by
  intro fuel
  induction fuel using Nat.strong_induction_on with
  | _ fuel ih =>
    intro n hle
    match n with
    | .leaf es => cases fuel <;> rfl
    | .branch ps ns =>
      have hpos : 2 ≤ (Node.branch ps ns).sz := by simp [Node.sz]
      match fuel, hle with
      | fuel + 1, hle =>
        obtain ⟨m, hm⟩ : ∃ m, (Node.branch ps ns).sz = m + 1 :=
          ⟨(Node.branch ps ns).sz - 1, by omega⟩
        have hc := Node.sz_childAt_lt ps ns 0
        rw [moveToFirstIdx, hm, moveToFirstIdxGo, moveToFirstIdxGo]
        rw [ih fuel (by omega) _ (by omega), ih m (by omega) _ (by omega)]

theorem moveToFirstIdx_leaf (es : List Int) :
    moveToFirstIdx (.leaf es) = ([], 0, decide (es.length > 0)) := rfl

theorem moveToFirstIdx_branch (ps : List JKey) (ns : List Node) :
    moveToFirstIdx (.branch ps ns) =
      (let r := moveToFirstIdx ((Node.branch ps ns).childAt 0)
       (0 :: r.1, r.2)) := by
  have hpos : 2 ≤ (Node.branch ps ns).sz := by simp [Node.sz]
  obtain ⟨m, hm⟩ : ∃ m, (Node.branch ps ns).sz = m + 1 :=
    ⟨(Node.branch ps ns).sz - 1, by omega⟩
  have hc := Node.sz_childAt_lt ps ns 0
  rw [moveToFirstIdx, hm, moveToFirstIdxGo, moveToFirstIdxGo_congr m _ (by omega)]

theorem moveToLastIdxGo_congr :
    ∀ (fuel : Nat) (n : Node), n.sz ≤ fuel → moveToLastIdxGo fuel n = moveToLastIdx n := by
  intro fuel
  induction fuel using Nat.strong_induction_on with
  | _ fuel ih =>
    intro n hle
    match n with
    | .leaf es => cases fuel <;> rfl
    | .branch ps ns =>
      have hpos : 2 ≤ (Node.branch ps ns).sz := by simp [Node.sz]
      match fuel, hle with
      | fuel + 1, hle =>
        obtain ⟨m, hm⟩ : ∃ m, (Node.branch ps ns).sz = m + 1 :=
          ⟨(Node.branch ps ns).sz - 1, by omega⟩
        have hc := Node.sz_childAt_lt ps ns ps.length
        rw [moveToLastIdx, hm, moveToLastIdxGo, moveToLastIdxGo]
        rw [ih fuel (by omega) _ (by omega), ih m (by omega) _ (by omega)]

theorem moveToLastIdx_leaf (es : List Int) :
    moveToLastIdx (.leaf es) =
      ([], if es.length > 0 then es.length - 1 else 0, decide (es.length > 0)) := rfl

theorem moveToLastIdx_branch (ps : List JKey) (ns : List Node) :
    moveToLastIdx (.branch ps ns) =
      (let index := ps.length
       let r := moveToLastIdx ((Node.branch ps ns).childAt index)
       (index :: r.1, r.2)) := by
  have hpos : 2 ≤ (Node.branch ps ns).sz := by simp [Node.sz]
  obtain ⟨m, hm⟩ : ∃ m, (Node.branch ps ns).sz = m + 1 :=
    ⟨(Node.branch ps ns).sz - 1, by omega⟩
  have hc := Node.sz_childAt_lt ps ns ps.length
  rw [moveToLastIdx, hm, moveToLastIdxGo, moveToLastIdxGo_congr m _ (by omega)]

theorem updatePartition_length (nodeIndex : Nat) (frames : List DFrame)
    (depth : Nat) (newKey : JKey) :
    (updatePartition nodeIndex frames depth newKey).length = frames.length := by
  induction depth generalizing nodeIndex with
  | zero =>
    rw [updatePartition]
    split
    · simp
    · rfl
  | succ d ih =>
    rw [updatePartition]
    split
    · simp
    · exact ih _

/-- C2: the spec (and the repository's own regression test, bug #1) say that
after `deleteAt` removes the sole entry (at `leafIndex` 0) of a middle leaf,
no partition holds an undefined value.  The code violates this: on the
test's own scenario `internalDelete` reads `entries[0]` of the emptied leaf
and `updatePartition` stores the resulting `undefined` into the root's
partitions, which survive rebalancing as `[undefined]`; the corrupted
routing then makes `find(0)` miss an entry that is still present.  The
statement evaluates the embedded code on exactly the test's input. -/
theorem c2_undefined_partition :
    c2After.root.partitionsOf = [none] ∧
    (c2After.find 0).isOn = false ∧
    (c2After.find 50).isOn = false ∧
    (c2After.find 100).isOn = true := by
  decide

/-- C3: the spec says a non-root branch with at least `Capacity/2` children
is left unchanged by rebalancing, mirroring the leaf rule.  The code's
early exit in `rebalanceBranch` compares against `NodeCapacity << 1` (128,
unreachable) instead of `NodeCapacity >>> 1` (32), so after the leaf merge
under `c3Tree`'s left branch leaves it with exactly 32 children, the branch
still borrows a child from its right sibling: the children counts end up
`[33, 32]` instead of the expected `[32, 33]`, and the root partition is
rewritten from `some 100` to `some 102`. -/
theorem c3_branch_rebalance_bug :
    (c3After.root.nodesOf.map (fun n => n.nodesOf.length)) = [33, 32] ∧
    c3After.root.partitionsOf = [some 102] := by
  decide

/-- C4 (amended): every path-taking operation except `getCount` — `at`,
`updateAt`, `deleteAt`, `moveNext`, `movePrior`, `next`, `prior`,
`ascending`, `descending` — first compares the path's stamp with the tree's
version and fails with `StalePath` on mismatch, before any mutation. -/
theorem c4_stale_path_checks (t : BTreeT) (p : PathIdx) (e : Int)
    (h : p.version ≠ t.version) :
    t.at p = .error .stalePath ∧
    t.updateAt p e = .error .stalePath ∧
    t.deleteAt p = .error .stalePath ∧
    t.moveNext p = .error .stalePath ∧
    t.movePrior p = .error .stalePath ∧
    t.next p = .error .stalePath ∧
    t.prior p = .error .stalePath ∧
    t.ascending p = .error .stalePath ∧
    t.descending p = .error .stalePath := by
  have hv : t.isValid p = false := by
    simp [BTreeT.isValid, h]
  refine ⟨?_, ?_, ?_, ?_, ?_, ?_, ?_, ?_, ?_⟩ <;>
    simp [BTreeT.at, BTreeT.updateAt, BTreeT.deleteAt, BTreeT.moveNext,
      BTreeT.movePrior, BTreeT.next, BTreeT.prior, BTreeT.ascending,
      BTreeT.descending, hv]

/-- Witness for `c4_stale_path_checks` at a concrete stale path. -/
theorem c4_stale_path_checks_witness :
    (insertList [1, 2, 3]).first.version ≠ ((insertList [1, 2, 3]).insert 9).1.version ∧
    ((insertList [1, 2, 3]).insert 9).1.at (insertList [1, 2, 3]).first = .error .stalePath := by
  refine ⟨by decide, ?_⟩
  exact (c4_stale_path_checks ((insertList [1, 2, 3]).insert 9).1
    (insertList [1, 2, 3]).first 0 (by decide)).1

/-- C4 (counterexample to the claim as stated): `getCount` with a `from`
path performs no version check.  A path stamped before an insert, fed to
the ascending `getCount`, silently yields a count instead of failing with
`StalePath`. -/
theorem c4_getCount_skips_validation :
    ((insertList [1, 2, 3]).insert 9).1.isValid (insertList [1, 2, 3]).first = false ∧
    ((insertList [1, 2, 3]).insert 9).1.getCountFrom (insertList [1, 2, 3]).first true
      = .ok 4 := by
  decide

/-- C9: if `merge` finds the key present and the `getUpdated` callback
itself mutates the tree (advancing the version counter), the internal
`updateAt` finds the stamp stale and the merge aborts with `StalePath`
without applying the update. -/
theorem c9_merge_mutating_callback (t : BTreeT) (e : Int)
    (f : Int → BTreeT → Int × BTreeT)
    (hon : (t.find e).isOn = true)
    (hmut : (f ((t.root.leafAt (t.find e).branches).getD (t.find e).leafIndex 0) t).2.version
      ≠ t.version) :
    t.merge e f = .error .stalePath := by
  have hv : (f ((t.root.leafAt (t.find e).branches).getD (t.find e).leafIndex 0) t).2.isValid
      (t.find e) = false := by
    have hfv : (t.find e).version = t.version := rfl
    rw [BTreeT.isValid, hfv]
    exact decide_eq_false (fun hc => hmut hc.symm)
  simp only [BTreeT.merge, hon, if_true, BTreeT.updateAt, hv, Bool.false_eq_true,
    not_false_eq_true, if_true]

/-- Witness for `c9_merge_mutating_callback`: a callback that inserts key 50
(bumping the version) aborts a merge on key 2. -/
theorem c9_merge_mutating_callback_witness :
    (insertList [1, 2, 3]).merge 2 (fun e t => (e + 10, (t.insert 50).1))
      = .error .stalePath :=
  c9_merge_mutating_callback (insertList [1, 2, 3]) 2 _ (by decide) (by decide)

/-- C10: an insert of an already-present key performs no mutation at all —
the tree (root and version) is returned unchanged, the result path is not
`on`, and every previously valid path is still valid — while an insert of
an absent key advances the version by exactly one. -/
theorem c10_duplicate_insert_version (t : BTreeT) (e : Int) :
    ((t.find e).isOn = true →
      (t.insert e).1 = t ∧ (t.insert e).2.isOn = false ∧
      ∀ q : PathIdx, (t.insert e).1.isValid q = t.isValid q) ∧
    ((t.find e).isOn = false → (t.insert e).1.version = t.version + 1) := by
  constructor
  · intro hon
    have h1 : (t.insert e).1 = t := by
      simp [BTreeT.insert, BTreeT.internalInsert, hon]
    refine ⟨h1, ?_, fun q => by rw [h1]⟩
    simp [BTreeT.insert, BTreeT.internalInsert, hon]
  · intro hoff
    simp [BTreeT.insert, BTreeT.internalInsert, hoff]

/-- Witness for `c10_duplicate_insert_version`: inserting the present key 2
into `{1,2,3}` mutates nothing; inserting the absent key 9 bumps the
version from 3 to 4. -/
theorem c10_duplicate_insert_version_witness :
    ((insertList [1, 2, 3]).insert 2).1 = insertList [1, 2, 3] ∧
    ((insertList [1, 2, 3]).insert 9).1.version = (insertList [1, 2, 3]).version + 1 :=
  ⟨((c10_duplicate_insert_version (insertList [1, 2, 3]) 2).1 (by decide)).1,
    (c10_duplicate_insert_version (insertList [1, 2, 3]) 9).2 (by decide)⟩

theorem List.insertIdx_eq_append {α : Type} :
    ∀ (idx : Nat) (l : List α) (x : α), idx ≤ l.length →
      l.insertIdx idx x = l.take idx ++ x :: l.drop idx := by
  intro idx
  induction idx with
  | zero => intro l x _; simp
  | succ n ih =>
    intro l x h
    cases l with
    | nil => simp at h
    | cons a t =>
      simp only [List.insertIdx_succ_cons, List.take_succ_cons, List.drop_succ_cons,
        List.cons_append, List.cons.injEq, true_and]
      exact ih t x (by simpa using h)

set_option maxRecDepth 40000 in
/-- C7 (corrected): the claim's split index is off by one; the code moves
the upper half starting at `⌊(n+1)/2⌋ = ⌈n/2⌉` (with `n = Capacity = 64`
the leaf's size at split time, that is index 32), not `⌈(n+1)/2⌉ = 33`.
The left half after `Capacity + 1` sequential inserts keeps 32 entries,
while the claim's formula predicts 33. -/
theorem c7_split_index_counterexample :
    ((insertList c7Keys).root.nodesOf.getD 0 (.leaf [])).entriesOf.length = 32 ∧
    (NodeCapacity + 1 + 1) / 2 = 33 ∧ ¬ (32 : Nat) = 33 := by
  decide

set_option maxRecDepth 40000 in
/-- C7 (amended): inserting `Capacity + 1` sequential keys into an empty
tree produces a root branch with exactly two children `[0 … 31]` and
`[32 … 64]`, both satisfying the minimum-fill bound, with the promoted
partition `32`, the key of the new sibling's first entry.  In general a
leaf split moves the upper half — the entries from index `⌊(n+1)/2⌋`
onward — into the new right sibling, inserts the new entry into whichever
half its index falls in (the two halves reassemble to the ordered
insertion), and promotes the key of the new sibling's (final) first
entry. -/
theorem c7_split_policy :
    ((insertList c7Keys).root.nodesOf.map Node.entriesOf =
      [(List.range 32).map Int.ofNat, (List.range 33).map (fun i => Int.ofNat i + 32)]) ∧
    (insertList c7Keys).root.partitionsOf = [some 32] ∧
    ((insertList c7Keys).root.nodesOf.all
      (fun c => NodeCapacity >>> 1 ≤ c.entriesOf.length) = true) ∧
    (∀ (es : List Int) (idx : Nat) (e : Int),
      es.length = NodeCapacity → idx ≤ es.length →
      ∃ s, (leafInsert es idx e).2.2 = some s ∧
        s.key = s.right.entriesOf.head? ∧
        (leafInsert es idx e).1 ++ s.right.entriesOf = es.insertIdx idx e ∧
        (idx < (es.length + 1) / 2 →
          s.right.entriesOf = es.drop ((es.length + 1) / 2)) ∧
        ((es.length + 1) / 2 ≤ idx →
          (leafInsert es idx e).1 = es.take ((es.length + 1) / 2))) := by
  refine ⟨by decide, by decide, by decide, ?_⟩
  intro es idx e hfull hidx
  have hnotlt : ¬ es.length < NodeCapacity := by omega
  rw [leafInsert]
  simp only [hnotlt, if_false]
  set mid := (es.length + 1) / 2 with hmid
  have hmidle : mid ≤ es.length := by omega
  by_cases hcase : idx < mid
  · rw [if_pos hcase]
    refine ⟨_, rfl, rfl, ?_, ?_⟩
    · simp only [Node.entriesOf]
      rw [List.insertIdx_eq_append idx _ e (by simp [List.length_take]; omega),
        List.insertIdx_eq_append idx _ e (by omega)]
      rw [List.take_take, Nat.min_eq_left (by omega)]
      have hdt : (es.take mid).drop idx = (es.drop idx).take (mid - idx) := by
        rw [List.drop_take]
      simp only [List.append_assoc, List.cons_append]
      rw [hdt]
      have : es.drop mid = ((es.drop idx).drop (mid - idx)) := by
        rw [List.drop_drop]
        congr 1
        omega
      rw [this, List.take_append_drop]
    · exact ⟨fun _ => by simp [Node.entriesOf], fun hc => absurd hcase (by omega)⟩
  · rw [if_neg hcase]
    refine ⟨_, rfl, rfl, ?_, ?_⟩
    · simp only [Node.entriesOf]
      rw [List.insertIdx_eq_append (idx - (es.take mid).length) _ e
          (by simp [List.length_drop, List.length_take]; omega),
        List.insertIdx_eq_append idx _ e (by omega)]
      have hlen : (es.take mid).length = mid := by
        simp [List.length_take]
        omega
      rw [hlen]
      have h1 : (es.drop mid).take (idx - mid) = (es.take idx).drop mid := by
        rw [List.drop_take]
      have h2 : (es.drop mid).drop (idx - mid) = es.drop idx := by
        rw [List.drop_drop]
        congr 1
        omega
      rw [h1, h2]
      rw [← List.append_assoc]
      congr 1
      have : es.take mid = (es.take idx).take mid := by
        rw [List.take_take, Nat.min_eq_left (by omega)]
      rw [this, List.take_append_drop]
    · exact ⟨fun hc => absurd hc (by omega), fun _ => by simp [Node.entriesOf]⟩

/-- Witness for the general split-policy part of `c7_split_policy`: a full
leaf `[0 … 63]` with entry 64 appended splits into `[0 … 31]` and
`[32 … 64]` with promoted key 32. -/
theorem c7_split_policy_witness :
    ∃ s, (leafInsert ((List.range 64).map Int.ofNat) 64 64).2.2 = some s ∧
      s.key = s.right.entriesOf.head? := by
  obtain ⟨s, h1, h2, _⟩ := c7_split_policy.2.2.2 ((List.range 64).map Int.ofNat) 64 64
    (by decide) (by decide)
  exact ⟨s, h1, h2⟩

/-! ## Correctness of the bisection searches on sorted data -/

theorem compareKeys_some_eq_zero {a b : Int} :
    compareKeys (some a) (some b) = 0 ↔ a = b := by
  simp only [compareKeys, jsCompare]
  rcases lt_trichotomy a b with h | h | h
  · simp [h, h.ne]
  · simp [h]
  · simp [not_lt.mpr h.le, h, h.ne.symm]

theorem compareKeys_some_neg {a b : Int} :
    compareKeys (some a) (some b) < 0 ↔ a < b := by
  simp only [compareKeys, jsCompare]
  rcases lt_trichotomy a b with h | h | h
  · simp [h]
  · simp [h]
  · simp [not_lt.mpr h.le, h]

theorem compareKeys_some_pos {a b : Int} :
    0 < compareKeys (some a) (some b) ↔ b < a := by
  simp only [compareKeys, jsCompare]
  rcases lt_trichotomy a b with h | h | h
  · simp [h, not_lt.mpr h.le]
  · simp [h]
  · simp [not_lt.mpr h.le, h]

theorem countP_eq_of_pointwise {α : Type} :
    ∀ (l : List α) (p : α → Bool) (m : Nat), m ≤ l.length →
      (∀ (j : Nat) (hj : j < l.length), p l[j] = decide (j < m)) →
      l.countP p = m := by
  intro l
  induction l with
  | nil =>
    intro p m hm _
    simp only [List.length_nil, Nat.le_zero] at hm
    simp [hm]
  | cons a t ih =>
    intro p m hm h
    have h0 := h 0 (by simp)
    simp only [List.getElem_cons_zero] at h0
    rw [List.countP_cons]
    cases m with
    | zero =>
      simp only [Nat.lt_irrefl, decide_eq_true_eq, Nat.not_lt_zero] at h0
      have h0' : p a = false := by
        rw [h0]
        simp
      rw [ih p 0 (by omega) (fun j hj => by
        have := h (j + 1) (by simpa using Nat.succ_lt_succ hj)
        simpa using this)]
      simp [h0']
    | succ m' =>
      have h0' : p a = true := by
        rw [h0]
        simp
      rw [ih p m' (by simpa using hm) (fun j hj => by
        have := h (j + 1) (by simpa using Nat.succ_lt_succ hj)
        simpa using this)]
      simp [h0']

/-- Shared end-of-loop fact: when every entry before `lo` is below `k` and
every entry from `lo` on is above it, the key is absent and `lo` counts the
entries below `k`. -/
theorem emptyWindow_fact (es : List Int) (k : Int) (lo : Nat)
    (hlo : lo ≤ es.length)
    (hbelow : ∀ (j : Nat) (hj : j < es.length), j < lo → es[j] < k)
    (habove : ∀ (j : Nat) (hj : j < es.length), lo ≤ j → k < es[j]) :
    ¬ k ∈ es ∧ es.countP (fun x => decide (x < k)) = lo := by
  constructor
  · intro hk
    obtain ⟨j, hj, hjk⟩ := List.getElem_of_mem hk
    rcases Nat.lt_or_ge j lo with hc | hc
    · have := hbelow j hj hc
      omega
    · have := habove j hj hc
      omega
  · refine countP_eq_of_pointwise es _ lo hlo (fun j hj => ?_)
    rcases Nat.lt_or_ge j lo with hc | hc
    · simp [hbelow j hj hc, hc]
    · have h1 : ¬ es[j] < k := not_lt.mpr (habove j hj hc).le
      have h2 : ¬ j < lo := by omega
      simp [h1, h2]

/-- Invariant-based correctness of the `indexOfEntry` loop on a strictly
sorted leaf: the result is (`found`, count of entries below the key). -/
theorem indexOfEntryGo_spec (es : List Int) (k : Int)
    (hs : es.Pairwise (· < ·)) :
    ∀ (fuel : Nat) (lo : Nat) (hi : Int),
      (hi + 1 - (lo : Int)).toNat ≤ fuel →
      hi < (es.length : Int) →
      lo ≤ es.length →
      (∀ (j : Nat) (hj : j < es.length), j < lo → es[j] < k) →
      (∀ (j : Nat) (hj : j < es.length), hi < (j : Int) → k < es[j]) →
      indexOfEntryGo es (some k) fuel lo hi
        = (decide (k ∈ es), es.countP (fun x => decide (x < k))) := by
  have hmono := List.pairwise_iff_getElem.mp hs
  intro fuel
  induction fuel with
  | zero =>
    intro lo hi hfuel hhi hlo hbelow habove
    have hwin : hi < (lo : Int) := by omega
    obtain ⟨hmem, hcount⟩ := emptyWindow_fact es k lo hlo hbelow
      (fun j hj hc => habove j hj (by omega))
    rw [indexOfEntryGo]
    simp [hmem, hcount]
  | succ fuel ih =>
    intro lo hi hfuel hhi hlo hbelow habove
    rw [indexOfEntryGo]
    by_cases hcond : (lo : Int) ≤ hi
    · rw [if_pos hcond]
      have hsplitlo : lo ≤ (lo + hi).toNat / 2 := by omega
      have hsplithi : (((lo + hi).toNat / 2 : Nat) : Int) ≤ hi := by omega
      set split := (lo + hi).toNat / 2 with hsplit
      have hsplitlen : split < es.length := by omega
      have hget : es.getD split 0 = es[split] := List.getD_eq_getElem es 0 hsplitlen
      rcases lt_trichotomy k (es[split]) with hc | hc | hc
      · have hres : ¬ compareKeys (some k) (some (es.getD split 0)) = 0 := by
          rw [hget]
          intro h0
          exact absurd (compareKeys_some_eq_zero.mp h0) (by omega)
        have hresneg : compareKeys (some k) (some (es.getD split 0)) < 0 := by
          rw [hget]
          exact compareKeys_some_neg.mpr hc
        rw [if_neg hres, if_pos hresneg]
        refine ih lo ((split : Int) - 1) (by omega) (by omega) hlo hbelow
          (fun j hj hja => ?_)
        rcases Nat.lt_or_ge j split with hjs | hjs
        · omega
        · rcases Nat.eq_or_lt_of_le hjs with heq | hjs
          · subst heq
            exact hc
          · exact hc.trans (hmono split j hsplitlen hj hjs)
      · have hres : compareKeys (some k) (some (es.getD split 0)) = 0 := by
          rw [hget]
          exact compareKeys_some_eq_zero.mpr hc
        rw [if_pos hres]
        have hmem : k ∈ es := List.mem_iff_getElem.mpr ⟨split, hsplitlen, hc.symm⟩
        have hcount : es.countP (fun x => decide (x < k)) = split := by
          refine countP_eq_of_pointwise es _ split (by omega) (fun j hj => ?_)
          rcases Nat.lt_or_ge j split with hjs | hjs
          · have hmo := hmono j split hj hsplitlen hjs
            have h1 : es[j] < k := by omega
            simp [h1, hjs]
          · have h2 : ¬ j < split := by omega
            rcases Nat.eq_or_lt_of_le hjs with heq | hjs
            · subst heq
              have h1 : ¬ es[split] < k := by omega
              simp [h1, h2]
            · have := hmono split j hsplitlen hj hjs
              have h1 : ¬ es[j] < k := by omega
              simp [h1, h2]
        simp [hmem, hcount]
      · have hres : ¬ compareKeys (some k) (some (es.getD split 0)) = 0 := by
          rw [hget]
          intro h0
          exact absurd (compareKeys_some_eq_zero.mp h0) (by omega)
        have hrespos : ¬ compareKeys (some k) (some (es.getD split 0)) < 0 := by
          rw [hget]
          have := compareKeys_some_pos.mpr hc
          omega
        rw [if_neg hres, if_neg hrespos]
        refine ih (split + 1) hi (by omega) hhi (by omega)
          (fun j hj hjb => ?_) habove
        rcases Nat.lt_or_ge j split with hjs | hjs
        · exact (hmono j split hj hsplitlen hjs).trans hc
        · have heq : split = j := by omega
          subst heq
          exact hc
    · rw [if_neg hcond]
      have hwin : hi < (lo : Int) := by omega
      obtain ⟨hmem, hcount⟩ := emptyWindow_fact es k lo hlo hbelow
        (fun j hj hc => habove j hj (by omega))
      simp [hmem, hcount]

/-- `indexOfEntry` on a strictly sorted leaf returns whether the key is
present together with the number of entries strictly below it. -/
theorem indexOfEntry_sorted (es : List Int) (k : Int)
    (hs : es.Pairwise (· < ·)) :
    indexOfEntry es (some k)
      = (decide (k ∈ es), es.countP (fun x => decide (x < k))) := by
  rw [indexOfEntry]
  exact indexOfEntryGo_spec es k hs (es.length + 1) 0 ((es.length : Int) - 1)
    (by omega) (by omega) (by omega)
    (fun j hj hc => by omega)
    (fun j hj hc => by omega)

/-- Shared end-of-loop fact for `indexOfKey`. -/
theorem emptyWindowKey_fact (ks : List Int) (k : Int) (lo : Nat)
    (hlo : lo ≤ ks.length)
    (hbelow : ∀ (j : Nat) (hj : j < ks.length), j < lo → ks[j] < k)
    (habove : ∀ (j : Nat) (hj : j < ks.length), lo ≤ j → k < ks[j]) :
    ks.countP (fun p => decide (p ≤ k)) = lo := by
  refine countP_eq_of_pointwise ks _ lo hlo (fun j hj => ?_)
  rcases Nat.lt_or_ge j lo with hc | hc
  · simp [(hbelow j hj hc).le, hc]
  · have h1 : ¬ ks[j] ≤ k := not_le.mpr (habove j hj hc)
    have h2 : ¬ j < lo := by omega
    simp [h1, h2]

/-- Invariant-based correctness of the `indexOfKey` loop on strictly sorted
partitions: the result is the number of partitions at most the key (an
exact hit routes to the right child). -/
theorem indexOfKeyGo_spec (ks : List Int) (k : Int)
    (hs : ks.Pairwise (· < ·)) :
    ∀ (fuel : Nat) (lo : Nat) (hi : Int),
      (hi + 1 - (lo : Int)).toNat ≤ fuel →
      hi < (ks.length : Int) →
      lo ≤ ks.length →
      (∀ (j : Nat) (hj : j < ks.length), j < lo → ks[j] < k) →
      (∀ (j : Nat) (hj : j < ks.length), hi < (j : Int) → k < ks[j]) →
      indexOfKeyGo (ks.map some) (some k) fuel lo hi
        = ks.countP (fun p => decide (p ≤ k)) := by
  have hmono := List.pairwise_iff_getElem.mp hs
  intro fuel
  induction fuel with
  | zero =>
    intro lo hi hfuel hhi hlo hbelow habove
    have hwin : hi < (lo : Int) := by omega
    rw [indexOfKeyGo]
    exact (emptyWindowKey_fact ks k lo hlo hbelow
      (fun j hj hc => habove j hj (by omega))).symm
  | succ fuel ih =>
    intro lo hi hfuel hhi hlo hbelow habove
    rw [indexOfKeyGo]
    by_cases hcond : (lo : Int) ≤ hi
    · rw [if_pos hcond]
      have hsplitlo : lo ≤ (lo + hi).toNat / 2 := by omega
      have hsplithi : (((lo + hi).toNat / 2 : Nat) : Int) ≤ hi := by omega
      set split := (lo + hi).toNat / 2 with hsplit
      have hsplitlen : split < ks.length := by omega
      have hget : (ks.map some).getD split none = some (ks[split]) := by
        rw [List.getD_eq_getElem _ _ (by simpa using hsplitlen)]
        simp
      rcases lt_trichotomy k (ks[split]) with hc | hc | hc
      · have hres : ¬ compareKeys (some k) ((ks.map some).getD split none) = 0 := by
          rw [hget]
          intro h0
          exact absurd (compareKeys_some_eq_zero.mp h0) (by omega)
        have hresneg : compareKeys (some k) ((ks.map some).getD split none) < 0 := by
          rw [hget]
          exact compareKeys_some_neg.mpr hc
        rw [if_neg hres, if_pos hresneg]
        refine ih lo ((split : Int) - 1) (by omega) (by omega) hlo hbelow
          (fun j hj hja => ?_)
        rcases Nat.lt_or_ge j split with hjs | hjs
        · omega
        · rcases Nat.eq_or_lt_of_le hjs with heq | hjs
          · subst heq
            exact hc
          · exact hc.trans (hmono split j hsplitlen hj hjs)
      · have hres : compareKeys (some k) ((ks.map some).getD split none) = 0 := by
          rw [hget]
          exact compareKeys_some_eq_zero.mpr hc
        rw [if_pos hres]
        refine (countP_eq_of_pointwise ks _ (split + 1) (by omega) (fun j hj => ?_)).symm
        rcases Nat.lt_or_ge j (split + 1) with hjs | hjs
        · have hle : ks[j] ≤ ks[split] := by
            rcases Nat.lt_or_ge j split with hlt | hge
            · exact (hmono j split hj hsplitlen hlt).le
            · have heq : j = split := by omega
              subst heq
              exact le_refl _
          have h1 : ks[j] ≤ k := by omega
          simp [h1, hjs]
        · have := hmono split j hsplitlen hj (by omega)
          have h1 : ¬ ks[j] ≤ k := by omega
          have h2 : ¬ j < split + 1 := by omega
          simp [h1, h2]
      · have hres : ¬ compareKeys (some k) ((ks.map some).getD split none) = 0 := by
          rw [hget]
          intro h0
          exact absurd (compareKeys_some_eq_zero.mp h0) (by omega)
        have hrespos : ¬ compareKeys (some k) ((ks.map some).getD split none) < 0 := by
          rw [hget]
          have := compareKeys_some_pos.mpr hc
          omega
        rw [if_neg hres, if_neg hrespos]
        refine ih (split + 1) hi (by omega) hhi (by omega)
          (fun j hj hjb => ?_) habove
        rcases Nat.lt_or_ge j split with hjs | hjs
        · exact (hmono j split hj hsplitlen hjs).trans hc
        · have heq : split = j := by omega
          subst heq
          exact hc
    · rw [if_neg hcond]
      have hwin : hi < (lo : Int) := by omega
      exact (emptyWindowKey_fact ks k lo hlo hbelow
        (fun j hj hc => habove j hj (by omega))).symm

/-- `indexOfKey` on strictly sorted partitions routes to child
`#{partitions ≤ key}` (ties to the right). -/
theorem indexOfKey_sorted (ks : List Int) (k : Int)
    (hs : ks.Pairwise (· < ·)) :
    indexOfKey (ks.map some) (some k) = ks.countP (fun p => decide (p ≤ k)) := by
  rw [indexOfKey]
  have hlen : (ks.map some).length = ks.length := by simp
  rw [hlen]
  exact indexOfKeyGo_spec ks k hs (ks.length + 1) 0 ((ks.length : Int) - 1)
    (by omega) (by omega) (by omega)
    (fun j hj hc => by omega)
    (fun j hj hc => by omega)

/-! ## The ordering invariant: basic facts -/

theorem chainLtB_iff_pairwise : ∀ (l : List Int),
    chainLtB l = true ↔ l.Pairwise (· < ·)
  | [] => by simp [chainLtB]
  | [a] => by simp [chainLtB]
  | a :: b :: rest => by
    rw [chainLtB, Bool.and_eq_true, chainLtB_iff_pairwise (b :: rest)]
    constructor
    · rintro ⟨hab, hp⟩
      have hab' : a < b := by simpa using hab
      refine List.Pairwise.cons ?_ hp
      intro x hx
      rcases List.mem_cons.mp hx with rfl | hx
      · exact hab'
      · exact lt_trans hab' (List.rel_of_pairwise_cons hp hx)
    · intro hp
      rw [List.pairwise_cons] at hp
      exact ⟨by simpa using hp.1 b (by simp), hp.2⟩

theorem insSorted_eq_append (k : Int) (l : List Int) :
    insSorted k l = l.take (l.countP (fun x => decide (x < k))) ++
      k :: l.drop (l.countP (fun x => decide (x < k))) :=
  List.insertIdx_eq_append _ _ _ (List.countP_le_length _)

theorem insSorted_perm (k : Int) (l : List Int) : (insSorted k l).Perm (k :: l) := by
  rw [insSorted_eq_append]
  have h : List.Perm
      (l.take (l.countP (fun x => decide (x < k))) ++
        k :: l.drop (l.countP (fun x => decide (x < k))))
      (k :: (l.take (l.countP (fun x => decide (x < k))) ++
        l.drop (l.countP (fun x => decide (x < k))))) := List.perm_middle
  rwa [List.take_append_drop] at h

theorem insSorted_length (k : Int) (l : List Int) :
    (insSorted k l).length = l.length + 1 := by
  rw [(insSorted_perm k l).length_eq]
  rfl

theorem mem_insSorted {x k : Int} {l : List Int} :
    x ∈ insSorted k l ↔ x = k ∨ x ∈ l := by
  rw [(insSorted_perm k l).mem_iff]
  simp

theorem sorted_countP_split (k : Int) : ∀ (l : List Int), l.Pairwise (· < ·) →
    (∀ x ∈ l.take (l.countP (fun y => decide (y < k))), x < k) ∧
    (∀ x ∈ l.drop (l.countP (fun y => decide (y < k))), ¬ x < k)
  | [], _ => by simp
  | a :: t, hp => by
    rw [List.pairwise_cons] at hp
    by_cases ha : a < k
    · have hc : (a :: t).countP (fun y => decide (y < k)) =
          t.countP (fun y => decide (y < k)) + 1 := by
        rw [List.countP_cons]
        simp [ha]
      have ih := sorted_countP_split k t hp.2
      rw [hc]
      constructor
      · intro x hx
        rcases List.mem_cons.mp (by simpa using hx) with rfl | hx'
        · exact ha
        · exact ih.1 x hx'
      · intro x hx
        exact ih.2 x (by simpa using hx)
    · have hz : t.countP (fun y => decide (y < k)) = 0 := by
        rw [List.countP_eq_zero]
        intro x hx
        have := hp.1 x hx
        simp only [decide_eq_true_eq]
        omega
      have hc : (a :: t).countP (fun y => decide (y < k)) = 0 := by
        rw [List.countP_cons]
        simp [ha, hz]
      rw [hc]
      refine ⟨by simp, ?_⟩
      intro x hx
      rcases List.mem_cons.mp (by simpa using hx) with rfl | hx'
      · exact ha
      · have := hp.1 x hx'
        omega

theorem insSorted_pairwise {k : Int} {l : List Int}
    (hs : l.Pairwise (· < ·)) (hk : k ∉ l) :
    (insSorted k l).Pairwise (· < ·) := by
  have hsp := sorted_countP_split k l hs
  rw [insSorted_eq_append, List.pairwise_append]
  have hgt : ∀ x ∈ l.drop (l.countP (fun y => decide (y < k))), k < x := by
    intro x hx
    have h1 := hsp.2 x hx
    have h2 : x ≠ k := by
      intro hxe
      exact hk (hxe ▸ List.mem_of_mem_drop hx)
    omega
  refine ⟨hs.sublist (List.take_sublist _ _), ?_, ?_⟩
  · rw [List.pairwise_cons]
    exact ⟨hgt, hs.sublist (List.drop_sublist _ _)⟩
  · intro a ha b hb
    have ha' := hsp.1 a ha
    rcases List.mem_cons.mp hb with rfl | hb'
    · exact ha'
    · exact lt_trans ha' (hgt b hb')

theorem insSorted_append_mid (k : Int) (P M S : List Int)
    (hP : ∀ x ∈ P, x < k) (hS : ∀ x ∈ S, ¬ x < k) :
    insSorted k (P ++ (M ++ S)) = P ++ (insSorted k M ++ S) := by
  have hcP : P.countP (fun x => decide (x < k)) = P.length := by
    rw [List.countP_eq_length]
    intro a ha
    simpa using hP a ha
  have hcS : S.countP (fun x => decide (x < k)) = 0 := by
    rw [List.countP_eq_zero]
    intro a ha
    simpa using hS a ha
  have hcM : M.countP (fun x => decide (x < k)) ≤ M.length :=
    List.countP_le_length _
  have hc : (P ++ (M ++ S)).countP (fun x => decide (x < k)) =
      P.length + M.countP (fun x => decide (x < k)) := by
    rw [List.countP_append, List.countP_append, hcP, hcS]
    omega
  rw [insSorted, hc, List.insertIdx_eq_append _ _ _ (by simp; omega),
    insSorted, List.insertIdx_eq_append _ _ _ hcM]
  rw [List.take_append_eq_append_take, List.drop_append_eq_append_drop]
  rw [List.take_of_length_le (by omega), List.drop_eq_nil_of_le (by omega)]
  have hd : P.length + M.countP (fun x => decide (x < k)) - P.length =
      M.countP (fun x => decide (x < k)) := by omega
  rw [hd]
  rw [List.take_append_eq_append_take, List.drop_append_eq_append_drop]
  have h0 : M.countP (fun x => decide (x < k)) - M.length = 0 := by omega
  rw [h0]
  simp

theorem ordSeq_congr {chk₁ chk₂ : JKey → Node → JKey → Bool} :
    ∀ (ps : List JKey) (ns : List Node) (lo hi : JKey),
      (∀ (l : JKey) (c : Node) (hb : JKey), c ∈ ns → chk₁ l c hb = chk₂ l c hb) →
      ordSeq chk₁ lo ps ns hi = ordSeq chk₂ lo ps ns hi
  | [], [], _, _, _ => rfl
  | [], [n], lo, hi, h => h lo n hi (by simp)
  | [], _ :: _ :: _, _, _, _ => rfl
  | _ :: _, [], _, _, _ => rfl
  | p :: ps, n :: ns, lo, hi, h => by
    show (p.isSome && jkLowLt lo p && jkLowLt p hi && chk₁ lo n p &&
        ordSeq chk₁ p ps ns hi) =
      (p.isSome && jkLowLt lo p && jkLowLt p hi && chk₂ lo n p &&
        ordSeq chk₂ p ps ns hi)
    rw [h lo n p (by simp),
      ordSeq_congr ps ns p hi (fun l c hb hc => h l c hb (by simp [hc]))]

theorem ordGo_congr :
    ∀ (fuel : Nat) (lo : JKey) (n : Node) (hi : JKey), n.sz ≤ fuel →
      ordGo fuel lo n hi = ordB lo n hi := by
  intro fuel
  induction fuel using Nat.strong_induction_on with
  | _ fuel ih =>
    intro lo n hi hle
    match n with
    | .leaf es => cases fuel <;> rfl
    | .branch ps ns =>
      have hpos : 2 ≤ (Node.branch ps ns).sz := by simp [Node.sz]
      match fuel, hle with
      | fuel + 1, hle =>
        obtain ⟨m, hm⟩ : ∃ m, (Node.branch ps ns).sz = m + 1 :=
          ⟨(Node.branch ps ns).sz - 1, by omega⟩
        rw [ordB, hm, ordGo, ordGo]
        apply ordSeq_congr
        intro l c hb hc
        have hlt : c.sz < (Node.branch ps ns).sz := Node.sz_lt_of_mem hc
        calc ordGo fuel l c hb = ordB l c hb := ih fuel (by omega) l c hb (by omega)
          _ = ordGo m l c hb := (ih m (by omega) l c hb (by omega)).symm

theorem ordB_leaf (lo : JKey) (es : List Int) (hi : JKey) :
    ordB lo (.leaf es) hi =
      (chainLtB es && es.all (fun x => lowOkB lo x && highOkB x hi)) := rfl

theorem ordB_branch (lo : JKey) (ps : List JKey) (ns : List Node) (hi : JKey) :
    ordB lo (.branch ps ns) hi = ordSeqB lo ps ns hi := by
  have hpos : 2 ≤ (Node.branch ps ns).sz := by simp [Node.sz]
  obtain ⟨m, hm⟩ : ∃ m, (Node.branch ps ns).sz = m + 1 :=
    ⟨(Node.branch ps ns).sz - 1, by omega⟩
  rw [ordB, hm, ordGo, ordSeqB]
  apply ordSeq_congr
  intro l c hb hc
  have hlt : c.sz < (Node.branch ps ns).sz := Node.sz_lt_of_mem hc
  exact ordGo_congr m l c hb (by omega)

theorem ordSeqB_nil (lo : JKey) (n : Node) (hi : JKey) :
    ordSeqB lo [] [n] hi = ordB lo n hi := rfl

theorem ordSeqB_cons (lo p : JKey) (ps : List JKey) (n : Node) (ns : List Node)
    (hi : JKey) :
    ordSeqB lo (p :: ps) (n :: ns) hi =
      (p.isSome && jkLowLt lo p && jkLowLt p hi && ordB lo n p &&
        ordSeqB p ps ns hi) := rfl

theorem ordSeqB_length : ∀ (lo hi : JKey) (ps : List JKey) (ns : List Node),
    ordSeqB lo ps ns hi = true → ns.length = ps.length + 1
  | _, _, [], [], h => nomatch h
  | _, _, [], [_], _ => rfl
  | _, _, [], _ :: _ :: _, h => nomatch h
  | _, _, _ :: _, [], h => nomatch h
  | lo, hi, p :: ps, n :: ns, h => by
    rw [ordSeqB_cons] at h
    simp only [Bool.and_eq_true] at h
    have := ordSeqB_length p hi ps ns h.2
    simp [this]

theorem ordSeqB_chain : ∀ (lo hi : JKey) (ps : List JKey) (ns : List Node),
    ordSeqB lo ps ns hi = true → chainKeyB lo ps = true
  | _, _, [], [], h => nomatch h
  | _, _, [], [_], _ => rfl
  | _, _, [], _ :: _ :: _, h => nomatch h
  | _, _, _ :: _, [], h => nomatch h
  | lo, hi, p :: ps, n :: ns, h => by
    rw [ordSeqB_cons] at h
    simp only [Bool.and_eq_true] at h
    rw [chainKeyB, Bool.and_eq_true]
    exact ⟨h.1.1.1.2, ordSeqB_chain p hi ps ns h.2⟩

theorem ordSeqB_some : ∀ (lo hi : JKey) (ps : List JKey) (ns : List Node),
    ordSeqB lo ps ns hi = true → ∀ p ∈ ps, p.isSome = true
  | _, _, [], _, _ => by simp
  | _, _, _ :: _, [], h => nomatch h
  | lo, hi, p :: ps, n :: ns, h => by
    rw [ordSeqB_cons] at h
    simp only [Bool.and_eq_true] at h
    intro q hq
    rcases List.mem_cons.mp hq with rfl | hq'
    · exact h.1.1.1.1
    · exact ordSeqB_some p hi ps ns h.2 q hq'

theorem jkLowLt_trans_some {a b : Int} {c : JKey} (h1 : a < b)
    (h2 : jkLowLt (some b) c = true) : jkLowLt (some a) c = true := by
  cases c with
  | none => rfl
  | some x =>
    simp only [jkLowLt, decide_eq_true_eq] at h2 ⊢
    omega

theorem ordSeqB_hi : ∀ (lo hi : JKey) (ps : List JKey) (ns : List Node),
    ordSeqB lo ps ns hi = true → ∀ p ∈ ps, jkLowLt p hi = true
  | _, _, [], _, _ => by simp
  | _, _, _ :: _, [], h => nomatch h
  | lo, hi, p :: ps, n :: ns, h => by
    rw [ordSeqB_cons] at h
    simp only [Bool.and_eq_true] at h
    intro q hq
    rcases List.mem_cons.mp hq with rfl | hq'
    · exact h.1.1.2
    · exact ordSeqB_hi p hi ps ns h.2 q hq'

theorem ordSeqB_get : ∀ (lo hi : JKey) (ps : List JKey) (ns : List Node) (j : Nat),
    ordSeqB lo ps ns hi = true → j ≤ ps.length →
    ordB ((lo :: ps).getD j none) (ns.getD j (.leaf []))
      ((ps ++ [hi]).getD j none) = true
  | _, _, [], [], _, h, _ => nomatch h
  | lo, hi, [], [n], 0, h, _ => by simpa [ordSeqB_nil] using h
  | _, _, [], _ :: _ :: _, _, h, _ => nomatch h
  | _, _, _ :: _, [], _, h, _ => nomatch h
  | _, _, [], _, j + 1, _, hj => by simp at hj
  | lo, hi, p :: ps, n :: ns, 0, h, _ => by
    rw [ordSeqB_cons] at h
    simp only [Bool.and_eq_true] at h
    simpa using h.1.2
  | lo, hi, p :: ps, n :: ns, j + 1, h, hj => by
    rw [ordSeqB_cons] at h
    simp only [Bool.and_eq_true] at h
    have := ordSeqB_get p hi ps ns j h.2 (by simpa using hj)
    simpa using this

theorem ordSeqB_set : ∀ (lo hi : JKey) (ps : List JKey) (ns : List Node) (j : Nat)
    (c : Node),
    ordSeqB lo ps ns hi = true → j ≤ ps.length →
    ordB ((lo :: ps).getD j none) c ((ps ++ [hi]).getD j none) = true →
    ordSeqB lo ps (ns.set j c) hi = true
  | _, _, [], [], _, _, h, _, _ => nomatch h
  | lo, hi, [], [n], 0, c, h, _, hc => by simpa [ordSeqB_nil] using hc
  | _, _, [], _ :: _ :: _, _, _, h, _, _ => nomatch h
  | _, _, _ :: _, [], _, _, h, _, _ => nomatch h
  | _, _, [], _, j + 1, _, _, hj, _ => by simp at hj
  | lo, hi, p :: ps, n :: ns, 0, c, h, _, hc => by
    rw [ordSeqB_cons] at h
    simp only [Bool.and_eq_true] at h
    rw [List.set_cons_zero, ordSeqB_cons]
    simp only [Bool.and_eq_true]
    exact ⟨⟨h.1.1, by simpa using hc⟩, h.2⟩
  | lo, hi, p :: ps, n :: ns, j + 1, c, h, hj, hc => by
    rw [ordSeqB_cons] at h
    simp only [Bool.and_eq_true] at h
    rw [List.set_cons_succ, ordSeqB_cons]
    simp only [Bool.and_eq_true]
    refine ⟨h.1, ?_⟩
    exact ordSeqB_set p hi ps ns j c h.2 (by simpa using hj) (by simpa using hc)

theorem ordSeqB_ins : ∀ (lo hi : JKey) (ps : List JKey) (ns : List Node) (j : Nat)
    (c r : Node) (m : Int),
    ordSeqB lo ps ns hi = true → j ≤ ps.length →
    ordB ((lo :: ps).getD j none) c (some m) = true →
    ordB (some m) r ((ps ++ [hi]).getD j none) = true →
    jkLowLt ((lo :: ps).getD j none) (some m) = true →
    jkLowLt (some m) ((ps ++ [hi]).getD j none) = true →
    ordSeqB lo (ps.insertIdx j (some m)) ((ns.set j c).insertIdx (j + 1) r) hi = true
  | _, _, [], [], _, _, _, _, h, _, _, _, _, _ => nomatch h
  | lo, hi, [], [n], 0, c, r, m, h, _, hc, hr, hlm, hmh => by
    show ordSeqB lo [some m] [c, r] hi = true
    rw [ordSeqB_cons]
    simp only [Bool.and_eq_true]
    exact ⟨⟨⟨⟨rfl, by simpa using hlm⟩, by simpa using hmh⟩, by simpa using hc⟩,
      by rw [ordSeqB_nil]; simpa using hr⟩
  | _, _, [], _ :: _ :: _, _, _, _, _, h, _, _, _, _, _ => nomatch h
  | _, _, _ :: _, [], _, _, _, _, h, _, _, _, _, _ => nomatch h
  | _, _, [], _, j + 1, _, _, _, _, hj, _, _, _, _ => by simp at hj
  | lo, hi, p :: ps, n :: ns, 0, c, r, m, h, _, hc, hr, hlm, hmh => by
    rw [ordSeqB_cons] at h
    simp only [Bool.and_eq_true] at h
    show ordSeqB lo (some m :: p :: ps) (c :: r :: ns) hi = true
    rw [ordSeqB_cons]
    simp only [Bool.and_eq_true]
    have hmp : jkLowLt (some m) p = true := by simpa using hmh
    have hmhi : jkLowLt (some m) hi = true := by
      rcases Option.isSome_iff_exists.mp h.1.1.1.1 with ⟨b, rfl⟩
      exact jkLowLt_trans_some (by simpa [jkLowLt] using hmp) h.1.1.2
    refine ⟨⟨⟨⟨rfl, by simpa using hlm⟩, hmhi⟩, by simpa using hc⟩, ?_⟩
    rw [ordSeqB_cons]
    simp only [Bool.and_eq_true]
    exact ⟨⟨⟨⟨h.1.1.1.1, hmp⟩, h.1.1.2⟩, by simpa using hr⟩, h.2⟩
  | lo, hi, p :: ps, n :: ns, j + 1, c, r, m, h, hj, hc, hr, hlm, hmh => by
    rw [ordSeqB_cons] at h
    simp only [Bool.and_eq_true] at h
    show ordSeqB lo (p :: ps.insertIdx j (some m))
      (n :: (ns.set j c).insertIdx (j + 1) r) hi = true
    rw [ordSeqB_cons]
    simp only [Bool.and_eq_true]
    refine ⟨h.1, ?_⟩
    exact ordSeqB_ins p hi ps ns j c r m h.2 (by simpa using hj)
      (by simpa using hc) (by simpa using hr) (by simpa using hlm)
      (by simpa using hmh)

theorem ordSeqB_flatten : ∀ (lo hi : JKey) (ps : List JKey) (ns : List Node),
    ordSeqB lo ps ns hi = true →
    (∀ c ∈ ns, ∀ (l hb : JKey), ordB l c hb = true →
      c.toList.Pairwise (· < ·) ∧
      ∀ x ∈ c.toList, lowOkB l x = true ∧ highOkB x hb = true) →
    ((ns.map Node.toList).flatten.Pairwise (· < ·) ∧
      ∀ x ∈ (ns.map Node.toList).flatten,
        lowOkB lo x = true ∧ highOkB x hi = true)
  | _, _, [], [], h, _ => nomatch h
  | lo, hi, [], [n], h, hrec => by
    rw [ordSeqB_nil] at h
    have := hrec n (by simp) lo hi h
    simpa using this
  | _, _, [], _ :: _ :: _, h, _ => nomatch h
  | _, _, _ :: _, [], h, _ => nomatch h
  | lo, hi, p :: ps, n :: ns, h, hrec => by
    rw [ordSeqB_cons] at h
    simp only [Bool.and_eq_true] at h
    obtain ⟨⟨⟨⟨hsome, hlp⟩, hph⟩, hord⟩, hrest⟩ := h
    have hn := hrec n (by simp) lo p hord
    have ih := ordSeqB_flatten p hi ps ns hrest
      (fun c hc l hb ho => hrec c (by simp [hc]) l hb ho)
    rcases Option.isSome_iff_exists.mp hsome with ⟨b, rfl⟩
    rw [List.map_cons, List.flatten_cons]
    constructor
    · rw [List.pairwise_append]
      refine ⟨hn.1, ih.1, ?_⟩
      intro x hx y hy
      have hxp := (hn.2 x hx).2
      have hyp := (ih.2 y hy).1
      simp only [highOkB, decide_eq_true_eq] at hxp
      simp only [lowOkB, decide_eq_true_eq] at hyp
      omega
    · intro x hx
      rcases List.mem_append.mp hx with hx' | hx'
      · have h1 := hn.2 x hx'
        refine ⟨h1.1, ?_⟩
        have hxp := h1.2
        cases hi with
        | none => rfl
        | some hv =>
          simp only [highOkB, decide_eq_true_eq] at hxp ⊢
          simp only [jkLowLt, decide_eq_true_eq] at hph
          omega
      · have h1 := ih.2 x hx'
        refine ⟨?_, h1.2⟩
        have hyl := h1.1
        cases lo with
        | none => rfl
        | some lv =>
          simp only [lowOkB, decide_eq_true_eq] at hyl ⊢
          simp only [jkLowLt, decide_eq_true_eq] at hlp
          omega

theorem ordB_toList : ∀ (n : Node) (lo hi : JKey), ordB lo n hi = true →
    n.toList.Pairwise (· < ·) ∧
    ∀ x ∈ n.toList, lowOkB lo x = true ∧ highOkB x hi = true := by
  intro n
  induction n using Node.inductionOn with
  | hleaf es =>
    intro lo hi h
    rw [ordB_leaf, Bool.and_eq_true] at h
    rw [Node.toList_leaf]
    refine ⟨(chainLtB_iff_pairwise es).mp h.1, ?_⟩
    intro x hx
    have := List.all_eq_true.mp h.2 x hx
    simpa using this
  | hbranch ps ns ih =>
    intro lo hi h
    rw [ordB_branch] at h
    rw [Node.toList_branch]
    exact ordSeqB_flatten lo hi ps ns h (fun c hc l hb ho => ih c hc l hb ho)

theorem wfShape_count_pos : ∀ (n : Node), n.wfShape = true → 1 ≤ n.count := by
  intro n
  induction n using Node.inductionOn with
  | hleaf es =>
    intro h
    rw [Node.wfShape_leaf] at h
    rw [Node.count_leaf]
    cases es with
    | nil => simp at h
    | cons a t => simp
  | hbranch ps ns ih =>
    intro h
    rw [Node.wfShape_branch, Bool.and_eq_true] at h
    rw [Node.count_branch]
    have hlen : ns.length = ps.length + 1 := by simpa using h.1
    cases ns with
    | nil => simp at hlen
    | cons c rest =>
      have hc := ih c (by simp) (by
        have := List.all_eq_true.mp h.2 c (by simp)
        simpa using this)
      simp only [List.map_cons, List.sum_cons]
      omega

theorem all_isSome_exists_map : ∀ (ps : List JKey),
    (∀ p ∈ ps, p.isSome = true) → ∃ ks : List Int, ps = ks.map some
  | [], _ => ⟨[], rfl⟩
  | p :: ps, h => by
    rcases Option.isSome_iff_exists.mp (h p (by simp)) with ⟨b, rfl⟩
    rcases all_isSome_exists_map ps (fun q hq => h q (by simp [hq])) with ⟨ks, rfl⟩
    exact ⟨b :: ks, rfl⟩

theorem chainKeyB_pairwise : ∀ (lo : JKey) (ks : List Int),
    chainKeyB lo (ks.map some) = true →
    ks.Pairwise (· < ·) ∧ ∀ b : Int, lo = some b → ∀ x ∈ ks, b < x
  | _, [], _ => by simp
  | lo, a :: ks, h => by
    rw [List.map_cons, chainKeyB, Bool.and_eq_true] at h
    have ih := chainKeyB_pairwise (some a) ks h.2
    constructor
    · refine List.Pairwise.cons ?_ ih.1
      intro x hx
      exact ih.2 a rfl x hx
    · rintro b rfl x hx
      have hba : b < a := by simpa [jkLowLt] using h.1
      rcases List.mem_cons.mp hx with rfl | hx'
      · exact hba
      · exact lt_trans hba (ih.2 a rfl x hx')

theorem sorted_countP_split_le (k : Int) : ∀ (l : List Int), l.Pairwise (· < ·) →
    (∀ x ∈ l.take (l.countP (fun y => decide (y ≤ k))), x ≤ k) ∧
    (∀ x ∈ l.drop (l.countP (fun y => decide (y ≤ k))), ¬ x ≤ k)
  | [], _ => by simp
  | a :: t, hp => by
    rw [List.pairwise_cons] at hp
    by_cases ha : a ≤ k
    · have hc : (a :: t).countP (fun y => decide (y ≤ k)) =
          t.countP (fun y => decide (y ≤ k)) + 1 := by
        rw [List.countP_cons]
        simp [ha]
      have ih := sorted_countP_split_le k t hp.2
      rw [hc]
      constructor
      · intro x hx
        rcases List.mem_cons.mp (by simpa using hx) with rfl | hx'
        · exact ha
        · exact ih.1 x hx'
      · intro x hx
        exact ih.2 x (by simpa using hx)
    · have hz : t.countP (fun y => decide (y ≤ k)) = 0 := by
        rw [List.countP_eq_zero]
        intro x hx
        have := hp.1 x hx
        simp only [decide_eq_true_eq]
        omega
      have hc : (a :: t).countP (fun y => decide (y ≤ k)) = 0 := by
        rw [List.countP_cons]
        simp [ha, hz]
      rw [hc]
      refine ⟨by simp, ?_⟩
      intro x hx
      rcases List.mem_cons.mp (by simpa using hx) with rfl | hx'
      · exact ha
      · have := hp.1 x hx'
        omega

theorem ordSeqB_lo_le {k : Int} : ∀ (b : Int) (hi : JKey) (ps : List JKey)
    (ns : List Node) (j : Nat),
    ordSeqB (some b) ps ns hi = true → j ≤ ps.length →
    lowOkB ((some b :: ps).getD j none) k = true → b ≤ k
  | b, _, _, _, 0, _, _, hl => by simpa [lowOkB] using hl
  | _, _, [], _, j + 1, _, hj, _ => by simp at hj
  | b, hi, p :: ps, [], _, h, _, _ => nomatch h
  | b, hi, p :: ps, n :: ns, j + 1, h, hj, hl => by
    rw [ordSeqB_cons] at h
    simp only [Bool.and_eq_true] at h
    rcases Option.isSome_iff_exists.mp h.1.1.1.1 with ⟨c, rfl⟩
    have hbc : b < c := by simpa [jkLowLt] using h.1.1.1.2
    have := ordSeqB_lo_le c hi ps ns j h.2 (by simpa using hj) (by simpa using hl)
    omega

theorem ordSeqB_prefix_lt {k : Int} : ∀ (lo hi : JKey) (ps : List JKey)
    (ns : List Node) (j : Nat),
    ordSeqB lo ps ns hi = true → j ≤ ps.length →
    lowOkB ((lo :: ps).getD j none) k = true →
    ∀ x ∈ ((ns.take j).map Node.toList).flatten, x < k
  | _, _, _, _, 0, _, _, _ => by simp
  | _, _, [], _, j + 1, _, hj, _ => by simp at hj
  | _, _, _ :: _, [], _, h, _, _ => nomatch h
  | lo, hi, p :: ps, n :: ns, j + 1, h, hj, hl => by
    rw [ordSeqB_cons] at h
    simp only [Bool.and_eq_true] at h
    rcases Option.isSome_iff_exists.mp h.1.1.1.1 with ⟨b, rfl⟩
    have hbk : b ≤ k := ordSeqB_lo_le b hi ps ns j h.2 (by simpa using hj)
      (by simpa using hl)
    intro x hx
    rw [List.take_succ_cons, List.map_cons, List.flatten_cons] at hx
    rcases List.mem_append.mp hx with hx' | hx'
    · have := (ordB_toList n lo (some b) h.1.2).2 x hx'
      have hxb := this.2
      simp only [highOkB, decide_eq_true_eq] at hxb
      omega
    · exact ordSeqB_prefix_lt (some b) hi ps ns j h.2 (by simpa using hj)
        (by simpa using hl) x hx'

theorem ordSeqB_suffix_ge {k : Int} : ∀ (lo hi : JKey) (ps : List JKey)
    (ns : List Node) (j : Nat),
    ordSeqB lo ps ns hi = true → j ≤ ps.length →
    highOkB k ((ps ++ [hi]).getD j none) = true →
    ∀ x ∈ ((ns.drop (j + 1)).map Node.toList).flatten, k < x
  | _, _, [], [], _, h, _, _ => nomatch h
  | lo, hi, [], [n], 0, h, _, _ => by simp
  | _, _, [], _ :: _ :: _, _, h, _, _ => nomatch h
  | _, _, _ :: _, [], _, h, _, _ => nomatch h
  | _, _, [], _, j + 1, _, hj, _ => by simp at hj
  | lo, hi, p :: ps, n :: ns, 0, h, _, hh => by
    rw [ordSeqB_cons] at h
    simp only [Bool.and_eq_true] at h
    rcases Option.isSome_iff_exists.mp h.1.1.1.1 with ⟨b, rfl⟩
    have hkb : k < b := by simpa [highOkB] using hh
    intro x hx
    rw [List.drop_succ_cons, List.drop_zero] at hx
    have hfl := ordSeqB_flatten (some b) hi ps ns h.2
      (fun c _ l hb ho => ordB_toList c l hb ho)
    have := (hfl.2 x hx).1
    simp only [lowOkB, decide_eq_true_eq] at this
    omega
  | lo, hi, p :: ps, n :: ns, j + 1, h, hj, hh => by
    rw [ordSeqB_cons] at h
    simp only [Bool.and_eq_true] at h
    intro x hx
    rw [List.drop_succ_cons] at hx
    exact ordSeqB_suffix_ge p hi ps ns j h.2 (by simpa using hj)
      (by simpa using hh) x hx

theorem flatten_split_at {α β : Type} (f : α → List β) (l : List α) (j : Nat) (d : α)
    (hj : j < l.length) :
    (l.map f).flatten = ((l.take j).map f).flatten ++
      (f (l.getD j d) ++ ((l.drop (j + 1)).map f).flatten) := by
  conv_lhs => rw [← List.take_append_drop j l]
  rw [List.map_append, List.flatten_append]
  congr 1
  rw [List.drop_eq_getElem_cons hj, List.map_cons, List.flatten_cons,
    List.getD_eq_getElem l d hj]

theorem countP_lt_length_of_mem {k : Int} {es : List Int} (hk : k ∈ es) :
    es.countP (fun x => decide (x < k)) < es.length := by
  by_contra hc
  have h1 : es.countP (fun x => decide (x < k)) = es.length :=
    le_antisymm (List.countP_le_length _) (by omega)
  have := List.countP_eq_length.mp h1 k hk
  simp at this

theorem posGo_branch (ps : List JKey) (ns : List Node) (j : Nat) (rest : List Nat) :
    posGo (.branch ps ns) (j :: rest) =
      ((ns.take j).map Node.count).sum + posGo (ns.getD j (.leaf [])) rest := rfl

theorem validOffB_branch (ps : List JKey) (ns : List Node) (j : Nat)
    (rest : List Nat) (li : Nat) :
    validOffB (.branch ps ns) (j :: rest) li =
      (decide (j < ns.length) && validOffB (ns.getD j (.leaf [])) rest li) := rfl

theorem validOnB_branch (ps : List JKey) (ns : List Node) (j : Nat)
    (rest : List Nat) (li : Nat) :
    validOnB (.branch ps ns) (j :: rest) li =
      (decide (j < ns.length) && validOnB (ns.getD j (.leaf [])) rest li) := rfl

theorem getPath_spec : ∀ (n : Node) (lo hi : JKey) (k : Int),
    ordB lo n hi = true → lowOkB lo k = true → highOkB k hi = true →
    ((getPath n (some k)).isOn = decide (k ∈ n.toList) ∧
     validOffB n (getPath n (some k)).branches (getPath n (some k)).leafIndex = true) ∧
    (posGo n (getPath n (some k)).branches + (getPath n (some k)).leafIndex =
      n.toList.countP (fun x => decide (x < k)) ∧
     ((getPath n (some k)).isOn = true →
      validOnB n (getPath n (some k)).branches (getPath n (some k)).leafIndex = true)) := by
  intro n
  induction n using Node.inductionOn with
  | hleaf es =>
    intro lo hi k hord _ _
    rw [ordB_leaf, Bool.and_eq_true] at hord
    have hsort := (chainLtB_iff_pairwise es).mp hord.1
    have hie := indexOfEntry_sorted es k hsort
    rw [getPath_leaf, Node.toList_leaf]
    simp only [hie]
    refine ⟨⟨by trivial, ?_⟩, ?_, ?_⟩
    · simp only [validOffB]
      simpa using List.countP_le_length (fun x => decide (x < k))
    · show posGo (Node.leaf es) [] + _ = _
      rw [posGo]
      omega
    · intro hon
      have hk : k ∈ es := by simpa using hon
      simp only [validOnB]
      simpa using countP_lt_length_of_mem hk
  | hbranch ps ns ih =>
    intro lo hi k hord hlow hhigh
    rw [ordB_branch] at hord
    obtain ⟨ks, rfl⟩ := all_isSome_exists_map ps (ordSeqB_some lo hi ps ns hord)
    have hlen : ns.length = ks.length + 1 := by
      simpa using ordSeqB_length lo hi _ ns hord
    have hkpair := (chainKeyB_pairwise lo ks (ordSeqB_chain lo hi _ ns hord)).1
    have hsplit_le := sorted_countP_split_le k ks hkpair
    obtain ⟨j, hjdef⟩ : ∃ j, ks.countP (fun p => decide (p ≤ k)) = j := ⟨_, rfl⟩
    have hjle : j ≤ ks.length := hjdef ▸ List.countP_le_length _
    have hjle' : j ≤ (ks.map some).length := by simpa using hjle
    have hjns : j < ns.length := by omega
    have hj : indexOfKey (ks.map some) (some k) = j :=
      hjdef ▸ indexOfKey_sorted ks k hkpair
    have hbl : lowOkB ((lo :: ks.map some).getD j none) k = true := by
      rcases Nat.eq_zero_or_pos j with hj0 | hjpos
      · rw [hj0]
        simpa using hlow
      · obtain ⟨i, rfl⟩ : ∃ i, j = i + 1 := ⟨j - 1, by omega⟩
        have hi2 : i < ks.length := by omega
        have hgd : (lo :: ks.map some).getD (i + 1) none = some ks[i] := by
          simp [List.getD_eq_getElem?_getD, List.getElem?_map,
            List.getElem?_eq_getElem hi2]
        rw [hgd]
        have hmem : ks[i] ∈ ks.take (i + 1) := by
          have hlen2 : i < (ks.take (i + 1)).length := by
            rw [List.length_take]
            omega
          have hin : (ks.take (i + 1))[i] ∈ ks.take (i + 1) := List.getElem_mem hlen2
          rwa [List.getElem_take] at hin
        have := hsplit_le.1 ks[i] (by rw [hjdef]; exact hmem)
        simpa [lowOkB] using this
    have hbh : highOkB k ((ks.map some ++ [hi]).getD j none) = true := by
      rcases Nat.lt_or_ge j ks.length with hjlt | hjge
      · have hgd : (ks.map some ++ [hi]).getD j none = some ks[j] := by
          have hjm : j < (ks.map some).length := by simpa using hjlt
          rw [List.getD_eq_getElem?_getD, List.getElem?_append_left hjm,
            List.getElem?_map, List.getElem?_eq_getElem hjlt]
          rfl
        rw [hgd]
        have hmem : ks[j] ∈ ks.drop j := by
          have hlen2 : 0 < (ks.drop j).length := by
            rw [List.length_drop]
            omega
          have hin : (ks.drop j)[0] ∈ ks.drop j := List.getElem_mem hlen2
          rw [List.getElem_drop] at hin
          simpa using hin
        have := hsplit_le.2 ks[j] (by rw [hjdef]; exact hmem)
        simp only [highOkB, decide_eq_true_eq]
        omega
      · have hje : j = ks.length := by omega
        have hgd : (ks.map some ++ [hi]).getD j none = hi := by
          subst hje
          simp [List.getD_eq_getElem?_getD, List.getElem?_append_right]
        rw [hgd]
        exact hhigh
    have hordc := ordSeqB_get lo hi (ks.map some) ns j hord hjle'
    have IH := ih (ns.getD j (.leaf [])) (by
        rw [List.getD_eq_getElem _ _ hjns]
        exact List.getElem_mem _) _ _ k hordc hbl hbh
    have hP := ordSeqB_prefix_lt lo hi (ks.map some) ns j hord hjle' hbl
    have hS := ordSeqB_suffix_ge lo hi (ks.map some) ns j hord hjle' hbh
    have hflat := flatten_split_at Node.toList ns j (.leaf []) hjns
    have hchld : (Node.branch (ks.map some) ns).childAt j = ns.getD j (.leaf []) := by
      simp [Node.childAt, Node.nodesOf]
    rw [getPath_branch]
    simp only [hj, hchld]
    rw [Node.toList_branch, hflat]
    have hmemiff : k ∈ ((ns.take j).map Node.toList).flatten ++
        ((ns.getD j (.leaf [])).toList ++ ((ns.drop (j + 1)).map Node.toList).flatten) ↔
        k ∈ (ns.getD j (.leaf [])).toList := by
      simp only [List.mem_append]
      constructor
      · rintro (hx | hx | hx)
        · exact absurd (hP k hx) (by omega)
        · exact hx
        · exact absurd (hS k hx) (by omega)
      · intro hx
        exact Or.inr (Or.inl hx)
    have hcnt : (((ns.take j).map Node.toList).flatten ++
        ((ns.getD j (.leaf [])).toList ++ ((ns.drop (j + 1)).map Node.toList).flatten)).countP
          (fun x => decide (x < k)) =
        ((ns.take j).map Node.count).sum +
          ((ns.getD j (.leaf [])).toList.countP (fun x => decide (x < k))) := by
      rw [List.countP_append, List.countP_append]
      have h1 : (((ns.take j).map Node.toList).flatten).countP (fun x => decide (x < k)) =
          (((ns.take j).map Node.toList).flatten).length := by
        rw [List.countP_eq_length]
        intro a ha
        simpa using hP a ha
      have h2 : (((ns.drop (j + 1)).map Node.toList).flatten).countP
          (fun x => decide (x < k)) = 0 := by
        rw [List.countP_eq_zero]
        intro a ha
        have := hS a ha
        simp only [decide_eq_true_eq]
        omega
      have h3 : (((ns.take j).map Node.toList).flatten).length =
          ((ns.take j).map Node.count).sum := by
        rw [List.length_flatten, List.map_map]
        rfl
      omega
    refine ⟨⟨?_, ?_⟩, ?_, ?_⟩
    · rw [decide_eq_decide.mpr hmemiff]
      exact IH.1.1
    · rw [validOffB_branch, Bool.and_eq_true]
      exact ⟨by simpa using hjns, IH.1.2⟩
    · rw [hcnt, posGo_branch]
      have := IH.2.1
      omega
    · intro hon
      rw [validOnB_branch, Bool.and_eq_true]
      exact ⟨by simpa using hjns, IH.2.2 hon⟩

theorem jkLowLt_trans {a b c : JKey} (hab : jkLowLt a b = true)
    (hbc : jkLowLt b c = true) (hb : b.isSome = true) : jkLowLt a c = true := by
  rcases Option.isSome_iff_exists.mp hb with ⟨bv, rfl⟩
  cases a with
  | none => rfl
  | some av =>
    have h1 : av < bv := by simpa [jkLowLt] using hab
    exact jkLowLt_trans_some h1 hbc

theorem List.getLastD_of_ne_nil {α : Type} : ∀ (l : List α) (d₁ d₂ : α), l ≠ [] →
    l.getLastD d₁ = l.getLastD d₂
  | [], _, _, h => absurd rfl h
  | [a], _, _, _ => rfl
  | _ :: _ :: _, _, _, _ => rfl

theorem head?_mem_of_eq {α : Type} {l : List α} {a : α} (h : l.head? = some a) :
    a ∈ l := by
  cases l with
  | nil => simp at h
  | cons b t =>
    simp only [List.head?_cons, Option.some.injEq] at h
    simp [h.symm]

theorem leafSplit_ok {lo hi : JKey} {k : Int} {es A B : List Int} {m : Int}
    (hAB : A ++ B = insSorted k es)
    (hsort : es.Pairwise (· < ·)) (hnotin : k ∉ es)
    (hbnd : ∀ x ∈ es, lowOkB lo x = true ∧ highOkB x hi = true)
    (hlowk : lowOkB lo k = true) (hhighk : highOkB k hi = true)
    (hA : A ≠ []) (hhead : B.head? = some m) :
    jkLowLt lo (some m) = true ∧ jkLowLt (some m) hi = true ∧
    ordB lo (.leaf A) (some m) = true ∧ ordB (some m) (.leaf B) hi = true ∧
    (Node.leaf A).wfShape = true ∧ (Node.leaf B).wfShape = true := by
  have hins := insSorted_pairwise hsort hnotin
  rw [← hAB] at hins
  rw [List.pairwise_append] at hins
  obtain ⟨hApair, hBpair, hcross⟩ := hins
  have hbnd' : ∀ x, x ∈ A ∨ x ∈ B → lowOkB lo x = true ∧ highOkB x hi = true := by
    intro x hx
    have hx2 : x ∈ insSorted k es := by
      rw [← hAB]
      exact List.mem_append.mpr hx
    rcases mem_insSorted.mp hx2 with rfl | hx3
    · exact ⟨hlowk, hhighk⟩
    · exact hbnd x hx3
  have hmB : m ∈ B := head?_mem_of_eq hhead
  have hmle : ∀ x ∈ B, m ≤ x := by
    intro x hx
    cases B with
    | nil => simp at hmB
    | cons b t =>
      simp only [List.head?_cons, Option.some.injEq] at hhead
      subst hhead
      rcases List.mem_cons.mp hx with rfl | hx'
      · omega
      · exact le_of_lt (List.rel_of_pairwise_cons hBpair hx')
  have hAm : ∀ x ∈ A, x < m := fun x hx => hcross x hx m hmB
  obtain ⟨a0, ha0⟩ : ∃ a0, a0 ∈ A := by
    cases A with
    | nil => exact absurd rfl hA
    | cons a t => exact ⟨a, by simp⟩
  have hmbnd := hbnd' m (Or.inr hmB)
  refine ⟨?_, ?_, ?_, ?_, ?_, ?_⟩
  · have h1 := (hbnd' a0 (Or.inl ha0)).1
    have h2 := hAm a0 ha0
    cases lo with
    | none => rfl
    | some lv =>
      simp only [lowOkB, decide_eq_true_eq] at h1
      simp only [jkLowLt, decide_eq_true_eq]
      omega
  · have h2 := hmbnd.2
    cases hi with
    | none => rfl
    | some hv =>
      simp only [highOkB, decide_eq_true_eq] at h2
      simpa [jkLowLt] using h2
  · rw [ordB_leaf, Bool.and_eq_true]
    refine ⟨(chainLtB_iff_pairwise A).mpr hApair, ?_⟩
    rw [List.all_eq_true]
    intro x hx
    have h1 := (hbnd' x (Or.inl hx)).1
    have h2 := hAm x hx
    simp only [Bool.and_eq_true]
    exact ⟨h1, by simpa [highOkB] using h2⟩
  · rw [ordB_leaf, Bool.and_eq_true]
    refine ⟨(chainLtB_iff_pairwise B).mpr hBpair, ?_⟩
    rw [List.all_eq_true]
    intro x hx
    have h1 := (hbnd' x (Or.inr hx)).2
    have h2 := hmle x hx
    simp only [Bool.and_eq_true]
    exact ⟨by simpa [lowOkB] using h2, h1⟩
  · rw [Node.wfShape_leaf]
    simpa [List.isEmpty_iff] using hA
  · rw [Node.wfShape_leaf]
    have : B ≠ [] := by
      intro hB
      rw [hB] at hmB
      simp at hmB
    simpa [List.isEmpty_iff] using this

theorem ordSeqB_route {lo hi : JKey} {ks : List Int} {ns : List Node} {k : Int}
    (hord : ordSeqB lo (ks.map some) ns hi = true)
    (hlow : lowOkB lo k = true) (hhigh : highOkB k hi = true) :
    lowOkB ((lo :: ks.map some).getD (ks.countP (fun p => decide (p ≤ k))) none)
      k = true ∧
    highOkB k ((ks.map some ++ [hi]).getD (ks.countP (fun p => decide (p ≤ k)))
      none) = true := by
  have hkpair := (chainKeyB_pairwise lo ks (ordSeqB_chain lo hi _ ns hord)).1
  have hsplit_le := sorted_countP_split_le k ks hkpair
  obtain ⟨j, hjdef⟩ : ∃ j, ks.countP (fun p => decide (p ≤ k)) = j := ⟨_, rfl⟩
  rw [hjdef]
  have hjle : j ≤ ks.length := hjdef ▸ List.countP_le_length _
  constructor
  · rcases Nat.eq_zero_or_pos j with hj0 | hjpos
    · rw [hj0]
      simpa using hlow
    · obtain ⟨i, rfl⟩ : ∃ i, j = i + 1 := ⟨j - 1, by omega⟩
      have hi2 : i < ks.length := by omega
      have hgd : (lo :: ks.map some).getD (i + 1) none = some ks[i] := by
        simp [List.getD_eq_getElem?_getD, List.getElem?_map,
          List.getElem?_eq_getElem hi2]
      rw [hgd]
      have hmem : ks[i] ∈ ks.take (i + 1) := by
        have hlen2 : i < (ks.take (i + 1)).length := by
          rw [List.length_take]
          omega
        have hin : (ks.take (i + 1))[i] ∈ ks.take (i + 1) := List.getElem_mem hlen2
        rwa [List.getElem_take] at hin
      have := hsplit_le.1 ks[i] (by rw [hjdef]; exact hmem)
      simpa [lowOkB] using this
  · rcases Nat.lt_or_ge j ks.length with hjlt | hjge
    · have hgd : (ks.map some ++ [hi]).getD j none = some ks[j] := by
        have hjm : j < (ks.map some).length := by simpa using hjlt
        rw [List.getD_eq_getElem?_getD, List.getElem?_append_left hjm,
          List.getElem?_map, List.getElem?_eq_getElem hjlt]
        rfl
      rw [hgd]
      have hmem : ks[j] ∈ ks.drop j := by
        have hlen2 : 0 < (ks.drop j).length := by
          rw [List.length_drop]
          omega
        have hin : (ks.drop j)[0] ∈ ks.drop j := List.getElem_mem hlen2
        rw [List.getElem_drop] at hin
        simpa using hin
      have := hsplit_le.2 ks[j] (by rw [hjdef]; exact hmem)
      simp only [highOkB, decide_eq_true_eq]
      omega
    · have hje : j = ks.length := by omega
      have hgd : (ks.map some ++ [hi]).getD j none = hi := by
        subst hje
        simp [List.getD_eq_getElem?_getD, List.getElem?_append_right]
      rw [hgd]
      exact hhigh

theorem ordSeqB_split : ∀ (lo hi : JKey) (ps : List JKey) (ns : List Node)
    (mid : Nat),
    ordSeqB lo ps ns hi = true → 1 ≤ mid → mid ≤ ps.length →
    ((ps.take mid).getLastD none).isSome = true ∧
    jkLowLt lo ((ps.take mid).getLastD none) = true ∧
    jkLowLt ((ps.take mid).getLastD none) hi = true ∧
    ordSeqB lo ((ps.take mid).dropLast) (ns.take mid)
      ((ps.take mid).getLastD none) = true ∧
    ordSeqB ((ps.take mid).getLastD none) (ps.drop mid) (ns.drop mid) hi = true
  | _, _, [], _, mid, _, h1, h2 => by
    simp at h2
    omega
  | _, _, _ :: _, [], _, h, _, _ => nomatch h
  | _, _, _ :: _, _ :: _, 0, _, h1, _ => by omega
  | lo, hi, p :: ps, n :: ns, 1, h, _, _ => by
    rw [ordSeqB_cons] at h
    simp only [Bool.and_eq_true] at h
    obtain ⟨⟨⟨⟨hsome, hlp⟩, hph⟩, hord⟩, hrest⟩ := h
    refine ⟨hsome, hlp, hph, ?_, ?_⟩
    · show ordSeqB lo [] [n] p = true
      rw [ordSeqB_nil]
      exact hord
    · show ordSeqB p ps ns hi = true
      exact hrest
  | lo, hi, p :: ps, n :: ns, mid + 2, h, _, hmle => by
    rw [ordSeqB_cons] at h
    simp only [Bool.and_eq_true] at h
    obtain ⟨⟨⟨⟨hsome, hlp⟩, hph⟩, hord⟩, hrest⟩ := h
    have hmle' : mid + 1 ≤ ps.length := by simpa using hmle
    have IH := ordSeqB_split p hi ps ns (mid + 1) hrest (by omega) hmle'
    have hpsne : ps.take (mid + 1) ≠ [] := by
      cases ps with
      | nil => simp at hmle'
      | cons q ps' => simp
    have hKeq : ((p :: ps).take (mid + 2)).getLastD none =
        (ps.take (mid + 1)).getLastD none := by
      show (p :: ps.take (mid + 1)).getLastD none = _
      rw [List.getLastD_cons]
      exact List.getLastD_of_ne_nil _ p none hpsne
    have hDL : ((p :: ps).take (mid + 2)).dropLast =
        p :: (ps.take (mid + 1)).dropLast := by
      show (p :: ps.take (mid + 1)).dropLast = _
      cases hq : ps.take (mid + 1) with
      | nil => exact absurd hq hpsne
      | cons q l => rfl
    rw [hKeq, hDL]
    refine ⟨IH.1, jkLowLt_trans hlp IH.2.1 hsome, IH.2.2.1, ?_, ?_⟩
    · show ordSeqB lo (p :: (ps.take (mid + 1)).dropLast)
        (n :: ns.take (mid + 1)) ((ps.take (mid + 1)).getLastD none) = true
      rw [ordSeqB_cons]
      simp only [Bool.and_eq_true]
      exact ⟨⟨⟨⟨hsome, hlp⟩, IH.2.1⟩, hord⟩, IH.2.2.2.1⟩
    · show ordSeqB ((ps.take (mid + 1)).getLastD none) (ps.drop (mid + 1))
        (ns.drop (mid + 1)) hi = true
      exact IH.2.2.2.2

theorem InsOK_none (lo hi : JKey) (k : Int) (n node : Node) (idxs : List Nat)
    (li : Nat) :
    InsOK lo hi k n ⟨node, idxs, li, none⟩ =
      (ordB lo node hi = true ∧ node.wfShape = true ∧
        node.toList = insSorted k n.toList) := rfl

theorem InsOK_some (lo hi : JKey) (k : Int) (n node : Node) (idxs : List Nat)
    (li : Nat) (s : SplitInfo) :
    InsOK lo hi k n ⟨node, idxs, li, some s⟩ =
      (∃ m : Int, s.key = some m ∧ jkLowLt lo (some m) = true ∧
        jkLowLt (some m) hi = true ∧ ordB lo node (some m) = true ∧
        ordB (some m) s.right hi = true ∧ node.wfShape = true ∧
        s.right.wfShape = true ∧
        node.toList ++ s.right.toList = insSorted k n.toList) := rfl

theorem wfRootShape_branch (ps : List JKey) (ns : List Node) :
    (Node.branch ps ns).wfRootShape =
      (decide (ns.length = ps.length + 1) && ns.all Node.wfShape) := rfl

theorem wfShape_imp_root (n : Node) (h : n.wfShape = true) :
    n.wfRootShape = true := by
  cases n with
  | leaf es => rfl
  | branch ps ns =>
    rw [Node.wfShape_branch] at h
    rw [wfRootShape_branch]
    exact h

theorem set_insertIdx_decomp {α : Type} (l : List α) (j : Nat) (c r : α)
    (hj : j < l.length) :
    (l.set j c).insertIdx (j + 1) r = l.take j ++ c :: r :: l.drop (j + 1) := by
  rw [List.set_eq_take_cons_drop c hj]
  rw [List.insertIdx_eq_append _ _ _ (by
    rw [List.length_append, List.length_take, List.length_cons, List.length_drop]
    omega)]
  rw [List.take_append_eq_append_take, List.drop_append_eq_append_drop]
  have h1 : (l.take j).length = j := by
    rw [List.length_take]
    omega
  rw [h1]
  have h4 : (l.take j).take (j + 1) = l.take j :=
    List.take_of_length_le (by rw [List.length_take]; omega)
  have h5 : (l.take j).drop (j + 1) = [] :=
    List.drop_eq_nil_of_le (by rw [List.length_take]; omega)
  have h3 : j + 1 - j = 1 := by omega
  rw [h4, h5, h3]
  simp

theorem branchSet_ok {lo hi : JKey} {k : Int} {ks : List Int} {ns : List Node}
    {j : Nat} {c : Node} (idxs : List Nat) (li : Nat)
    (hord : ordSeqB lo (ks.map some) ns hi = true)
    (hall : ns.all Node.wfShape = true)
    (hnslen : ns.length = ks.length + 1)
    (hjle : j ≤ ks.length)
    (hcord : ordB ((lo :: ks.map some).getD j none) c
      ((ks.map some ++ [hi]).getD j none) = true)
    (hcw : c.wfShape = true)
    (hclist : c.toList = insSorted k ((ns.getD j (.leaf [])).toList))
    (hP : ∀ x ∈ ((ns.take j).map Node.toList).flatten, x < k)
    (hS : ∀ x ∈ ((ns.drop (j + 1)).map Node.toList).flatten, k < x) :
    InsOK lo hi k (.branch (ks.map some) ns)
      ⟨.branch (ks.map some) (ns.set j c), j :: idxs, li, none⟩ := by
  have hjns : j < ns.length := by omega
  rw [InsOK_none]
  refine ⟨?_, ?_, ?_⟩
  · rw [ordB_branch]
    exact ordSeqB_set lo hi _ ns j c hord (by simpa using hjle) hcord
  · rw [Node.wfShape_branch, Bool.and_eq_true]
    constructor
    · simp [hnslen]
    · rw [List.all_eq_true]
      intro x hx
      rcases List.mem_or_eq_of_mem_set hx with hx' | rfl
      · exact List.all_eq_true.mp hall x hx'
      · exact hcw
  · rw [Node.toList_branch, Node.toList_branch]
    rw [List.set_eq_take_cons_drop c hjns]
    rw [List.map_append, List.flatten_append, List.map_cons, List.flatten_cons]
    rw [flatten_split_at Node.toList ns j (.leaf []) hjns]
    rw [insSorted_append_mid k _ _ _ hP (fun x hx => by
      have := hS x hx
      omega)]
    rw [hclist]

theorem branchInsert_ok {lo hi : JKey} {k : Int} {ks : List Int} {ns : List Node}
    {j : Nat} {c r : Node} {m : Int} (idxs : List Nat) (li : Nat) (delta : Nat)
    (hord : ordSeqB lo (ks.map some) ns hi = true)
    (hall : ns.all Node.wfShape = true)
    (hnslen : ns.length = ks.length + 1)
    (hjle : j ≤ ks.length)
    (hcord : ordB ((lo :: ks.map some).getD j none) c (some m) = true)
    (hrord : ordB (some m) r ((ks.map some ++ [hi]).getD j none) = true)
    (hlm : jkLowLt ((lo :: ks.map some).getD j none) (some m) = true)
    (hmh : jkLowLt (some m) ((ks.map some ++ [hi]).getD j none) = true)
    (hcw : c.wfShape = true) (hrw : r.wfShape = true)
    (hconcat : c.toList ++ r.toList = insSorted k ((ns.getD j (.leaf [])).toList))
    (hP : ∀ x ∈ ((ns.take j).map Node.toList).flatten, x < k)
    (hS : ∀ x ∈ ((ns.drop (j + 1)).map Node.toList).flatten, k < x) :
    InsOK lo hi k (.branch (ks.map some) ns)
      ⟨(branchInsert (ks.map some) ns j c ⟨some m, r, delta⟩).1,
        (branchInsert (ks.map some) ns j c ⟨some m, r, delta⟩).2.1 :: idxs, li,
        (branchInsert (ks.map some) ns j c ⟨some m, r, delta⟩).2.2⟩ := by
  have hjns : j < ns.length := by omega
  have hord₁ : ordSeqB lo ((ks.map some).insertIdx j (some m))
      ((ns.set j c).insertIdx (j + 1) r) hi = true :=
    ordSeqB_ins lo hi _ ns j c r m hord (by simpa using hjle) hcord hrord hlm hmh
  have hps₁len : ((ks.map some).insertIdx j (some m)).length = ks.length + 1 := by
    rw [List.length_insertIdx _ _ (by simpa using hjle)]
    simp
  have hns₁len : ((ns.set j c).insertIdx (j + 1) r).length = ns.length + 1 := by
    rw [List.length_insertIdx _ _ (by rw [List.length_set]; omega), List.length_set]
  have hall₁ : ((ns.set j c).insertIdx (j + 1) r).all Node.wfShape = true := by
    rw [List.all_eq_true]
    intro x hx
    rcases (List.mem_insertIdx (by rw [List.length_set]; omega)).mp hx with rfl | hx'
    · exact hrw
    · rcases List.mem_or_eq_of_mem_set hx' with hx'' | rfl
      · exact List.all_eq_true.mp hall x hx''
      · exact hcw
  have hflat₁ : (((ns.set j c).insertIdx (j + 1) r).map Node.toList).flatten =
      insSorted k ((ns.map Node.toList).flatten) := by
    rw [set_insertIdx_decomp ns j c r hjns]
    rw [List.map_append, List.flatten_append, List.map_cons, List.flatten_cons,
      List.map_cons, List.flatten_cons]
    rw [flatten_split_at Node.toList ns j (.leaf []) hjns]
    rw [insSorted_append_mid k _ _ _ hP (fun x hx => by
      have := hS x hx
      omega)]
    rw [← hconcat]
    simp [List.append_assoc]
  by_cases hcap : ((ns.set j c).insertIdx (j + 1) r).length ≤ NodeCapacity
  · have hred : branchInsert (ks.map some) ns j c ⟨some m, r, delta⟩ =
        (.branch ((ks.map some).insertIdx j (some m))
          ((ns.set j c).insertIdx (j + 1) r), j + delta, none) := by
      simp only [branchInsert]
      rw [if_pos hcap]
    rw [hred]
    rw [InsOK_none]
    refine ⟨?_, ?_, ?_⟩
    · rw [ordB_branch]
      exact hord₁
    · rw [Node.wfShape_branch, Bool.and_eq_true]
      refine ⟨?_, hall₁⟩
      simp only [hns₁len, hps₁len, hnslen]
      simp
    · rw [Node.toList_branch, Node.toList_branch]
      exact hflat₁
  · obtain ⟨mid, hmid⟩ :
        ∃ mid, ((ns.set j c).insertIdx (j + 1) r).length / 2 = mid := ⟨_, rfl⟩
    have hcap' : NodeCapacity + 1 ≤ ((ns.set j c).insertIdx (j + 1) r).length := by
      omega
    have hmid1 : 1 ≤ mid := by
      simp only [NodeCapacity] at hcap'
      omega
    have hmidle : mid ≤ ((ks.map some).insertIdx j (some m)).length := by
      simp only [NodeCapacity] at hcap'
      omega
    have hsplit := ordSeqB_split lo hi ((ks.map some).insertIdx j (some m))
      ((ns.set j c).insertIdx (j + 1) r) mid hord₁ hmid1 hmidle
    obtain ⟨m', hm'⟩ := Option.isSome_iff_exists.mp hsplit.1
    have hred : branchInsert (ks.map some) ns j c ⟨some m, r, delta⟩ =
        (.branch ((((ks.map some).insertIdx j (some m)).take mid).dropLast)
            (((ns.set j c).insertIdx (j + 1) r).take mid),
         (if j + delta ≥ mid then j + delta - mid else j + delta),
         some ⟨(((ks.map some).insertIdx j (some m)).take mid).getLastD none,
           .branch (((ks.map some).insertIdx j (some m)).drop mid)
             (((ns.set j c).insertIdx (j + 1) r).drop mid),
           if (if j + delta ≥ mid then j + delta - mid else j + delta) < mid
             then 0 else 1⟩) := by
      simp only [branchInsert]
      rw [if_neg hcap, hmid]
    rw [hred]
    rw [InsOK_some]
    refine ⟨m', hm', hm' ▸ hsplit.2.1, hm' ▸ hsplit.2.2.1, ?_, ?_, ?_, ?_, ?_⟩
    · rw [ordB_branch]
      exact hm' ▸ hsplit.2.2.2.1
    · rw [ordB_branch]
      exact hm' ▸ hsplit.2.2.2.2
    · rw [Node.wfShape_branch, Bool.and_eq_true]
      constructor
      · rw [List.length_take, List.length_dropLast, List.length_take]
        simp only [decide_eq_true_eq]
        omega
      · rw [List.all_eq_true]
        intro x hx
        exact List.all_eq_true.mp hall₁ x (List.mem_of_mem_take hx)
    · rw [Node.wfShape_branch, Bool.and_eq_true]
      constructor
      · rw [List.length_drop, List.length_drop]
        simp only [decide_eq_true_eq]
        omega
      · rw [List.all_eq_true]
        intro x hx
        exact List.all_eq_true.mp hall₁ x (List.mem_of_mem_drop hx)
    · rw [Node.toList_branch, Node.toList_branch, Node.toList_branch]
      rw [← List.flatten_append, ← List.map_append, List.take_append_drop]
      exact hflat₁

theorem leafInsert_ok {lo hi : JKey} {k : Int} {es : List Int}
    (hord : ordB lo (.leaf es) hi = true)
    (hlow : lowOkB lo k = true) (hhigh : highOkB k hi = true)
    (hnotin : k ∉ es) :
    InsOK lo hi k (.leaf es)
      ⟨.leaf (leafInsert es (es.countP (fun x => decide (x < k))) k).1, [],
        (leafInsert es (es.countP (fun x => decide (x < k))) k).2.1,
        (leafInsert es (es.countP (fun x => decide (x < k))) k).2.2⟩ := by
  rw [ordB_leaf, Bool.and_eq_true] at hord
  have hsort := (chainLtB_iff_pairwise es).mp hord.1
  have hbnd : ∀ x ∈ es, lowOkB lo x = true ∧ highOkB x hi = true := by
    intro x hx
    have := List.all_eq_true.mp hord.2 x hx
    simpa using this
  have hcle : es.countP (fun x => decide (x < k)) ≤ es.length :=
    List.countP_le_length _
  by_cases hlen : es.length < NodeCapacity
  · have hred : leafInsert es (es.countP (fun x => decide (x < k))) k =
        (es.insertIdx (es.countP (fun x => decide (x < k))) k,
          es.countP (fun x => decide (x < k)), none) := by
      simp only [leafInsert]
      rw [if_pos hlen]
    rw [hred, InsOK_none]
    refine ⟨?_, ?_, ?_⟩
    · rw [ordB_leaf, Bool.and_eq_true]
      refine ⟨(chainLtB_iff_pairwise _).mpr (insSorted_pairwise hsort hnotin), ?_⟩
      rw [List.all_eq_true]
      intro x hx
      rcases mem_insSorted.mp hx with rfl | hx'
      · simp [hlow, hhigh]
      · have := hbnd x hx'
        simp [this.1, this.2]
    · rw [Node.wfShape_leaf]
      have hne : insSorted k es ≠ [] := by
        apply List.ne_nil_of_length_pos
        rw [insSorted_length]
        omega
      simpa [List.isEmpty_iff] using hne
    · rw [Node.toList_leaf, Node.toList_leaf]
      rfl
  · have hlen64 : 64 ≤ es.length := by
      simp only [NodeCapacity] at hlen
      omega
    obtain ⟨mid, hmiddef⟩ : ∃ q, (es.length + 1) / 2 = q := ⟨_, rfl⟩
    have hmid1 : 1 ≤ mid := by omega
    have hmidlt : mid < es.length := by omega
    have hltk : (es.take mid).length = mid := by
      rw [List.length_take]
      omega
    by_cases hcm : es.countP (fun x => decide (x < k)) < mid
    · have hred : leafInsert es (es.countP (fun x => decide (x < k))) k =
          ((es.take mid).insertIdx (es.countP (fun x => decide (x < k))) k,
            es.countP (fun x => decide (x < k)),
            some ⟨(es.drop mid).head?, .leaf (es.drop mid), 0⟩) := by
        simp only [leafInsert]
        rw [if_neg hlen, hmiddef, if_pos hcm]
      rw [hred, InsOK_some]
      have hBne : es.drop mid ≠ [] := by
        apply List.ne_nil_of_length_pos
        rw [List.length_drop]
        omega
      obtain ⟨m, hm⟩ : ∃ m, (es.drop mid).head? = some m := by
        cases hq : es.drop mid with
        | nil => exact absurd hq hBne
        | cons b t => exact ⟨b, by simp⟩
      have hABeq : (es.take mid).insertIdx (es.countP (fun x => decide (x < k))) k
          ++ es.drop mid = insSorted k es := by
        rw [List.insertIdx_eq_append _ _ _ (by rw [List.length_take]; omega),
          insSorted_eq_append]
        rw [List.take_take]
        have h1 : min (es.countP (fun x => decide (x < k))) mid =
            es.countP (fun x => decide (x < k)) := by omega
        rw [h1]
        simp only [List.cons_append, List.append_assoc]
        congr 1
        congr 1
        rw [List.drop_take]
        have h2 : es.drop mid =
            (es.drop (es.countP (fun x => decide (x < k)))).drop
              (mid - es.countP (fun x => decide (x < k))) := by
          rw [List.drop_drop]
          congr 1
          omega
        rw [h2, List.take_append_drop]
      have hAne : (es.take mid).insertIdx (es.countP (fun x => decide (x < k))) k
          ≠ [] := by
        apply List.ne_nil_of_length_pos
        rw [List.length_insertIdx _ _ (by rw [List.length_take]; omega)]
        omega
      have hps := leafSplit_ok hABeq hsort hnotin hbnd hlow hhigh hAne hm
      exact ⟨m, hm, hps.1, hps.2.1, hps.2.2.1, hps.2.2.2.1, hps.2.2.2.2.1,
        hps.2.2.2.2.2, by
          rw [Node.toList_leaf, Node.toList_leaf, Node.toList_leaf]
          exact hABeq⟩
    · have hred : leafInsert es (es.countP (fun x => decide (x < k))) k =
          (es.take mid,
            es.countP (fun x => decide (x < k)) - (es.take mid).length,
            some ⟨((es.drop mid).insertIdx
                (es.countP (fun x => decide (x < k)) - (es.take mid).length)
                k).head?,
              .leaf ((es.drop mid).insertIdx
                (es.countP (fun x => decide (x < k)) - (es.take mid).length) k),
              1⟩) := by
        simp only [leafInsert]
        rw [if_neg hlen, hmiddef, if_neg hcm]
      rw [hred, hltk, InsOK_some]
      have hBne : (es.drop mid).insertIdx
          (es.countP (fun x => decide (x < k)) - mid) k ≠ [] := by
        apply List.ne_nil_of_length_pos
        rw [List.length_insertIdx _ _ (by rw [List.length_drop]; omega)]
        omega
      obtain ⟨m, hm⟩ : ∃ m, ((es.drop mid).insertIdx
          (es.countP (fun x => decide (x < k)) - mid) k).head? = some m := by
        cases hq : (es.drop mid).insertIdx
            (es.countP (fun x => decide (x < k)) - mid) k with
        | nil => exact absurd hq hBne
        | cons b t => exact ⟨b, by simp⟩
      have hABeq : es.take mid ++ (es.drop mid).insertIdx
          (es.countP (fun x => decide (x < k)) - mid) k = insSorted k es := by
        rw [List.insertIdx_eq_append _ _ _ (by rw [List.length_drop]; omega),
          insSorted_eq_append]
        have h2 : (es.take (es.countP (fun x => decide (x < k)))).drop mid =
            (es.drop mid).take (es.countP (fun x => decide (x < k)) - mid) := by
          rw [List.drop_take]
        have h1 : es.take mid ++
            (es.drop mid).take (es.countP (fun x => decide (x < k)) - mid) =
            es.take (es.countP (fun x => decide (x < k))) := by
          conv_rhs => rw [← List.take_append_drop mid
            (es.take (es.countP (fun x => decide (x < k))))]
          rw [h2]
          congr 1
          rw [List.take_take]
          congr 1
          omega
        have h3 : (es.drop mid).drop
            (es.countP (fun x => decide (x < k)) - mid) =
            es.drop (es.countP (fun x => decide (x < k))) := by
          rw [List.drop_drop]
          congr 1
          omega
        rw [h3, ← List.append_assoc, h1]
      have hAne : es.take mid ≠ [] := by
        apply List.ne_nil_of_length_pos
        rw [List.length_take]
        omega
      have hps := leafSplit_ok hABeq hsort hnotin hbnd hlow hhigh hAne hm
      exact ⟨m, hm, hps.1, hps.2.1, hps.2.2.1, hps.2.2.2.1, hps.2.2.2.2.1,
        hps.2.2.2.2.2, by
          rw [Node.toList_leaf, Node.toList_leaf, Node.toList_leaf]
          exact hABeq⟩

theorem insertAlong_spec : ∀ (n : Node) (lo hi : JKey) (k : Int),
    ordB lo n hi = true → n.wfRootShape = true →
    lowOkB lo k = true → highOkB k hi = true →
    k ∉ n.toList →
    InsOK lo hi k n
      (insertAlong n (getPath n (some k)).branches
        (getPath n (some k)).leafIndex k) := by
  intro n
  induction n using Node.inductionOn with
  | hleaf es =>
    intro lo hi k hord hshape hlow hhigh hnotin
    rw [Node.toList_leaf] at hnotin
    have hpath : getPath (.leaf es) (some k) =
        ⟨[], es.countP (fun x => decide (x < k)), decide (k ∈ es), 0⟩ := by
      rw [getPath_leaf]
      have hsort := (chainLtB_iff_pairwise es).mp (by
        rw [ordB_leaf, Bool.and_eq_true] at hord
        exact hord.1)
      rw [indexOfEntry_sorted es k hsort]
    rw [hpath]
    exact leafInsert_ok hord hlow hhigh hnotin
  | hbranch ps ns ih =>
    intro lo hi k hord hshape hlow hhigh hnotin
    rw [ordB_branch] at hord
    obtain ⟨ks, rfl⟩ := all_isSome_exists_map ps (ordSeqB_some lo hi ps ns hord)
    rw [wfRootShape_branch, Bool.and_eq_true] at hshape
    have hnslen : ns.length = ks.length + 1 := by
      simpa using ordSeqB_length lo hi _ ns hord
    have hall : ns.all Node.wfShape = true := hshape.2
    have hkpair := (chainKeyB_pairwise lo ks (ordSeqB_chain lo hi _ ns hord)).1
    obtain ⟨j, hjdef⟩ : ∃ j, ks.countP (fun p => decide (p ≤ k)) = j := ⟨_, rfl⟩
    have hjle : j ≤ ks.length := hjdef ▸ List.countP_le_length _
    have hjns : j < ns.length := by omega
    have hj : indexOfKey (ks.map some) (some k) = j :=
      hjdef ▸ indexOfKey_sorted ks k hkpair
    have hroute := ordSeqB_route hord hlow hhigh
    rw [hjdef] at hroute
    have hordc := ordSeqB_get lo hi (ks.map some) ns j hord (by simpa using hjle)
    have hchld : (Node.branch (ks.map some) ns).childAt j = ns.getD j (.leaf []) := by
      simp [Node.childAt, Node.nodesOf]
    have hnotinc : k ∉ (ns.getD j (.leaf [])).toList := by
      intro hc
      apply hnotin
      rw [Node.toList_branch, flatten_split_at Node.toList ns j (.leaf []) hjns]
      simp only [List.mem_append]
      exact Or.inr (Or.inl hc)
    have hcw : (ns.getD j (.leaf [])).wfShape = true := by
      apply List.all_eq_true.mp hall
      rw [List.getD_eq_getElem _ _ hjns]
      exact List.getElem_mem _
    have IH := ih (ns.getD j (.leaf [])) (by
        rw [List.getD_eq_getElem _ _ hjns]
        exact List.getElem_mem _) _ _ k hordc (wfShape_imp_root _ hcw)
      hroute.1 hroute.2 hnotinc
    have hP := ordSeqB_prefix_lt lo hi (ks.map some) ns j hord
      (by simpa using hjle) hroute.1
    have hS := ordSeqB_suffix_ge lo hi (ks.map some) ns j hord
      (by simpa using hjle) hroute.2
    rw [getPath_branch]
    simp only [hj, hchld]
    rcases hsub : insertAlong (ns.getD j (.leaf []))
        (getPath (ns.getD j (.leaf [])) (some k)).branches
        (getPath (ns.getD j (.leaf [])) (some k)).leafIndex k
      with ⟨nd, idxs, li', spl⟩
    rw [hsub] at IH
    cases spl with
    | none =>
      rw [InsOK_none] at IH
      have hstep : insertAlong (Node.branch (ks.map some) ns)
          (j :: (getPath (ns.getD j (.leaf [])) (some k)).branches)
          (getPath (ns.getD j (.leaf [])) (some k)).leafIndex k =
          ⟨.branch (ks.map some) (ns.set j nd), j :: idxs, li', none⟩ := by
        rw [insertAlong, hchld, hsub]
        rfl
      rw [hstep]
      exact branchSet_ok idxs li' hord hall hnslen hjle IH.1 IH.2.1 IH.2.2 hP hS
    | some s =>
      rw [InsOK_some] at IH
      obtain ⟨sk, sr, sd⟩ := s
      obtain ⟨m, hskey, hlm, hmh, hcord2, hrord2, hcw2, hrw2, hconcat2⟩ := IH
      simp only at hskey
      subst hskey
      have hstep : insertAlong (Node.branch (ks.map some) ns)
          (j :: (getPath (ns.getD j (.leaf [])) (some k)).branches)
          (getPath (ns.getD j (.leaf [])) (some k)).leafIndex k =
          ⟨(branchInsert (ks.map some) ns j nd ⟨some m, sr, sd⟩).1,
            (branchInsert (ks.map some) ns j nd ⟨some m, sr, sd⟩).2.1 :: idxs,
            li', (branchInsert (ks.map some) ns j nd ⟨some m, sr, sd⟩).2.2⟩ := by
        rw [insertAlong, hchld, hsub]
        rfl
      rw [hstep]
      exact branchInsert_ok idxs li' sd hord hall hnslen hjle hcord2 hrord2
        hlm hmh hcw2 hrw2 hconcat2 hP hS

theorem find_isOn (t : BTreeT) (k : Int) (hord : ordB none t.root none = true) :
    (t.find k).isOn = decide (k ∈ t.root.toList) :=
  (getPath_spec t.root none none k hord rfl rfl).1.1

theorem insert_spec (t : BTreeT) (k : Int)
    (hwf : WFB t = true) (hnotin : k ∉ t.root.toList) :
    (t.insert k).2.isOn = true ∧ WFB (t.insert k).1 = true ∧
    (t.insert k).1.root.toList = insSorted k t.root.toList ∧
    (t.insert k).1.version = t.version + 1 := by
  rw [WFB, Bool.and_eq_true] at hwf
  have hoff : (t.find k).isOn = false := by
    rw [find_isOn t k hwf.1]
    simpa using hnotin
  have hia := insertAlong_spec t.root none none k hwf.1 hwf.2 rfl rfl hnotin
  have hbr : (t.find k).branches = (getPath t.root (some k)).branches := rfl
  have hli : (t.find k).leafIndex = (getPath t.root (some k)).leafIndex := rfl
  rcases hsub : insertAlong t.root (getPath t.root (some k)).branches
      (getPath t.root (some k)).leafIndex k with ⟨nd, idxs, li', spl⟩
  rw [hsub] at hia
  have hint : t.internalInsert k =
      ((internalInsertAt t.root (t.find k) k).1,
        { (internalInsertAt t.root (t.find k) k).2 with isOn := true }) := by
    simp only [BTreeT.internalInsert]
    rw [if_neg (by rw [hoff]; simp)]
  have hiiat : (internalInsertAt t.root (t.find k) k).1 =
      (match spl with
       | none => nd
       | some s => Node.branch [s.key] [nd, s.right]) := by
    simp only [internalInsertAt, hbr, hli, hsub]
    cases spl <;> rfl
  have hstep : t.insert k =
      (⟨(internalInsertAt t.root (t.find k) k).1, t.version + 1⟩,
        { { (internalInsertAt t.root (t.find k) k).2 with isOn := true } with
            version := t.version + 1 }) := by
    simp only [BTreeT.insert, hint]
    rw [if_pos trivial]
  rw [hstep]
  cases spl with
  | none =>
    rw [InsOK_none] at hia
    simp only [hiiat]
    exact ⟨by trivial, by
      rw [WFB, Bool.and_eq_true]
      exact ⟨hia.1, wfShape_imp_root _ hia.2.1⟩, hia.2.2, by trivial⟩
  | some s =>
    rw [InsOK_some] at hia
    obtain ⟨sk, sr, sd⟩ := s
    obtain ⟨m, hskey, hlm, hmh, hcord2, hrord2, hcw2, hrw2, hconcat2⟩ := hia
    simp only at hskey
    subst hskey
    simp only [hiiat]
    refine ⟨by trivial, ?_, ?_, by trivial⟩
    · rw [WFB, Bool.and_eq_true]
      constructor
      · show ordB none (Node.branch [some m] [nd, sr]) none = true
        rw [ordB_branch, ordSeqB_cons]
        simp only [Bool.and_eq_true]
        refine ⟨⟨⟨⟨rfl, rfl⟩, rfl⟩, hcord2⟩, ?_⟩
        rw [ordSeqB_nil]
        exact hrord2
      · show (Node.branch [some m] [nd, sr]).wfRootShape = true
        rw [wfRootShape_branch, Bool.and_eq_true]
        refine ⟨by simp, ?_⟩
        rw [List.all_eq_true]
        intro x hx
        rcases List.mem_cons.mp hx with rfl | hx'
        · exact hcw2
        · rcases List.mem_cons.mp hx' with rfl | hx''
          · exact hrw2
          · simp at hx''
    · show (Node.branch [some m] [nd, sr]).toList = _
      rw [Node.toList_branch]
      simp only [List.map_cons, List.map_nil, List.flatten_cons, List.flatten_nil,
        List.append_nil]
      exact hconcat2

/-- C5: duplicate-key insert is a no-op.  On any well-formed tree whose
root already contains the key, `insert` returns the tree state unchanged
(same root object and version, hence the same entry count) together with a
non-matching path (`on = false`). -/
theorem c5_duplicate_insert (t : BTreeT) (k : Int)
    (hwf : WFB t = true) (hmem : k ∈ t.root.toList) :
    (t.insert k).1 = t ∧ (t.insert k).2.isOn = false ∧
    (t.insert k).1.getCount = t.getCount := by
  rw [WFB, Bool.and_eq_true] at hwf
  have hon : (t.find k).isOn = true := by
    rw [find_isOn t k hwf.1]
    simpa using hmem
  have hii : t.internalInsert k = (t.root, { t.find k with isOn := false }) := by
    simp only [BTreeT.internalInsert]
    rw [if_pos hon]
  have hins : t.insert k =
      (⟨t.root, t.version⟩, { t.find k with isOn := false }) := by
    simp only [BTreeT.insert, hii]
    rw [if_neg (by simp)]
  rw [hins]
  exact ⟨rfl, rfl, rfl⟩

/-- Witness for C5 at a concrete input: the tree `insertList [1, 2]` is
well-formed, contains `1`, and re-inserting `1` leaves it unchanged with a
non-matching path. -/
theorem c5_duplicate_insert_witness :
    WFB (insertList [1, 2]) = true ∧ (1 : Int) ∈ (insertList [1, 2]).root.toList ∧
    ((insertList [1, 2]).insert 1).1 = insertList [1, 2] ∧
    ((insertList [1, 2]).insert 1).2.isOn = false :=
  ⟨by decide, by decide,
    (c5_duplicate_insert (insertList [1, 2]) 1 (by decide) (by decide)).1,
    (c5_duplicate_insert (insertList [1, 2]) 1 (by decide) (by decide)).2.1⟩

theorem alongD_append : ∀ (u v : List Nat) (n : Node),
    n.alongD (u ++ v) = (n.alongD u).alongD v
  | [], v, n => rfl
  | j :: u, v, n => alongD_append u v (n.childAt j)

theorem posGo_append : ∀ (u v : List Nat) (n : Node),
    posGo n (u ++ v) = posGo n u + posGo (n.alongD u) v
  | [], v, n => by
    show posGo n v = posGo n [] + posGo n v
    rw [posGo]
    omega
  | j :: u, v, n => by
    show ((n.nodesOf.take j).map Node.count).sum + posGo (n.childAt j) (u ++ v) = _
    rw [posGo_append u v (n.childAt j)]
    show _ = ((n.nodesOf.take j).map Node.count).sum + posGo (n.childAt j) u +
      posGo ((n.childAt j).alongD u) v
    omega

theorem validToB_append : ∀ (u v : List Nat) (n : Node),
    validToB n (u ++ v) = (validToB n u && validToB (n.alongD u) v)
  | [], v, n => by
    show validToB n v = (validToB n [] && validToB n v)
    rw [validToB]
    simp
  | j :: u, v, n => by
    cases n with
    | leaf es => rfl
    | branch ps ns =>
      show (decide (j < ns.length) && validToB (ns.getD j (.leaf [])) (u ++ v)) = _
      rw [validToB_append u v (ns.getD j (.leaf []))]
      show _ = (decide (j < ns.length) && validToB (ns.getD j (.leaf [])) u &&
        validToB ((ns.getD j (.leaf [])).alongD u) v)
      rw [Bool.and_assoc]

theorem validOnB_split : ∀ (u v : List Nat) (n : Node) (li : Nat),
    validOnB n (u ++ v) li = (validToB n u && validOnB (n.alongD u) v li)
  | [], v, n, li => by
    show validOnB n v li = (validToB n [] && validOnB n v li)
    rw [validToB]
    simp
  | j :: u, v, n, li => by
    cases n with
    | leaf es => rfl
    | branch ps ns =>
      show (decide (j < ns.length) && validOnB (ns.getD j (.leaf [])) (u ++ v) li) = _
      rw [validOnB_split u v _ li]
      show _ = (decide (j < ns.length) && validToB (ns.getD j (.leaf [])) u &&
        validOnB ((ns.getD j (.leaf [])).alongD u) v li)
      rw [Bool.and_assoc]

theorem validOffB_split : ∀ (u v : List Nat) (n : Node) (li : Nat),
    validOffB n (u ++ v) li = (validToB n u && validOffB (n.alongD u) v li)
  | [], v, n, li => by
    show validOffB n v li = (validToB n [] && validOffB n v li)
    rw [validToB]
    simp
  | j :: u, v, n, li => by
    cases n with
    | leaf es => rfl
    | branch ps ns =>
      show (decide (j < ns.length) && validOffB (ns.getD j (.leaf [])) (u ++ v) li) = _
      rw [validOffB_split u v _ li]
      show _ = (decide (j < ns.length) && validToB (ns.getD j (.leaf [])) u &&
        validOffB ((ns.getD j (.leaf [])).alongD u) v li)
      rw [Bool.and_assoc]

theorem framesOf_length : ∀ (is : List Nat) (n : Node),
    (framesOf n is).length = is.length
  | [], _ => rfl
  | j :: is, n => by
    show (framesOf n (j :: is)).length = is.length + 1
    rw [framesOf]
    simp [framesOf_length is (n.childAt j)]

theorem framesOf_map_snd : ∀ (is : List Nat) (n : Node),
    (framesOf n is).map Prod.snd = is
  | [], _ => rfl
  | j :: is, n => by
    rw [framesOf, List.map_cons, framesOf_map_snd is (n.childAt j)]

theorem framesOf_append : ∀ (u v : List Nat) (n : Node),
    framesOf n (u ++ v) = framesOf n u ++ framesOf (n.alongD u) v
  | [], v, n => rfl
  | j :: u, v, n => by
    show framesOf n ((j :: u) ++ v) = _
    rw [List.cons_append, framesOf, framesOf, framesOf_append u v (n.childAt j)]
    rfl

theorem validOnB_lt : ∀ (is : List Nat) (n : Node) (li : Nat),
    validOnB n is li = true → li < (n.leafAt is).length
  | [], n, li, h => by
    cases n with
    | leaf es => simpa [validOnB, Node.leafAt, Node.alongD, Node.entriesOf] using h
    | branch ps ns => simp [validOnB] at h
  | j :: is, n, li, h => by
    cases n with
    | leaf es => simp [validOnB] at h
    | branch ps ns =>
      rw [validOnB_branch, Bool.and_eq_true] at h
      exact validOnB_lt is _ li h.2

theorem validOnB_set_li : ∀ (is : List Nat) (n : Node) (li li' : Nat),
    validOnB n is li = true → li' < (n.leafAt is).length → validOnB n is li' = true
  | [], n, li, li', h, h' => by
    cases n with
    | leaf es =>
      simp only [validOnB]
      simpa [Node.leafAt, Node.alongD, Node.entriesOf] using h'
    | branch ps ns => simp [validOnB] at h
  | j :: is, n, li, li', h, h' => by
    cases n with
    | leaf es => simp [validOnB] at h
    | branch ps ns =>
      rw [validOnB_branch, Bool.and_eq_true] at h ⊢
      exact ⟨h.1, validOnB_set_li is _ li li' h.2 h'⟩

theorem validOnB_to : ∀ (is : List Nat) (n : Node) (li : Nat),
    validOnB n is li = true → validToB n is = true
  | [], n, li, h => by cases n <;> rfl
  | j :: is, n, li, h => by
    cases n with
    | leaf es => simp [validOnB] at h
    | branch ps ns =>
      rw [validOnB_branch, Bool.and_eq_true] at h
      show (decide (j < ns.length) && validToB (ns.getD j (.leaf [])) is) = true
      rw [Bool.and_eq_true]
      exact ⟨h.1, validOnB_to is _ li h.2⟩

theorem validOn_entry : ∀ (is : List Nat) (n : Node) (li : Nat),
    validOnB n is li = true →
    posGo n is + li < n.count ∧
    posGo n is + (n.leafAt is).length ≤ n.count ∧
    (n.leafAt is)[li]? = n.toList[posGo n is + li]?
  | [], n, li, h => by
    cases n with
    | leaf es =>
      have hlt : li < es.length := by simpa [validOnB] using h
      refine ⟨?_, ?_, ?_⟩
      · rw [Node.count_leaf]
        show posGo (Node.leaf es) [] + li < es.length
        rw [posGo]
        omega
      · rw [Node.count_leaf]
        show posGo (Node.leaf es) [] + ((Node.leaf es).leafAt []).length ≤ es.length
        rw [posGo]
        simp [Node.leafAt, Node.alongD, Node.entriesOf]
      · show es[li]? = es[posGo (Node.leaf es) [] + li]?
        rw [posGo]
        simp
    | branch ps ns => simp [validOnB] at h
  | j :: is, n, li, h => by
    cases n with
    | leaf es => simp [validOnB] at h
    | branch ps ns =>
      rw [validOnB_branch, Bool.and_eq_true] at h
      have hjns : j < ns.length := by simpa using h.1
      have IH := validOn_entry is (ns.getD j (.leaf [])) li h.2
      have hflat := flatten_split_at Node.toList ns j (.leaf []) hjns
      have hPlen : (((ns.take j).map Node.toList).flatten).length =
          ((ns.take j).map Node.count).sum := by
        rw [List.length_flatten, List.map_map]
        rfl
      have hcnt : (Node.branch ps ns).count =
          ((ns.take j).map Node.count).sum + ((ns.getD j (.leaf [])).count +
            (((ns.drop (j + 1)).map Node.toList).flatten).length) := by
        rw [Node.count, Node.toList_branch, hflat]
        rw [List.length_append, List.length_append, hPlen]
        rfl
      have hpos : posGo (Node.branch ps ns) (j :: is) =
          ((ns.take j).map Node.count).sum + posGo (ns.getD j (.leaf [])) is :=
        posGo_branch ps ns j is
      have hleafAt : (Node.branch ps ns).leafAt (j :: is) =
          (ns.getD j (.leaf [])).leafAt is := rfl
      refine ⟨?_, ?_, ?_⟩
      · rw [hcnt, hpos]
        omega
      · rw [hcnt, hpos, hleafAt]
        omega
      · rw [hpos, hleafAt, Node.toList_branch, hflat]
        have h1 : (((ns.take j).map Node.toList).flatten).length ≤
            ((ns.take j).map Node.count).sum + posGo (ns.getD j (.leaf [])) is
              + li := by
          rw [hPlen]
          omega
        rw [List.getElem?_append_right h1]
        have h2 : ((ns.take j).map Node.count).sum +
            posGo (ns.getD j (.leaf [])) is + li -
            (((ns.take j).map Node.toList).flatten).length =
            posGo (ns.getD j (.leaf [])) is + li := by
          rw [hPlen]
          omega
        rw [h2]
        have h3 : posGo (ns.getD j (.leaf [])) is + li <
            ((ns.getD j (.leaf [])).toList).length := IH.1
        rw [List.getElem?_append_left h3]
        exact IH.2.2

theorem validOn_last : ∀ (is : List Nat) (n : Node) (li : Nat),
    n.wfRootShape = true →
    validOnB n is li = true →
    (∀ f ∈ framesOf n is, f.2 = f.1.partitionsOf.length) →
    li + 1 = (n.leafAt is).length →
    posGo n is + (li + 1) = n.count
  | [], n, li, _, h, _, hlen => by
    cases n with
    | leaf es =>
      rw [Node.count_leaf]
      show posGo (Node.leaf es) [] + (li + 1) = es.length
      rw [posGo]
      have : li + 1 = es.length := by
        simpa [Node.leafAt, Node.alongD, Node.entriesOf] using hlen
      omega
    | branch ps ns => simp [validOnB] at h
  | j :: is, n, li, hs, h, hf, hlen => by
    cases n with
    | leaf es => simp [validOnB] at h
    | branch ps ns =>
      rw [validOnB_branch, Bool.and_eq_true] at h
      have hjns : j < ns.length := by simpa using h.1
      rw [wfRootShape_branch, Bool.and_eq_true] at hs
      have hnslen : ns.length = ps.length + 1 := by simpa using hs.1
      have hjeq : j = ps.length := by
        have := hf (Node.branch ps ns, j) (by rw [framesOf]; simp)
        simpa [Node.partitionsOf] using this
      have hcw : (ns.getD j (.leaf [])).wfShape = true := by
        apply List.all_eq_true.mp hs.2
        rw [List.getD_eq_getElem _ _ hjns]
        exact List.getElem_mem _
      have IH := validOn_last is (ns.getD j (.leaf [])) li
        (wfShape_imp_root _ hcw) h.2
        (fun f hfm => hf f (by
          rw [framesOf]
          exact List.mem_cons.mpr (Or.inr
            (by simpa [Node.childAt, Node.nodesOf] using hfm)))) hlen
      have hflat := flatten_split_at Node.toList ns j (.leaf []) hjns
      have hPlen : (((ns.take j).map Node.toList).flatten).length =
          ((ns.take j).map Node.count).sum := by
        rw [List.length_flatten, List.map_map]
        rfl
      have hdrop : ns.drop (j + 1) = [] := by
        apply List.drop_eq_nil_of_le
        omega
      have hcnt : (Node.branch ps ns).count =
          ((ns.take j).map Node.count).sum + (ns.getD j (.leaf [])).count := by
        rw [Node.count, Node.toList_branch, hflat, hdrop]
        rw [List.length_append, List.length_append, hPlen]
        simp [Node.count]
      rw [hcnt, posGo_branch]
      omega

theorem moveToFirstIdx_spec : ∀ (n : Node), n.wfShape = true →
    posGo n (moveToFirstIdx n).1 = 0 ∧ (moveToFirstIdx n).2.1 = 0 ∧
    (moveToFirstIdx n).2.2 = true ∧
    validOnB n (moveToFirstIdx n).1 (moveToFirstIdx n).2.1 = true := by
  intro n
  induction n using Node.inductionOn with
  | hleaf es =>
    intro h
    rw [Node.wfShape_leaf] at h
    rw [moveToFirstIdx_leaf]
    have hne : 0 < es.length := by
      cases es with
      | nil => simp at h
      | cons a t => simp
    refine ⟨rfl, rfl, by simpa using hne, ?_⟩
    simpa [validOnB] using hne
  | hbranch ps ns ih =>
    intro h
    rw [Node.wfShape_branch, Bool.and_eq_true] at h
    have hlen : ns.length = ps.length + 1 := by simpa using h.1
    have h0 : 0 < ns.length := by omega
    have hcw : (ns.getD 0 (.leaf [])).wfShape = true := by
      apply List.all_eq_true.mp h.2
      rw [List.getD_eq_getElem _ _ h0]
      exact List.getElem_mem _
    have hchld : (Node.branch ps ns).childAt 0 = ns.getD 0 (.leaf []) := by
      simp [Node.childAt, Node.nodesOf]
    have IH := ih (ns.getD 0 (.leaf [])) (by
      rw [List.getD_eq_getElem _ _ h0]
      exact List.getElem_mem _) hcw
    rw [moveToFirstIdx_branch]
    simp only [hchld]
    refine ⟨?_, IH.2.1, IH.2.2.1, ?_⟩
    · rw [posGo_branch, List.take_zero]
      simp only [List.map_nil, List.sum_nil, IH.1]
    · rw [validOnB_branch, Bool.and_eq_true]
      exact ⟨by simpa using h0, IH.2.2.2⟩

theorem validTo_child_wf : ∀ (u : List Nat) (n : Node), n.wfRootShape = true →
    validToB n u = true → ∀ j, j < (n.alongD u).nodesOf.length →
    ((n.alongD u).childAt j).wfShape = true
  | [], n, hs, _, j, hj => by
    cases n with
    | leaf es => simp [Node.alongD, Node.nodesOf] at hj
    | branch ps ns =>
      rw [wfRootShape_branch, Bool.and_eq_true] at hs
      show ((Node.branch ps ns).childAt j).wfShape = true
      simp only [Node.childAt, Node.nodesOf]
      apply List.all_eq_true.mp hs.2
      rw [List.getD_eq_getElem _ _ (by simpa [Node.nodesOf] using hj)]
      exact List.getElem_mem _
  | i :: u, n, hs, hv, j, hj => by
    cases n with
    | leaf es => simp [validToB] at hv
    | branch ps ns =>
      have hv' : (decide (i < ns.length) &&
          validToB (ns.getD i (.leaf [])) u) = true := hv
      rw [Bool.and_eq_true] at hv'
      have hcw : (ns.getD i (.leaf [])).wfShape = true := by
        rw [wfRootShape_branch, Bool.and_eq_true] at hs
        apply List.all_eq_true.mp hs.2
        rw [List.getD_eq_getElem _ _ (by simpa using hv'.1)]
        exact List.getElem_mem _
      exact validTo_child_wf u _ (wfShape_imp_root _ hcw) hv'.2 j hj

theorem popScanNext_all : ∀ (F : List (Node × Nat)),
    (∀ f ∈ F, f.2 = f.1.partitionsOf.length) → popScanNext F = (F.length, false)
  | [], _ => rfl
  | (n, i) :: F, h => by
    rw [popScanNext]
    have hi : i = n.partitionsOf.length := h (n, i) (by simp)
    rw [if_pos hi, popScanNext_all F (fun f hf => h f (by simp [hf]))]
    simp

theorem popScanNext_found : ∀ (F₁ : List (Node × Nat)) (g : Node × Nat)
    (F₂ : List (Node × Nat)),
    (∀ f ∈ F₁, f.2 = f.1.partitionsOf.length) →
    ¬ g.2 = g.1.partitionsOf.length →
    popScanNext (F₁ ++ g :: F₂) = (F₁.length, true)
  | [], g, F₂, _, hg => by
    obtain ⟨gn, gi⟩ := g
    show popScanNext ((gn, gi) :: F₂) = (0, true)
    rw [popScanNext, if_neg (by simpa using hg)]
  | (n, i) :: F₁, g, F₂, h, hg => by
    show popScanNext ((n, i) :: (F₁ ++ g :: F₂)) = (F₁.length + 1, true)
    rw [popScanNext, if_pos (by simpa using h (n, i) (by simp)),
      popScanNext_found F₁ g F₂ (fun f hf => h f (by simp [hf])) hg]

theorem popScanPrior_all : ∀ (F : List (Node × Nat)),
    (∀ f ∈ F, f.2 = 0) → popScanPrior F = (F.length, false)
  | [], _ => rfl
  | (n, i) :: F, h => by
    rw [popScanPrior]
    have hi : i = 0 := h (n, i) (by simp)
    rw [if_pos hi, popScanPrior_all F (fun f hf => h f (by simp [hf]))]
    simp

theorem popScanPrior_found : ∀ (F₁ : List (Node × Nat)) (g : Node × Nat)
    (F₂ : List (Node × Nat)),
    (∀ f ∈ F₁, f.2 = 0) → ¬ g.2 = 0 →
    popScanPrior (F₁ ++ g :: F₂) = (F₁.length, true)
  | [], g, F₂, _, hg => by
    obtain ⟨gn, gi⟩ := g
    show popScanPrior ((gn, gi) :: F₂) = (0, true)
    rw [popScanPrior, if_neg (by simpa using hg)]
  | (n, i) :: F₁, g, F₂, h, hg => by
    show popScanPrior ((n, i) :: (F₁ ++ g :: F₂)) = (F₁.length + 1, true)
    rw [popScanPrior, if_pos (by simpa using h (n, i) (by simp)),
      popScanPrior_found F₁ g F₂ (fun f hf => h f (by simp [hf])) hg]

theorem list_prefix_split {α : Type} (Q : α → Prop) [DecidablePred Q] :
    ∀ (F : List α), (∀ f ∈ F, Q f) ∨
      ∃ A g B, F = A ++ g :: B ∧ (∀ f ∈ A, Q f) ∧ ¬ Q g
  | [] => Or.inl (by simp)
  | y :: F => by
    by_cases hy : Q y
    · rcases list_prefix_split Q F with hall | ⟨A, g, B, heq, hA, hg⟩
      · refine Or.inl ?_
        intro f hf
        rcases List.mem_cons.mp hf with rfl | hf'
        · exact hy
        · exact hall f hf'
      · refine Or.inr ⟨y :: A, g, B, by rw [heq]; rfl, ?_, hg⟩
        intro f hf
        rcases List.mem_cons.mp hf with rfl | hf'
        · exact hy
        · exact hA f hf'
    · exact Or.inr ⟨[], y, F, rfl, by simp, hy⟩

theorem alongD_rootShape : ∀ (u : List Nat) (n : Node), n.wfRootShape = true →
    validToB n u = true → (n.alongD u).wfRootShape = true
  | [], n, hs, _ => hs
  | i :: u, n, hs, hv => by
    cases n with
    | leaf es => simp [validToB] at hv
    | branch ps ns =>
      have hv' : (decide (i < ns.length) &&
          validToB (ns.getD i (.leaf [])) u) = true := hv
      rw [Bool.and_eq_true] at hv'
      have hcw : (ns.getD i (.leaf [])).wfShape = true := by
        rw [wfRootShape_branch, Bool.and_eq_true] at hs
        apply List.all_eq_true.mp hs.2
        rw [List.getD_eq_getElem _ _ (by simpa using hv'.1)]
        exact List.getElem_mem _
      exact alongD_rootShape u _ (wfShape_imp_root _ hcw) hv'.2

theorem sum_take_succ_counts (ns : List Node) (b : Nat) (hb : b < ns.length) :
    ((ns.take (b + 1)).map Node.count).sum =
      ((ns.take b).map Node.count).sum + (ns.getD b (.leaf [])).count := by
  rw [List.map_take, List.map_take, List.sum_take_succ _ b (by simpa using hb)]
  rw [List.getD_eq_getElem _ _ hb]
  congr 1
  rw [List.getElem_map]

theorem validToB_nil (n : Node) : validToB n [] = true := by
  cases n <;> rfl

theorem frames_decomp (t : Node) (is : List Nat)
    {A : List (Node × Nat)} {g : Node × Nat} {B : List (Node × Nat)}
    (heq : (framesOf t is).reverse = A ++ g :: B) :
    ∃ u b w, is = u ++ b :: w ∧ u = is.take B.length ∧
      g = (t.alongD u, b) ∧ framesOf ((t.alongD u).childAt b) w = A.reverse ∧
      w.length = A.length := by
  have heq' : framesOf t is = B.reverse ++ g :: A.reverse := by
    rw [← List.reverse_reverse (framesOf t is), heq]
    rw [List.reverse_append, List.reverse_cons]
    simp [List.append_assoc]
  have hM : B.length + 1 + A.length = is.length := by
    have := congrArg List.length heq'
    rw [framesOf_length] at this
    simp at this
    omega
  have hsplitF := framesOf_append (is.take B.length) (is.drop B.length) t
  rw [List.take_append_drop] at hsplitF
  have happ : framesOf t (is.take B.length) ++
      framesOf (t.alongD (is.take B.length)) (is.drop B.length) =
      B.reverse ++ g :: A.reverse := by
    rw [← hsplitF]
    exact heq'
  have hlen1 : (framesOf t (is.take B.length)).length = B.reverse.length := by
    rw [framesOf_length, List.length_take, List.length_reverse]
    omega
  obtain ⟨hXeq, hYeq⟩ := List.append_inj happ hlen1
  obtain ⟨b, w, hdropeq⟩ : ∃ b w, is.drop B.length = b :: w := by
    cases hd : is.drop B.length with
    | nil =>
      rw [hd, framesOf] at hYeq
      simp at hYeq
    | cons b w => exact ⟨b, w, rfl⟩
  rw [hdropeq, framesOf] at hYeq
  obtain ⟨hgeq, hAx⟩ := List.cons_eq_cons.mp hYeq
  refine ⟨is.take B.length, b, w, ?_, rfl, hgeq.symm, hAx, ?_⟩
  · have h1 := List.take_append_drop B.length is
    rw [hdropeq] at h1
    exact h1.symm
  · have := congrArg List.length hAx
    rw [framesOf_length, List.length_reverse] at this
    exact this

theorem internalNext_spec (t : Node) (p : PathIdx)
    (hs : t.wfRootShape = true) (hon : p.isOn = true)
    (hv : validOnB t p.branches p.leafIndex = true) :
    ((internalNext t p).isOn = false ∧ position t p + 1 = t.count) ∨
    ((internalNext t p).isOn = true ∧
      validOnB t (internalNext t p).branches (internalNext t p).leafIndex = true ∧
      position t (internalNext t p) = position t p + 1) := by
  have hlt := validOnB_lt p.branches t p.leafIndex hv
  by_cases hend : p.leafIndex + 1 ≥ (t.leafAt p.branches).length
  · have hli : p.leafIndex + 1 = (t.leafAt p.branches).length := by omega
    rcases list_prefix_split (fun f : Node × Nat => f.2 = f.1.partitionsOf.length)
        (framesOf t p.branches).reverse with hall | ⟨A, g, B, heq, hA, hg⟩
    · have hscan : popScanNext (framesOf t p.branches).reverse =
          ((framesOf t p.branches).reverse.length, false) :=
        popScanNext_all _ hall
      have hres : internalNext t p =
          { p with leafIndex := (t.leafAt p.branches).length, isOn := false } := by
        simp only [internalNext, hon, Bool.not_true]
        rw [if_neg (by simp), if_pos hend, hscan]
        rw [if_pos (by simp)]
      rw [hres]
      left
      refine ⟨rfl, ?_⟩
      have hlast := validOn_last p.branches t p.leafIndex hs hv
        (fun f hf => hall f (by simpa using hf)) hli
      rw [position]
      omega
    · obtain ⟨u, b, w, hbr, hu, hgeq, hAx, hAlen⟩ := frames_decomp t p.branches heq
      have hscan : popScanNext (framesOf t p.branches).reverse = (A.length, true) := by
        rw [heq]
        exact popScanNext_found A g B hA hg
      have hvsplit : validToB t u = true ∧
          validOnB (t.alongD u) (b :: w) p.leafIndex = true := by
        have h0 := hv
        rw [hbr, validOnB_split, Bool.and_eq_true] at h0
        exact h0
      have hUshape := alongD_rootShape u t hs hvsplit.1
      cases hnodeU : t.alongD u with
      | leaf es =>
        rw [hnodeU] at hvsplit
        simp [validOnB] at hvsplit
      | branch psU nsU =>
        rw [hnodeU, wfRootShape_branch, Bool.and_eq_true] at hUshape
        have hUlen : nsU.length = psU.length + 1 := by simpa using hUshape.1
        have hv2 := hvsplit.2
        rw [hnodeU, validOnB_branch, Bool.and_eq_true] at hv2
        have hbin : b < nsU.length := by simpa using hv2.1
        have hbne : ¬ b = psU.length := by
          intro hc
          apply hg
          rw [hgeq]
          simp only [hnodeU, Node.partitionsOf]
          exact hc
        have hblt : b < psU.length := by omega
        have hchw : (nsU.getD b (.leaf [])).wfShape = true := by
          apply List.all_eq_true.mp hUshape.2
          rw [List.getD_eq_getElem _ _ hbin]
          exact List.getElem_mem _
        have hb1 : b + 1 < nsU.length := by omega
        have hchw1 : (nsU.getD (b + 1) (.leaf [])).wfShape = true := by
          apply List.all_eq_true.mp hUshape.2
          rw [List.getD_eq_getElem _ _ hb1]
          exact List.getElem_mem _
        have hlenbr : p.branches.length = u.length + 1 + w.length := by
          rw [hbr]
          simp
          omega
        have hlenam : p.branches.length - A.length = u.length + 1 := by omega
        have htake : p.branches.take (u.length + 1) = u ++ [b] := by
          rw [hbr, List.take_append_eq_append_take,
            List.take_of_length_le (by omega)]
          congr 1
          have h1 : u.length + 1 - u.length = 1 := by omega
          rw [h1]
          rfl
        have hchild2 : t.alongD (u ++ [b + 1]) = nsU.getD (b + 1) (.leaf []) := by
          rw [alongD_append, hnodeU]
          simp [Node.alongD, Node.childAt, Node.nodesOf]
        have hmv := moveToFirstIdx_spec (nsU.getD (b + 1) (.leaf [])) hchw1
        have hres : internalNext t p =
            ⟨(u ++ [b + 1]) ++ (moveToFirstIdx (nsU.getD (b + 1) (.leaf []))).1,
              (moveToFirstIdx (nsU.getD (b + 1) (.leaf []))).2.1,
              (moveToFirstIdx (nsU.getD (b + 1) (.leaf []))).2.2,
              p.version⟩ := by
          simp only [internalNext, hon, Bool.not_true]
          rw [if_neg (by simp), if_pos hend, hscan]
          rw [if_neg (by simp)]
          rw [hlenam, htake, List.dropLast_concat, List.getLast?_concat]
          simp only [Option.getD_some]
          rw [hchild2]
        rw [hres]
        right
        refine ⟨hmv.2.2.1, ?_, ?_⟩
        · show validOnB t ((u ++ [b + 1]) ++ _) _ = true
          rw [validOnB_split, Bool.and_eq_true]
          constructor
          · rw [validToB_append, Bool.and_eq_true]
            refine ⟨hvsplit.1, ?_⟩
            rw [hnodeU]
            show (decide (b + 1 < nsU.length) &&
              validToB (nsU.getD (b + 1) (.leaf [])) []) = true
            rw [validToB_nil]
            simpa using hb1
          · rw [hchild2]
            exact hmv.2.2.2
        · show position t ⟨(u ++ [b + 1]) ++ _, _, _, _⟩ = _
          rw [position, position]
          simp only
          rw [posGo_append, posGo_append, hchild2, hmv.1, hmv.2.1]
          rw [hbr, posGo_append, hnodeU]
          have hp1 : posGo (Node.branch psU nsU) [b + 1] =
              ((nsU.take (b + 1)).map Node.count).sum := by
            rw [posGo_branch]
            show _ + posGo _ [] = _
            rw [posGo]
            simp [Node.nodesOf]
          have hp2 : posGo (Node.branch psU nsU) (b :: w) =
              ((nsU.take b).map Node.count).sum +
                posGo (nsU.getD b (.leaf [])) w := by
            rw [posGo_branch]
          rw [hp1, hp2, sum_take_succ_counts nsU b hbin]
          have hlastB := validOn_last w (nsU.getD b (.leaf [])) p.leafIndex
            (wfShape_imp_root _ hchw) hv2.2
            (fun f hf => by
              apply hA
              rw [← List.mem_reverse, ← hAx]
              have hfr : framesOf ((t.alongD u).childAt b) w =
                  framesOf (nsU.getD b (.leaf [])) w := by
                rw [hnodeU]
                simp [Node.childAt, Node.nodesOf]
              rw [hfr]
              exact hf)
            (by
              have hla : t.leafAt p.branches =
                  (nsU.getD b (.leaf [])).leafAt w := by
                rw [Node.leafAt, hbr, alongD_append, hnodeU]
                show ((Node.branch psU nsU).alongD (b :: w)).entriesOf = _
                rw [Node.leafAt]
                rfl
              rw [← hla]
              exact hli)
          omega
  · have hres : internalNext t p =
        { p with leafIndex := p.leafIndex + 1, isOn := true } := by
      simp only [internalNext, hon, Bool.not_true]
      rw [if_neg (by simp), if_neg hend]
    rw [hres]
    right
    refine ⟨rfl, ?_, ?_⟩
    · exact validOnB_set_li p.branches t p.leafIndex (p.leafIndex + 1) hv (by omega)
    · show posGo t p.branches + (p.leafIndex + 1) =
        posGo t p.branches + p.leafIndex + 1
      omega

theorem ascendList_off (t : Node) (fuel : Nat) (p : PathIdx)
    (h : p.isOn = false) : ascendList t fuel p = [] := by
  cases fuel with
  | zero => rfl
  | succ fuel =>
    rw [ascendList, if_neg (by rw [h]; simp)]

theorem countGo_off (t : Node) (fuel : Nat) (p : PathIdx) (acc : Nat)
    (h : p.isOn = false) : countGo t fuel p acc = acc := by
  cases fuel with
  | zero => rfl
  | succ fuel =>
    rw [countGo, if_neg (by rw [h]; simp)]

theorem ascendList_spec : ∀ (fuel : Nat) (t : Node) (p : PathIdx),
    t.wfRootShape = true → p.isOn = true →
    validOnB t p.branches p.leafIndex = true →
    t.count ≤ position t p + fuel →
    ascendList t fuel p = t.toList.drop (position t p) := by
  intro fuel
  induction fuel with
  | zero =>
    intro t p hs hon hv hfuel
    have := (validOn_entry p.branches t p.leafIndex hv).1
    rw [position] at hfuel
    omega
  | succ fuel ih =>
    intro t p hs hon hv hfuel
    have hent := validOn_entry p.branches t p.leafIndex hv
    have hposlt : position t p < t.count := hent.1
    have hlen : position t p < t.toList.length := hposlt
    have hyield : (t.leafAt p.branches).getD p.leafIndex 0 =
        t.toList[position t p] := by
      rw [List.getD_eq_getElem?_getD]
      rw [show (t.leafAt p.branches)[p.leafIndex]? =
        t.toList[position t p]? from hent.2.2]
      rw [List.getElem?_eq_getElem hlen]
      rfl
    rw [ascendList, if_pos hon, hyield]
    rw [List.drop_eq_getElem_cons hlen]
    congr 1
    rcases internalNext_spec t p hs hon hv with ⟨hoff, hlast⟩ | ⟨hon2, hv2, hp2⟩
    · rw [ascendList_off t fuel _ hoff]
      rw [List.drop_eq_nil_of_le (by
        show t.toList.length ≤ position t p + 1
        rw [show t.toList.length = t.count from rfl]
        omega)]
    · rw [ih t (internalNext t p) hs hon2 hv2 (by omega), hp2]

theorem getFirst_eq_moveToFirst : ∀ (n : Node),
    getFirst n = ⟨(moveToFirstIdx n).1, (moveToFirstIdx n).2.1,
      (moveToFirstIdx n).2.2, 0⟩ := by
  intro n
  induction n using Node.inductionOn with
  | hleaf es => rw [getFirst_leaf, moveToFirstIdx_leaf]
  | hbranch ps ns ih =>
    rw [getFirst_branch, moveToFirstIdx_branch]
    have hch : (Node.branch ps ns).childAt 0 = ns.getD 0 (.leaf []) := by
      simp [Node.childAt, Node.nodesOf]
    cases hns : ns with
    | nil =>
      have hch2 : (Node.branch ps ([] : List Node)).childAt 0 = .leaf [] := by
        simp [Node.childAt, Node.nodesOf]
      simp only [hch2]
      rfl
    | cons c rest =>
      have hih := ih c (by simp [hns])
      have hch2 : (Node.branch ps (c :: rest)).childAt 0 = c := by
        simp [Node.childAt, Node.nodesOf]
      simp only [hch2, hih]

theorem countGo_spec : ∀ (fuel : Nat) (t : Node) (p : PathIdx) (acc : Nat),
    t.wfRootShape = true → p.isOn = true →
    validOnB t p.branches p.leafIndex = true →
    t.count ≤ position t p + fuel →
    countGo t fuel p acc = acc + (t.count - position t p) := by
  intro fuel
  induction fuel with
  | zero =>
    intro t p acc hs hon hv hfuel
    have := (validOn_entry p.branches t p.leafIndex hv).1
    rw [position] at hfuel
    omega
  | succ fuel ih =>
    intro t p acc hs hon hv hfuel
    have hent := (validOn_entry p.branches t p.leafIndex hv).1
    have hlt := validOnB_lt p.branches t p.leafIndex hv
    simp only [position] at hfuel ⊢
    rw [countGo, if_pos hon]
    have hvp : validOnB t p.branches ((t.leafAt p.branches).length - 1) = true :=
      validOnB_set_li p.branches t p.leafIndex _ hv (by omega)
    rcases internalNext_spec t
        { p with leafIndex := (t.leafAt p.branches).length - 1 } hs hon hvp with
      ⟨hoff, hlast⟩ | ⟨hon2, hv2, hp2⟩
    · rw [countGo_off t fuel _ _ hoff]
      have hlast' : posGo t p.branches + ((t.leafAt p.branches).length - 1) + 1
          = t.count := by
        rw [← hlast]
        rfl
      omega
    · have hp2' : position t (internalNext t { p with
          leafIndex := (t.leafAt p.branches).length - 1 }) =
          posGo t p.branches + ((t.leafAt p.branches).length - 1) + 1 := by
        rw [hp2]
        rfl
      rw [ih t _ _ hs hon2 hv2 (by rw [hp2']; omega)]
      rw [hp2']
      have hnext' : posGo t p.branches + ((t.leafAt p.branches).length - 1) + 1
          ≤ t.count := by
        rw [← hp2']
        exact le_of_lt (validOn_entry _ t _ hv2).1
      omega

theorem root_wfShape_of_pos (n : Node) (hs : n.wfRootShape = true)
    (hc : 0 < n.count) : n.wfShape = true := by
  cases n with
  | leaf es =>
    rw [Node.count_leaf] at hc
    rw [Node.wfShape_leaf]
    cases es with
    | nil => simp at hc
    | cons a t => simp
  | branch ps ns =>
    rw [wfRootShape_branch] at hs
    rw [Node.wfShape_branch]
    exact hs

theorem first_isOn_empty (t : BTreeT) (hs : t.root.wfRootShape = true)
    (hc : t.root.count = 0) : t.first.isOn = false := by
  show (getFirst t.root).isOn = false
  cases hr : t.root with
  | leaf es =>
    rw [hr, Node.count_leaf] at hc
    rw [getFirst_leaf]
    simpa using hc
  | branch ps ns =>
    rw [hr] at hs hc
    have hw : (Node.branch ps ns).wfShape = true := by
      rw [Node.wfShape_branch]
      rw [wfRootShape_branch] at hs
      exact hs
    have := wfShape_count_pos _ hw
    omega

theorem first_spec_pos (t : BTreeT) (hs : t.root.wfRootShape = true)
    (hc : 0 < t.root.count) :
    t.first.isOn = true ∧
    validOnB t.root t.first.branches t.first.leafIndex = true ∧
    position t.root t.first = 0 := by
  have hws := root_wfShape_of_pos t.root hs hc
  have hmv := moveToFirstIdx_spec t.root hws
  have hfm := getFirst_eq_moveToFirst t.root
  refine ⟨?_, ?_, ?_⟩
  · show (getFirst t.root).isOn = true
    rw [hfm]
    exact hmv.2.2.1
  · show validOnB t.root (getFirst t.root).branches (getFirst t.root).leafIndex
      = true
    rw [hfm]
    exact hmv.2.2.2
  · show position t.root (getFirst t.root) = 0
    rw [hfm, position]
    simp only
    rw [hmv.1, hmv.2.1]

theorem ascending_first (t : BTreeT) (hwf : WFB t = true) :
    t.ascending t.first = .ok t.root.toList := by
  rw [WFB, Bool.and_eq_true] at hwf
  have hval : t.isValid t.first = true := by
    simp [BTreeT.isValid]
    rfl
  rw [BTreeT.ascending, if_neg (by rw [hval]; simp)]
  congr 1
  by_cases hc : 0 < t.root.count
  · have hf := first_spec_pos t hwf.2 hc
    rw [ascendList_spec (t.root.count + 1) t.root t.first hwf.2 hf.1 hf.2.1
      (by rw [hf.2.2]; omega)]
    rw [hf.2.2]
    simp
  · have hcz : t.root.count = 0 := by omega
    have hnil : t.root.toList = [] := List.eq_nil_of_length_eq_zero hcz
    rw [ascendList_off _ _ _ (first_isOn_empty t hwf.2 hcz), hnil]

theorem getCount_eq (t : BTreeT) (hs : t.root.wfRootShape = true) :
    t.getCount = t.root.count := by
  rw [BTreeT.getCount]
  by_cases hc : 0 < t.root.count
  · have hf := first_spec_pos t hs hc
    rw [countGo_spec (t.root.count + 1) t.root t.first 0 hs hf.1 hf.2.1
      (by rw [hf.2.2]; omega)]
    rw [hf.2.2]
    omega
  · have hcz : t.root.count = 0 := by omega
    rw [countGo_off _ _ _ _ (first_isOn_empty t hs hcz)]
    omega

theorem insertList_inv : ∀ (ks : List Int) (t : BTreeT),
    WFB t = true → (∀ x ∈ ks, x ∉ t.root.toList) → ks.Nodup →
    WFB (ks.foldl (fun t k => (t.insert k).1) t) = true ∧
    ((ks.foldl (fun t k => (t.insert k).1) t).root.toList).Perm
      (ks ++ t.root.toList)
  | [], t, hwf, _, _ => ⟨hwf, by simp⟩
  | k :: ks, t, hwf, hnin, hnd => by
    rw [List.foldl_cons]
    have hknin : k ∉ t.root.toList := hnin k (by simp)
    have hspec := insert_spec t k hwf hknin
    have hnd' := List.nodup_cons.mp hnd
    have IH := insertList_inv ks (t.insert k).1 hspec.2.1 (fun x hx => by
        rw [hspec.2.2.1]
        rw [mem_insSorted]
        push_neg
        constructor
        · intro hc
          subst hc
          exact hnd'.1 hx
        · exact hnin x (by simp [hx])) hnd'.2
    refine ⟨IH.1, ?_⟩
    have hp1 : ((t.insert k).1.root.toList).Perm (k :: t.root.toList) := by
      rw [hspec.2.2.1]
      exact insSorted_perm k t.root.toList
    have hp2 := IH.2.trans (List.Perm.append_left ks hp1)
    refine hp2.trans ?_
    have hp3 : List.Perm (ks ++ k :: t.root.toList)
        (k :: (ks ++ t.root.toList)) := List.perm_middle
    exact hp3.trans (by simp)

/-- C1: inserting any sequence of distinct keys into an empty tree and then
iterating `ascending(first())` yields exactly the inserted entries, in
strictly increasing order, and the number of items yielded equals
`getCount()`. -/
theorem c1_insert_ascending (ks : List Int) (hnd : ks.Nodup) :
    ∃ l : List Int, (insertList ks).ascending (insertList ks).first = .ok l ∧
      l.Pairwise (· < ·) ∧ l.Perm ks ∧ l.length = (insertList ks).getCount := by
  have hinv := insertList_inv ks BTreeT.mkEmpty (by decide)
    (fun x _ => by simp [BTreeT.mkEmpty, Node.toList_leaf]) hnd
  have hwf : WFB (insertList ks) = true := hinv.1
  refine ⟨(insertList ks).root.toList, ascending_first _ hwf, ?_, ?_, ?_⟩
  · have hwf' := hwf
    rw [WFB, Bool.and_eq_true] at hwf'
    exact (ordB_toList _ none none hwf'.1).1
  · have := hinv.2
    simpa [BTreeT.mkEmpty, Node.toList_leaf] using this
  · rw [getCount_eq _ (by rw [WFB, Bool.and_eq_true] at hwf; exact hwf.2)]
    rfl

/-- Witness for C1 at a concrete input: inserting `[2, 1, 3]` yields the
ascending iteration `[1, 2, 3]` with matching `getCount`. -/
theorem c1_insert_ascending_witness :
    ([2, 1, 3] : List Int).Nodup ∧
    ∃ l : List Int,
      (insertList [2, 1, 3]).ascending (insertList [2, 1, 3]).first = .ok l ∧
      l.Pairwise (· < ·) ∧ l.Perm [2, 1, 3] ∧
      l.length = (insertList [2, 1, 3]).getCount :=
  ⟨by decide, c1_insert_ascending [2, 1, 3] (by decide)⟩

/-! ## Delete machinery: list bookkeeping helpers -/

theorem sum_map_take_drop {α : Type} (f : α → Nat) (l : List α) (j : Nat) (d : α)
    (hj : j < l.length) :
    (l.map f).sum =
      ((l.take j).map f).sum + f (l.getD j d) + ((l.drop (j + 1)).map f).sum := by
  conv_lhs => rw [← List.take_append_drop j l]
  rw [List.map_append, List.sum_append]
  rw [List.drop_eq_getElem_cons hj, List.map_cons, List.sum_cons,
    List.getD_eq_getElem l d hj]
  omega

theorem sum_map_set {α : Type} (f : α → Nat) (l : List α) (j : Nat) (c d : α)
    (hj : j < l.length) :
    ((l.set j c).map f).sum + f (l.getD j d) = (l.map f).sum + f c := by
  rw [List.set_eq_take_cons_drop c hj, List.map_append, List.sum_append,
    List.map_cons, List.sum_cons]
  rw [sum_map_take_drop f l j d hj]
  omega

theorem set_eraseIdx_succ {α : Type} :
    ∀ (l : List α) (j : Nat) (c : α), j + 1 < l.length →
      (l.set j c).eraseIdx (j + 1) = l.take j ++ c :: l.drop (j + 2) := by
  intro l
  induction l with
  | nil => intro j c hj; simp at hj
  | cons a rest ih =>
    intro j c hj
    cases j with
    | zero =>
      cases rest with
      | nil => simp at hj
      | cons b rest' => rfl
    | succ j =>
      rw [List.set_cons_succ, List.eraseIdx_cons_succ,
        ih j c (by simp at hj; omega)]
      rfl

theorem frameRest_skel_congr {f g : DFrame} (h : frameSkel f = frameSkel g) :
    frameRest f = frameRest g := by
  have h1 : f.ns = g.ns := congrArg Prod.fst h
  have h2 : f.idx = g.idx := congrArg (fun x => x.2.1) h
  rw [frameRest, frameRest, h1, h2]

theorem frameOkB_skel_congr {f g : DFrame} (h : frameSkel f = frameSkel g) :
    frameOkB f = frameOkB g := by
  have h1 : f.ns = g.ns := congrArg Prod.fst h
  have h2 : f.idx = g.idx := congrArg (fun x => x.2.1) h
  have h3 : f.ps.length = g.ps.length := congrArg (fun x => x.2.2) h
  rw [frameOkB, frameOkB, h1, h2, h3]

theorem frames_skel_congr : ∀ (l₁ l₂ : List DFrame),
    l₁.map frameSkel = l₂.map frameSkel →
    framesBase l₁ = framesBase l₂ ∧ framesOkB l₁ = framesOkB l₂ := by
  intro l₁
  induction l₁ with
  | nil =>
    intro l₂ h
    cases l₂ with
    | nil => exact ⟨rfl, rfl⟩
    | cons g rest₂ => simp at h
  | cons f rest ih =>
    intro l₂ h
    cases l₂ with
    | nil => simp at h
    | cons g rest₂ =>
      rw [List.map_cons, List.map_cons] at h
      injection h with h1 h2
      obtain ⟨hb, ho⟩ := ih rest₂ h2
      refine ⟨?_, ?_⟩
      · rw [framesBase, framesBase, List.map_cons, List.map_cons, List.sum_cons,
          List.sum_cons, frameRest_skel_congr h1]
        rw [framesBase, framesBase] at hb
        omega
      · rw [framesOkB, framesOkB, List.all_cons, List.all_cons,
          frameOkB_skel_congr h1]
        rw [framesOkB, framesOkB] at ho
        rw [ho]

theorem map_frameSkel_modify (g : DFrame → DFrame)
    (hg : ∀ f, frameSkel (g f) = frameSkel f) :
    ∀ (l : List DFrame) (i : Nat),
      (List.modify g i l).map frameSkel = l.map frameSkel := by
  intro l
  induction l with
  | nil => intro i; cases i <;> rfl
  | cons a rest ih =>
    intro i
    cases i with
    | zero => rw [List.modify_zero_cons, List.map_cons, List.map_cons, hg a]
    | succ i => rw [List.modify_succ_cons, List.map_cons, List.map_cons, ih i]

theorem updatePartition_skel :
    ∀ (depth nodeIndex : Nat) (frames : List DFrame) (key : JKey),
      (updatePartition nodeIndex frames depth key).map frameSkel =
        frames.map frameSkel := by
  intro depth
  induction depth with
  | zero =>
    intro nodeIndex frames key
    rw [updatePartition]
    by_cases hn : nodeIndex > 0
    · rw [if_pos hn]
      exact map_frameSkel_modify _ (fun f => by simp [frameSkel]) frames 0
    · rw [if_neg hn]
  | succ d ih =>
    intro nodeIndex frames key
    rw [updatePartition]
    by_cases hn : nodeIndex > 0
    · rw [if_pos hn]
      exact map_frameSkel_modify _ (fun f => by simp [frameSkel]) frames (d + 1)
    · rw [if_neg hn]
      exact ih _ frames key

theorem modify_last {α : Type} (g : α → α) :
    ∀ (l : List α) (p : α), l.getLast? = some p →
      List.modify g (l.length - 1) l = l.dropLast ++ [g p] := by
  intro l
  induction l with
  | nil => intro p h; simp at h
  | cons a rest ih =>
    intro p h
    cases rest with
    | nil =>
      rw [List.getLast?_cons] at h
      simp only [List.getLast?_nil, Option.getD_none] at h
      injection h with h
      subst h
      rfl
    | cons b rest' =>
      have hne : (b :: rest') ≠ [] := List.cons_ne_nil _ _
      have hlast : (b :: rest').getLast? = some p := by
        rw [List.getLast?_cons_cons] at h
        exact h
      have hlen : (a :: b :: rest').length - 1 = ((b :: rest').length - 1) + 1 := by
        simp
      rw [hlen, List.modify_succ_cons, ih p hlast,
        List.dropLast_cons_of_ne_nil hne]
      rfl

theorem rebuildFrames_append : ∀ (init : List DFrame) (f : DFrame) (cur : Node),
    rebuildFrames (init ++ [f]) cur =
      rebuildFrames init (.branch f.ps (f.ns.set f.idx cur)) := by
  intro init
  induction init with
  | nil => intro f cur; rfl
  | cons a rest ih =>
    intro f cur
    rw [List.cons_append, rebuildFrames, ih, rebuildFrames]

theorem rebuildFrames_spec : ∀ (frames : List DFrame) (cur : Node),
    framesOkB frames = true → cur.wfShape = true →
    (rebuildFrames frames cur).wfShape = true ∧
    (rebuildFrames frames cur).count = framesBase frames + cur.count := by
  intro frames
  induction frames with
  | nil =>
    intro cur hok hwf
    exact ⟨hwf, (Nat.zero_add _).symm⟩
  | cons f rest ih =>
    intro cur hok hwf
    rw [framesOkB, List.all_cons, Bool.and_eq_true] at hok
    obtain ⟨hf, hrest⟩ := hok
    rw [frameOkB, Bool.and_eq_true, Bool.and_eq_true, Bool.and_eq_true] at hf
    have hidx : f.idx < f.ns.length := of_decide_eq_true hf.1.1.1
    have hrat : f.ns.length = f.ps.length + 1 := of_decide_eq_true hf.1.1.2
    have htake := hf.1.2
    have hdrop := hf.2
    obtain ⟨hwfI, hcntI⟩ := ih cur hrest hwf
    rw [rebuildFrames]
    constructor
    · rw [Node.wfShape_branch, Bool.and_eq_true]
      refine ⟨decide_eq_true (by rw [List.length_set]; exact hrat), ?_⟩
      rw [List.set_eq_take_cons_drop _ hidx]
      simp only [List.all_append, List.all_cons, Bool.and_eq_true]
      exact ⟨htake, hwfI, hdrop⟩
    · rw [Node.count_branch, List.set_eq_take_cons_drop _ hidx, List.map_append,
        List.sum_append, List.map_cons, List.sum_cons]
      have hbase : framesBase (f :: rest) = frameRest f + framesBase rest := by
        rw [framesBase, List.map_cons, List.sum_cons]
        rfl
      rw [hbase, frameRest]
      omega

theorem branch2Go_congr :
    ∀ (fuel : Nat) (n : Node), n.sz ≤ fuel → branch2Go fuel n = branch2B n := by
  intro fuel
  induction fuel using Nat.strong_induction_on with
  | _ fuel ih =>
    intro n hle
    match n with
    | .leaf es => cases fuel <;> rfl
    | .branch ps ns =>
      have hpos : 2 ≤ (Node.branch ps ns).sz := by
        simp [Node.sz]
      match fuel, hle with
      | fuel + 1, hle =>
        obtain ⟨m, hm⟩ : ∃ m, (Node.branch ps ns).sz = m + 1 :=
          ⟨(Node.branch ps ns).sz - 1, by omega⟩
        rw [branch2B, hm, branch2Go, branch2Go]
        congr 1
        apply List.all_congr_mem
        intro c hc
        have hlt : c.sz < (Node.branch ps ns).sz := Node.sz_lt_of_mem hc
        calc branch2Go fuel c = branch2B c := ih fuel (by omega) c (by omega)
          _ = branch2Go m c := (ih m (by omega) c (by omega)).symm

theorem branch2B_leaf (es : List Int) : branch2B (.leaf es) = true := rfl

theorem branch2B_branch (ps : List JKey) (ns : List Node) :
    branch2B (.branch ps ns) = (decide (1 ≤ ps.length) && ns.all branch2B) := by
  have hpos : 2 ≤ (Node.branch ps ns).sz := by
    simp [Node.sz]
  obtain ⟨m, hm⟩ : ∃ m, (Node.branch ps ns).sz = m + 1 :=
    ⟨(Node.branch ps ns).sz - 1, by omega⟩
  rw [branch2B, hm, branch2Go]
  congr 1
  apply List.all_congr_mem
  intro c hc
  have hlt : c.sz < (Node.branch ps ns).sz := Node.sz_lt_of_mem hc
  exact branch2Go_congr m c (by omega)

theorem dframesOf_spec : ∀ (is : List Nat) (n : Node),
    n.wfRootShape = true → validToB n is = true →
    framesOkB (dframesOf n is) = true ∧
    n.count = framesBase (dframesOf n is) + (n.alongD is).count ∧
    (n.alongD is).wfRootShape = true := by
  intro is
  induction is with
  | nil =>
    intro n hroot hvt
    exact ⟨rfl, (Nat.zero_add _).symm, hroot⟩
  | cons i is ih =>
    intro n hroot hvt
    match n with
    | .leaf es => exact absurd hvt (by rw [validToB]; exact Bool.false_ne_true)
    | .branch ps ns =>
      rw [validToB, Bool.and_eq_true] at hvt
      have hi : i < ns.length := of_decide_eq_true hvt.1
      have hvt' := hvt.2
      rw [Node.wfRootShape, Bool.and_eq_true] at hroot
      have hrat : ns.length = ps.length + 1 := by
        have := hroot.1
        simpa using this
      have hall := hroot.2
      have hchild_mem : ns.getD i (.leaf []) ∈ ns := by
        rw [List.getD_eq_getElem ns _ hi]
        exact List.getElem_mem hi
      have hchild_wf : (ns.getD i (.leaf [])).wfShape = true :=
        List.all_eq_true.mp hall _ hchild_mem
      have hchild_root : (ns.getD i (.leaf [])).wfRootShape = true :=
        wfShape_imp_root _ hchild_wf
      obtain ⟨hok', hcnt', hroot'⟩ := ih (ns.getD i (.leaf [])) hchild_root hvt'
      have hframe : frameOkB ⟨ps, ns, i⟩ = true := by
        rw [frameOkB]
        simp only [Bool.and_eq_true]
        refine ⟨⟨⟨decide_eq_true hi, decide_eq_true hrat⟩, ?_⟩, ?_⟩
        · exact List.all_eq_true.mpr fun x hx =>
            List.all_eq_true.mp hall x (List.mem_of_mem_take hx)
        · exact List.all_eq_true.mpr fun x hx =>
            List.all_eq_true.mp hall x (List.mem_of_mem_drop hx)
      have hdf : dframesOf (.branch ps ns) (i :: is) =
          ⟨ps, ns, i⟩ :: dframesOf (ns.getD i (.leaf [])) is := rfl
      have halong : (Node.branch ps ns).alongD (i :: is) =
          (ns.getD i (.leaf [])).alongD is := rfl
      refine ⟨?_, ?_, ?_⟩
      · rw [hdf, framesOkB, List.all_cons, hframe, Bool.true_and]
        exact hok'
      · rw [hdf, halong]
        have hbase : framesBase (⟨ps, ns, i⟩ :: dframesOf (ns.getD i (.leaf [])) is) =
            frameRest ⟨ps, ns, i⟩ +
              framesBase (dframesOf (ns.getD i (.leaf [])) is) := by
          rw [framesBase, List.map_cons, List.sum_cons]
          rfl
        have hfr : frameRest ⟨ps, ns, i⟩ =
            ((ns.take i).map Node.count).sum +
              ((ns.drop (i + 1)).map Node.count).sum := rfl
        rw [hbase, Node.count_branch,
          sum_map_take_drop Node.count ns i (.leaf []) hi, hfr]
        omega
      · rw [halong]
        exact hroot'

theorem dframesOf_ps_pos : ∀ (is : List Nat) (n : Node),
    branch2B n = true → validToB n is = true →
    ((dframesOf n is).all fun f => decide (1 ≤ f.ps.length)) = true ∧
      branch2B (n.alongD is) = true := by
  intro is
  induction is with
  | nil =>
    intro n hb2 hvt
    exact ⟨rfl, hb2⟩
  | cons i is ih =>
    intro n hb2 hvt
    match n with
    | .leaf es => exact absurd hvt (by rw [validToB]; exact Bool.false_ne_true)
    | .branch ps ns =>
      rw [validToB, Bool.and_eq_true] at hvt
      have hi : i < ns.length := of_decide_eq_true hvt.1
      rw [branch2B_branch, Bool.and_eq_true] at hb2
      have hchild_mem : ns.getD i (.leaf []) ∈ ns := by
        rw [List.getD_eq_getElem ns _ hi]
        exact List.getElem_mem hi
      have hchild : branch2B (ns.getD i (.leaf [])) = true :=
        List.all_eq_true.mp hb2.2 _ hchild_mem
      obtain ⟨h1, h2⟩ := ih (ns.getD i (.leaf [])) hchild hvt.2
      refine ⟨?_, h2⟩
      rw [show dframesOf (.branch ps ns) (i :: is) =
          ⟨ps, ns, i⟩ :: dframesOf (ns.getD i (.leaf [])) is from rfl,
        List.all_cons, Bool.and_eq_true]
      exact ⟨hb2.1, h1⟩

theorem homoGo_congr :
    ∀ (fuel : Nat) (n : Node), n.sz ≤ fuel → homoGo fuel n = homoB n := by
  intro fuel
  induction fuel using Nat.strong_induction_on with
  | _ fuel ih =>
    intro n hle
    match n with
    | .leaf es => cases fuel <;> rfl
    | .branch ps ns =>
      have hpos : 2 ≤ (Node.branch ps ns).sz := by
        simp [Node.sz]
      match fuel, hle with
      | fuel + 1, hle =>
        obtain ⟨m, hm⟩ : ∃ m, (Node.branch ps ns).sz = m + 1 :=
          ⟨(Node.branch ps ns).sz - 1, by omega⟩
        rw [homoB, hm, homoGo, homoGo]
        congr 1
        apply List.all_congr_mem
        intro c hc
        have hlt : c.sz < (Node.branch ps ns).sz := Node.sz_lt_of_mem hc
        calc homoGo fuel c = homoB c := ih fuel (by omega) c (by omega)
          _ = homoGo m c := (ih m (by omega) c (by omega)).symm

theorem homoB_branch (ps : List JKey) (ns : List Node) :
    homoB (.branch ps ns) =
      ((ns.all Node.isLeafB || ns.all fun c => !c.isLeafB) && ns.all homoB) := by
  have hpos : 2 ≤ (Node.branch ps ns).sz := by
    simp [Node.sz]
  obtain ⟨m, hm⟩ : ∃ m, (Node.branch ps ns).sz = m + 1 :=
    ⟨(Node.branch ps ns).sz - 1, by omega⟩
  rw [homoB, hm, homoGo]
  congr 1
  apply List.all_congr_mem
  intro c hc
  have hlt : c.sz < (Node.branch ps ns).sz := Node.sz_lt_of_mem hc
  exact homoGo_congr m c (by omega)

theorem stack_skel_congr : ∀ (l₁ l₂ : List DFrame),
    l₁.map frameSkel = l₂.map frameSkel →
    stackBranchKids l₁ = stackBranchKids l₂ ∧
      (l₁.all fun f => decide (1 ≤ f.ps.length)) =
        (l₂.all fun f => decide (1 ≤ f.ps.length)) := by
  intro l₁
  induction l₁ with
  | nil =>
    intro l₂ h
    cases l₂ with
    | nil => exact ⟨rfl, rfl⟩
    | cons g rest₂ => simp at h
  | cons f rest ih =>
    intro l₂ h
    cases l₂ with
    | nil => simp at h
    | cons g rest₂ =>
      rw [List.map_cons, List.map_cons] at h
      injection h with h1 h2
      have hns : f.ns = g.ns := congrArg Prod.fst h1
      have hps : f.ps.length = g.ps.length := congrArg (fun x => x.2.2) h1
      obtain ⟨hk, hp⟩ := ih rest₂ h2
      constructor
      · rw [stackBranchKids, List.all_cons, hns]
        rw [stackBranchKids] at hk
        rw [hk]
        rfl
      · rw [List.all_cons, List.all_cons, hps, hp]

theorem skel_getD : ∀ (l₁ l₂ : List DFrame),
    l₁.map frameSkel = l₂.map frameSkel →
    ∀ (i : Nat) (d : DFrame), frameSkel (l₁.getD i d) = frameSkel (l₂.getD i d) := by
  intro l₁
  induction l₁ with
  | nil =>
    intro l₂ h i d
    cases l₂ with
    | nil => rfl
    | cons g rest₂ => simp at h
  | cons f rest ih =>
    intro l₂ h i d
    cases l₂ with
    | nil => simp at h
    | cons g rest₂ =>
      rw [List.map_cons, List.map_cons] at h
      injection h with h1 h2
      cases i with
      | zero => rw [List.getD_cons_zero, List.getD_cons_zero]; exact h1
      | succ i =>
        rw [List.getD_cons_succ, List.getD_cons_succ]
        exact ih rest₂ h2 i d

theorem skel_length {l₁ l₂ : List DFrame}
    (h : l₁.map frameSkel = l₂.map frameSkel) : l₁.length = l₂.length := by
  have := congrArg List.length h
  simpa using this

theorem skel_dropLast {l₁ l₂ : List DFrame}
    (h : l₁.map frameSkel = l₂.map frameSkel) :
    l₁.dropLast.map frameSkel = l₂.dropLast.map frameSkel := by
  rw [List.map_dropLast, List.map_dropLast, h]

theorem getLastD_eq_getD {α : Type} : ∀ (l : List α) (d : α),
    l.getLastD d = l.getD (l.length - 1) d := by
  intro l
  induction l with
  | nil => intro d; rfl
  | cons a rest ih =>
    intro d
    cases rest with
    | nil => rfl
    | cons b rest' =>
      rw [List.getLastD_cons, ih a]
      have h1 : (a :: b :: rest').length - 1 = ((b :: rest').length - 1) + 1 := by
        simp
      rw [h1, List.getD_cons_succ]
      have hlt : (b :: rest').length - 1 < (b :: rest').length := by simp
      rw [List.getD_eq_getElem _ _ hlt, List.getD_eq_getElem _ _ hlt]

theorem dframesOf_kinds : ∀ (is : List Nat) (n : Node),
    homoB n = true → validToB n is = true → (n.alongD is).isLeafB = true →
    is ≠ [] →
    ∃ init lastf, dframesOf n is = init ++ [lastf] ∧
      stackBranchKids init = true ∧ lastf.ns.all Node.isLeafB = true := by
  intro is
  induction is with
  | nil => intro n _ _ _ hne; exact absurd rfl hne
  | cons i is ih =>
    intro n hhomo hvt hleaf _
    match n with
    | .leaf es => exact absurd hvt (by rw [validToB]; exact Bool.false_ne_true)
    | .branch ps ns =>
      rw [validToB, Bool.and_eq_true] at hvt
      have hi : i < ns.length := of_decide_eq_true hvt.1
      rw [homoB_branch, Bool.and_eq_true] at hhomo
      have hchild_mem : ns.getD i (.leaf []) ∈ ns := by
        rw [List.getD_eq_getElem ns _ hi]
        exact List.getElem_mem hi
      have hchild_homo : homoB (ns.getD i (.leaf [])) = true :=
        List.all_eq_true.mp hhomo.2 _ hchild_mem
      have hdf : dframesOf (.branch ps ns) (i :: is) =
          ⟨ps, ns, i⟩ :: dframesOf (ns.getD i (.leaf [])) is := rfl
      have halong : (Node.branch ps ns).alongD (i :: is) =
          (ns.getD i (.leaf [])).alongD is := rfl
      cases is with
      | nil =>
        refine ⟨[], ⟨ps, ns, i⟩, by rw [hdf]; rfl, rfl, ?_⟩
        rw [halong] at hleaf
        have hchild_leaf : (ns.getD i (.leaf [])).isLeafB = true := hleaf
        cases Bool.or_eq_true_iff.mp hhomo.1 with
        | inl hall => exact hall
        | inr hnone =>
          have := List.all_eq_true.mp hnone _ hchild_mem
          rw [hchild_leaf] at this
          exact absurd this (by simp)
      | cons j js =>
        rw [halong] at hleaf
        obtain ⟨init, lastf, hdf', hbk, hlk⟩ :=
          ih (ns.getD i (.leaf [])) hchild_homo hvt.2 hleaf (List.cons_ne_nil _ _)
        refine ⟨⟨ps, ns, i⟩ :: init, lastf, ?_, ?_, hlk⟩
        · rw [hdf, hdf', List.cons_append]
        · rw [stackBranchKids, List.all_cons, Bool.and_eq_true]
          refine ⟨?_, hbk⟩
          have hchild_branch : (ns.getD i (.leaf [])).isLeafB = false := by
            match hcn : ns.getD i (.leaf []) with
            | .leaf es' =>
              rw [hcn] at hvt
              exact absurd hvt.2 (by rw [validToB]; exact Bool.false_ne_true)
            | .branch _ _ => rfl
          cases Bool.or_eq_true_iff.mp hhomo.1 with
          | inl hall =>
            have := List.all_eq_true.mp hall _ hchild_mem
            rw [hchild_branch] at this
            exact absurd this (by simp)
          | inr hnone => exact hnone

theorem framesOkB_concat (init : List DFrame) (lastf : DFrame) :
    framesOkB (init ++ [lastf]) = (framesOkB init && frameOkB lastf) := by
  rw [framesOkB, List.all_append, framesOkB, List.all_cons, List.all_nil,
    Bool.and_true]

theorem framesBase_concat (init : List DFrame) (lastf : DFrame) :
    framesBase (init ++ [lastf]) = framesBase init + frameRest lastf := by
  rw [framesBase, List.map_append, List.sum_append, framesBase]
  simp

theorem stackBranchKids_concat (init : List DFrame) (lastf : DFrame) :
    stackBranchKids (init ++ [lastf]) =
      (stackBranchKids init && lastf.ns.all fun c => !c.isLeafB) := by
  rw [stackBranchKids, List.all_append, stackBranchKids, List.all_cons,
    List.all_nil, Bool.and_true]

theorem modify_concat (g : DFrame → DFrame) (init : List DFrame) (lastf : DFrame) :
    List.modify g ((init ++ [lastf]).length - 1) (init ++ [lastf]) =
      init ++ [g lastf] := by
  rw [modify_last g _ lastf (List.getLast?_concat _), List.dropLast_concat]

theorem frameOk_parts (f : DFrame) (hok : frameOkB f = true) :
    f.idx < f.ns.length ∧ f.ns.length = f.ps.length + 1 ∧
    (f.ns.take f.idx).all Node.wfShape = true ∧
    (f.ns.drop (f.idx + 1)).all Node.wfShape = true := by
  rw [frameOkB, Bool.and_eq_true, Bool.and_eq_true, Bool.and_eq_true] at hok
  exact ⟨of_decide_eq_true hok.1.1.1, of_decide_eq_true hok.1.1.2, hok.1.2, hok.2⟩

theorem rebuild_root_spec (frames : List DFrame) (cur : Node)
    (hok : framesOkB frames = true) (hwf : cur.wfShape = true) :
    (rebuildFrames frames cur).wfRootShape = true ∧
    (rebuildFrames frames cur).count = framesBase frames + cur.count :=
  ⟨wfShape_imp_root _ (rebuildFrames_spec frames cur hok hwf).1,
   (rebuildFrames_spec frames cur hok hwf).2⟩

theorem all_getD {α : Type} {p : α → Bool} {l : List α} (h : l.all p = true)
    (i : Nat) (d : α) (hi : i < l.length) : p (l.getD i d) = true := by
  rw [List.getD_eq_getElem _ _ hi]
  exact List.all_eq_true.mp h _ (List.getElem_mem hi)

theorem drop_part_head {α : Type} (l : List α) (j : Nat) (d : α) (hj : j < l.length) :
    l.drop j = l.getD j d :: l.drop (j + 1) := by
  rw [List.getD_eq_getElem _ _ hj]
  exact List.drop_eq_getElem_cons hj

theorem frameOk_sib_wf_right {f : DFrame} (hok : frameOkB f = true)
    (h : f.idx + 1 < f.ns.length) :
    (f.ns.getD (f.idx + 1) (.leaf [])).wfShape = true := by
  obtain ⟨h1, h2, h3, h4⟩ := frameOk_parts f hok
  rw [drop_part_head f.ns (f.idx + 1) (.leaf []) h, List.all_cons,
    Bool.and_eq_true] at h4
  exact h4.1

theorem take_part_getD {α : Type} (l : List α) (i j : Nat) (d : α) (hij : i < j)
    (hj : j ≤ l.length) : (l.take j).getD i d = l.getD i d := by
  have hi : i < l.length := by omega
  have hit : i < (l.take j).length := by
    rw [List.length_take]
    omega
  rw [List.getD_eq_getElem _ _ hi, List.getD_eq_getElem _ _ hit]
  exact List.getElem_take l

theorem frameOk_sib_wf_left {f : DFrame} (hok : frameOkB f = true)
    (h0 : 0 < f.idx) :
    (f.ns.getD (f.idx - 1) (.leaf [])).wfShape = true := by
  obtain ⟨h1, h2, h3, h4⟩ := frameOk_parts f hok
  have := all_getD h3 (f.idx - 1) (.leaf [])
    (by rw [List.length_take]; omega)
  rwa [take_part_getD f.ns (f.idx - 1) f.idx (.leaf []) (by omega) (by omega)]
    at this

theorem kind_branch {c : Node} (h : (!c.isLeafB) = true) :
    ∃ bps bns, c = .branch bps bns := by
  match c with
  | .leaf es => exact absurd h (by rw [Node.isLeafB]; simp)
  | .branch bps bns => exact ⟨bps, bns, rfl⟩

theorem kind_leaf {c : Node} (h : c.isLeafB = true) : ∃ es, c = .leaf es := by
  match c with
  | .leaf es => exact ⟨es, rfl⟩
  | .branch bps bns => exact absurd h (by rw [Node.isLeafB]; simp)

theorem rebalanceBranchGo_nil (fuel : Nat) (cur : Node) :
    rebalanceBranchGo fuel [] cur =
      (if cur.partitionsOf.length = 0 then cur.nodesOf.getD 0 (.leaf [])
       else cur) := by
  rw [rebalanceBranchGo, List.getLast?_nil]

theorem rebalanceBranchGo_zero (frames : List DFrame) (cur : Node)
    (hne : frames ≠ []) :
    rebalanceBranchGo 0 frames cur =
      (if cur.nodesOf.length ≥ NodeCapacity <<< 1 then rebuildFrames frames cur
       else rebuildFrames frames cur) := by
  obtain ⟨init, lastf, rfl⟩ : ∃ init lastf, frames = init ++ [lastf] := by
    rcases List.eq_nil_or_concat frames with h | ⟨init, lastf, h⟩
    · exact absurd h hne
    · exact ⟨init, lastf, by rw [h, List.concat_eq_append]⟩
  rw [rebalanceBranchGo, List.getLast?_concat]

theorem rebalanceBranchGo_eq (fuel : Nat) (init : List DFrame) (lastf : DFrame)
    (cur : Node) :
    rebalanceBranchGo (fuel + 1) (init ++ [lastf]) cur =
      (let ps := cur.partitionsOf
       let ns := cur.nodesOf
       if ns.length ≥ NodeCapacity <<< 1 then
         rebuildFrames (init ++ [lastf]) cur
       else
         let frames := init ++ [lastf]
         let pIndex := lastf.idx
         let pps := lastf.ps
         let pns := lastf.ns
         let depthPred := frames.length - 1
         let rightSib := if pIndex < pns.length then pns[pIndex + 1]? else none
         let leftSib := if pIndex > 0 then pns[pIndex - 1]? else none
         let rs := rightSib.getD (.leaf [])
         let ls := leftSib.getD (.leaf [])
         if rightSib.isSome ∧ rs.nodesOf.length > NodeCapacity >>> 1 then
           let cur' := Node.branch (ps ++ [pps.getD pIndex none])
             (ns ++ [rs.nodesOf.headD (.leaf [])])
           let rightKey := rs.partitionsOf.headD none
           let rs' := Node.branch rs.partitionsOf.tail rs.nodesOf.tail
           let frames₁ := frames.modify
             (fun f => { f with ns := f.ns.set (pIndex + 1) rs' }) depthPred
           let frames₂ := updatePartition (pIndex + 1) frames₁ depthPred rightKey
           rebuildFrames frames₂ cur'
         else if leftSib.isSome ∧ ls.nodesOf.length > NodeCapacity >>> 1 then
           let cur' := Node.branch (pps.getD (pIndex - 1) none :: ps)
             (ls.nodesOf.getLastD (.leaf []) :: ns)
           let pKey := ls.partitionsOf.getLastD none
           let ls' := Node.branch ls.partitionsOf.dropLast ls.nodesOf.dropLast
           let frames₁ := frames.modify
             (fun f => { f with ns := f.ns.set (pIndex - 1) ls' }) depthPred
           let frames₂ := updatePartition pIndex frames₁ depthPred pKey
           rebuildFrames frames₂ cur'
         else if rightSib.isSome ∧ rs.nodesOf.length + ns.length ≤ NodeCapacity then
           let pKey := pps.getD pIndex none
           let pps' := pps.eraseIdx pIndex
           let cur' := Node.branch (ps ++ [pKey] ++ rs.partitionsOf) (ns ++ rs.nodesOf)
           let pns' := (pns.set pIndex cur').eraseIdx (pIndex + 1)
           let frames₁ := frames.modify
             (fun f => { f with ps := pps', ns := pns' }) depthPred
           let frames₂ := if pIndex = 0 ∧ pps'.length > 0 then
               updatePartition pIndex frames₁ depthPred (pps'.getD 0 none)
             else frames₁
           rebalanceBranchGo fuel frames₂.dropLast
             (Node.branch (frames₂.getLastD default).ps (frames₂.getLastD default).ns)
         else if leftSib.isSome ∧ ls.nodesOf.length + ns.length ≤ NodeCapacity then
           let pKey := pps.getD (pIndex - 1) none
           let pps' := pps.eraseIdx (pIndex - 1)
           let newLeft := Node.branch (ls.partitionsOf ++ [pKey] ++ ps) (ls.nodesOf ++ ns)
           let pns' := (pns.set (pIndex - 1) newLeft).eraseIdx pIndex
           let frames₁ := frames.modify
             (fun f => { f with ps := pps', ns := pns' }) depthPred
           rebalanceBranchGo fuel frames₁.dropLast
             (Node.branch (frames₁.getLastD default).ps (frames₁.getLastD default).ns)
         else rebuildFrames frames cur) := by
  rw [rebalanceBranchGo, List.getLast?_concat]

theorem rebalanceLeaf_eq (init : List DFrame) (lastf : DFrame) (leaf : List Int) :
    rebalanceLeaf (init ++ [lastf]) leaf =
      (if (init ++ [lastf]).length = 0 ∨ leaf.length ≥ NodeCapacity >>> 1 then
        rebuildFrames (init ++ [lastf]) (.leaf leaf)
      else
        let frames := init ++ [lastf]
        let pIndex := lastf.idx
        let pps := lastf.ps
        let pns := lastf.ns
        let depthPred := frames.length - 1
        let rightSib := if pIndex < pns.length then pns[pIndex + 1]? else none
        let leftSib := if pIndex > 0 then pns[pIndex - 1]? else none
        let rs := (rightSib.getD (.leaf [])).entriesOf
        let ls := (leftSib.getD (.leaf [])).entriesOf
        if rightSib.isSome ∧ rs.length > NodeCapacity >>> 1 then
          let entry := rs.headD 0
          let leaf' := leaf ++ [entry]
          let rs' := rs.tail
          let frames₁ := frames.modify
            (fun f => { f with ns := f.ns.set (pIndex + 1) (.leaf rs') }) depthPred
          let frames₂ := updatePartition (pIndex + 1) frames₁ depthPred rs'.head?
          rebuildFrames frames₂ (.leaf leaf')
        else if leftSib.isSome ∧ ls.length > NodeCapacity >>> 1 then
          let entry := ls.getLastD 0
          let leaf' := entry :: leaf
          let ls' := ls.dropLast
          let frames₁ := frames.modify
            (fun f => { f with ns := f.ns.set (pIndex - 1) (.leaf ls') }) depthPred
          let frames₂ := updatePartition pIndex frames₁ depthPred (some entry)
          rebuildFrames frames₂ (.leaf leaf')
        else if rightSib.isSome ∧ rs.length + leaf.length ≤ NodeCapacity then
          let leaf' := leaf ++ rs
          let pps' := pps.eraseIdx pIndex
          let pns' := (pns.set pIndex (.leaf leaf')).eraseIdx (pIndex + 1)
          let frames₁ := frames.modify
            (fun f => { f with ps := pps', ns := pns' }) depthPred
          let frames₂ := if pIndex = 0 then
              updatePartition pIndex frames₁ depthPred leaf'.head?
            else frames₁
          rebalanceBranch frames₂.dropLast
            (Node.branch (frames₂.getLastD default).ps (frames₂.getLastD default).ns)
        else if leftSib.isSome ∧ ls.length + leaf.length ≤ NodeCapacity then
          let newLeft := ls ++ leaf
          let pps' := pps.eraseIdx (pIndex - 1)
          let pns' := (pns.set (pIndex - 1) (.leaf newLeft)).eraseIdx pIndex
          let frames₁ := frames.modify
            (fun f => { f with ps := pps', ns := pns' }) depthPred
          rebalanceBranch frames₁.dropLast
            (Node.branch (frames₁.getLastD default).ps (frames₁.getLastD default).ns)
        else rebuildFrames frames (.leaf leaf)) := by
  rw [rebalanceLeaf, List.getLast?_concat]

theorem branch_borrowR (init : List DFrame) (lastf : DFrame)
    (cps : List JKey) (cns : List Node) (rps : List JKey) (rn₀ : Node)
    (rtail : List Node)
    (hokI : framesOkB init = true) (hokL : frameOkB lastf = true)
    (hrex : lastf.idx + 1 < lastf.ns.length)
    (hrB : lastf.ns.getD (lastf.idx + 1) (.leaf []) = .branch rps (rn₀ :: rtail))
    (hwf : (Node.branch cps cns).wfShape = true)
    (hrsz : (rn₀ :: rtail).length > NodeCapacity >>> 1) :
    (rebuildFrames
        (updatePartition (lastf.idx + 1)
          (init ++ [{ lastf with
            ns := lastf.ns.set (lastf.idx + 1) (Node.branch rps.tail rtail) }])
          ((init ++ [lastf]).length - 1) (rps.headD none))
        (Node.branch (cps ++ [lastf.ps.getD lastf.idx none])
          (cns ++ [rn₀]))).wfRootShape = true ∧
    (rebuildFrames
        (updatePartition (lastf.idx + 1)
          (init ++ [{ lastf with
            ns := lastf.ns.set (lastf.idx + 1) (Node.branch rps.tail rtail) }])
          ((init ++ [lastf]).length - 1) (rps.headD none))
        (Node.branch (cps ++ [lastf.ps.getD lastf.idx none])
          (cns ++ [rn₀]))).count =
      framesBase (init ++ [lastf]) + (Node.branch cps cns).count := by
  obtain ⟨hpidx, hprat, hptake, hpdrop⟩ := frameOk_parts lastf hokL
  rw [Node.wfShape_branch, Bool.and_eq_true] at hwf
  have hrat : cns.length = cps.length + 1 := of_decide_eq_true hwf.1
  have hall := hwf.2
  have hrwf : (Node.branch rps (rn₀ :: rtail)).wfShape = true := by
    have := frameOk_sib_wf_right hokL hrex
    rwa [hrB] at this
  rw [Node.wfShape_branch, Bool.and_eq_true] at hrwf
  have hrrat : (rn₀ :: rtail).length = rps.length + 1 := of_decide_eq_true hrwf.1
  have hrall := hrwf.2
  rw [List.all_cons, Bool.and_eq_true] at hrall
  have e1 : lastf.ns.drop (lastf.idx + 1) =
      Node.branch rps (rn₀ :: rtail) :: lastf.ns.drop (lastf.idx + 2) := by
    rw [← hrB]
    exact drop_part_head lastf.ns (lastf.idx + 1) (.leaf []) hrex
  have e3 : (lastf.ns.set (lastf.idx + 1) (Node.branch rps.tail rtail)).take
      lastf.idx = lastf.ns.take lastf.idx := by
    rw [List.set_take]
    exact List.set_eq_of_length_le
      (by rw [List.length_take]; exact le_trans (Nat.min_le_left _ _) (Nat.le_succ _))
  have e2 : (lastf.ns.set (lastf.idx + 1) (Node.branch rps.tail rtail)).drop
      (lastf.idx + 1) =
      Node.branch rps.tail rtail :: lastf.ns.drop (lastf.idx + 2) := by
    rw [List.drop_set, if_neg (by omega), Nat.sub_self, e1, List.set_cons_zero]
  have hdrop₂ : (lastf.ns.drop (lastf.idx + 2)).all Node.wfShape = true := by
    rw [e1, List.all_cons, Bool.and_eq_true] at hpdrop
    exact hpdrop.2
  have hrs'wf : (Node.branch rps.tail rtail).wfShape = true := by
    rw [Node.wfShape_branch, Bool.and_eq_true]
    constructor
    · apply decide_eq_true
      rw [List.length_tail]
      have hcap32 : NodeCapacity >>> 1 = 32 := rfl
      rw [hcap32] at hrsz
      simp only [List.length_cons] at hrsz hrrat
      omega
    · exact hrall.2
  have hoklf' : frameOkB { lastf with
      ns := lastf.ns.set (lastf.idx + 1) (Node.branch rps.tail rtail) } = true := by
    rw [frameOkB]
    simp only [Bool.and_eq_true]
    refine ⟨⟨⟨decide_eq_true ?_, decide_eq_true ?_⟩, ?_⟩, ?_⟩
    · show lastf.idx < (lastf.ns.set (lastf.idx + 1) (Node.branch rps.tail rtail)).length
      rw [List.length_set]
      omega
    · show (lastf.ns.set (lastf.idx + 1) (Node.branch rps.tail rtail)).length =
        lastf.ps.length + 1
      rw [List.length_set]
      omega
    · show ((lastf.ns.set (lastf.idx + 1) (Node.branch rps.tail rtail)).take
        lastf.idx).all Node.wfShape = true
      rw [e3]
      exact hptake
    · show ((lastf.ns.set (lastf.idx + 1) (Node.branch rps.tail rtail)).drop
        (lastf.idx + 1)).all Node.wfShape = true
      rw [e2, List.all_cons, Bool.and_eq_true]
      exact ⟨hrs'wf, hdrop₂⟩
  have hokF1 : framesOkB (init ++ [{ lastf with
      ns := lastf.ns.set (lastf.idx + 1) (Node.branch rps.tail rtail) }]) = true := by
    rw [framesOkB_concat, Bool.and_eq_true]
    exact ⟨hokI, hoklf'⟩
  obtain ⟨hbase2, hok2⟩ := frames_skel_congr _ _
    (updatePartition_skel ((init ++ [lastf]).length - 1) (lastf.idx + 1)
      (init ++ [{ lastf with
        ns := lastf.ns.set (lastf.idx + 1) (Node.branch rps.tail rtail) }])
      (rps.headD none))
  have hcur'wf : (Node.branch (cps ++ [lastf.ps.getD lastf.idx none])
      (cns ++ [rn₀])).wfShape = true := by
    rw [Node.wfShape_branch, Bool.and_eq_true]
    refine ⟨decide_eq_true (by simp [hrat]), ?_⟩
    rw [List.all_append, Bool.and_eq_true]
    exact ⟨hall, by simp [hrall.1]⟩
  obtain ⟨hW, hC⟩ := rebuild_root_spec _ _ (by rw [hok2]; exact hokF1) hcur'wf
  refine ⟨hW, ?_⟩
  rw [hC, hbase2, framesBase_concat, framesBase_concat]
  have hfr' : frameRest { lastf with
      ns := lastf.ns.set (lastf.idx + 1) (Node.branch rps.tail rtail) } =
      ((lastf.ns.take lastf.idx).map Node.count).sum +
        ((Node.branch rps.tail rtail).count +
          ((lastf.ns.drop (lastf.idx + 2)).map Node.count).sum) := by
    show (((lastf.ns.set (lastf.idx + 1) (Node.branch rps.tail rtail)).take
        lastf.idx).map Node.count).sum +
      (((lastf.ns.set (lastf.idx + 1) (Node.branch rps.tail rtail)).drop
        (lastf.idx + 1)).map Node.count).sum = _
    rw [e3, e2, List.map_cons, List.sum_cons]
  have hfr : frameRest lastf =
      ((lastf.ns.take lastf.idx).map Node.count).sum +
        ((Node.branch rps (rn₀ :: rtail)).count +
          ((lastf.ns.drop (lastf.idx + 2)).map Node.count).sum) := by
    rw [frameRest, e1, List.map_cons, List.sum_cons]
  have hcr : (Node.branch rps (rn₀ :: rtail)).count =
      rn₀.count + (Node.branch rps.tail rtail).count := by
    rw [Node.count_branch, Node.count_branch, List.map_cons, List.sum_cons]
  have hcc : (Node.branch (cps ++ [lastf.ps.getD lastf.idx none])
      (cns ++ [rn₀])).count = (Node.branch cps cns).count + rn₀.count := by
    rw [Node.count_branch, Node.count_branch, List.map_append, List.sum_append]
    simp
  rw [hfr', hfr, hcr, hcc]
  omega

theorem branch_borrowL (init : List DFrame) (lastf : DFrame)
    (cps : List JKey) (cns : List Node) (lps : List JKey) (lns : List Node)
    (hokI : framesOkB init = true) (hokL : frameOkB lastf = true)
    (hlex : 0 < lastf.idx)
    (hlB : lastf.ns.getD (lastf.idx - 1) (.leaf []) = .branch lps lns)
    (hwf : (Node.branch cps cns).wfShape = true)
    (hlsz : lns.length > NodeCapacity >>> 1) :
    (rebuildFrames
        (updatePartition lastf.idx
          (init ++ [{ lastf with
            ns := lastf.ns.set (lastf.idx - 1)
              (Node.branch lps.dropLast lns.dropLast) }])
          ((init ++ [lastf]).length - 1) (lps.getLastD none))
        (Node.branch (lastf.ps.getD (lastf.idx - 1) none :: cps)
          (lns.getLastD (.leaf []) :: cns))).wfRootShape = true ∧
    (rebuildFrames
        (updatePartition lastf.idx
          (init ++ [{ lastf with
            ns := lastf.ns.set (lastf.idx - 1)
              (Node.branch lps.dropLast lns.dropLast) }])
          ((init ++ [lastf]).length - 1) (lps.getLastD none))
        (Node.branch (lastf.ps.getD (lastf.idx - 1) none :: cps)
          (lns.getLastD (.leaf []) :: cns))).count =
      framesBase (init ++ [lastf]) + (Node.branch cps cns).count := by
  obtain ⟨hpidx, hprat, hptake, hpdrop⟩ := frameOk_parts lastf hokL
  rw [Node.wfShape_branch, Bool.and_eq_true] at hwf
  have hrat : cns.length = cps.length + 1 := of_decide_eq_true hwf.1
  have hall := hwf.2
  have hlwf : (Node.branch lps lns).wfShape = true := by
    have := frameOk_sib_wf_left hokL hlex
    rwa [hlB] at this
  rw [Node.wfShape_branch, Bool.and_eq_true] at hlwf
  have hlrat : lns.length = lps.length + 1 := of_decide_eq_true hlwf.1
  have hlall := hlwf.2
  have hcap32 : NodeCapacity >>> 1 = 32 := rfl
  rw [hcap32] at hlsz
  have hlne : lns ≠ [] := by
    apply List.ne_nil_of_length_pos
    omega
  have hlast_eq : lns.getLastD (.leaf []) = lns.getLast hlne := by
    rw [List.getLastD_eq_getLast?, List.getLast?_eq_getLast lns hlne,
      Option.getD_some]
  have hlns_eq : lns.dropLast ++ [lns.getLastD (.leaf [])] = lns := by
    rw [hlast_eq]
    exact List.dropLast_append_getLast hlne
  have e1 : lastf.ns.take lastf.idx =
      lastf.ns.take (lastf.idx - 1) ++ [Node.branch lps lns] := by
    have h1 : lastf.idx = (lastf.idx - 1) + 1 := by omega
    conv_lhs => rw [h1, List.take_succ]
    rw [List.getElem?_eq_getElem (by omega : lastf.idx - 1 < lastf.ns.length)]
    rw [← List.getD_eq_getElem lastf.ns (.leaf []) (by omega), hlB]
    rfl
  have e2 : (lastf.ns.set (lastf.idx - 1)
      (Node.branch lps.dropLast lns.dropLast)).take lastf.idx =
      lastf.ns.take (lastf.idx - 1) ++
        [Node.branch lps.dropLast lns.dropLast] := by
    rw [List.set_take, e1, List.set_append_right _ _
      (by rw [List.length_take]; exact Nat.min_le_left _ _)]
    have h2 : lastf.idx - 1 - (lastf.ns.take (lastf.idx - 1)).length = 0 := by
      rw [List.length_take]
      omega
    rw [h2, List.set_cons_zero]
  have e3 : (lastf.ns.set (lastf.idx - 1)
      (Node.branch lps.dropLast lns.dropLast)).drop (lastf.idx + 1) =
      lastf.ns.drop (lastf.idx + 1) := by
    rw [List.drop_set, if_pos (by omega)]
  have hlps_ne : 1 ≤ lps.length := by omega
  have hls'wf : (Node.branch lps.dropLast lns.dropLast).wfShape = true := by
    rw [Node.wfShape_branch, Bool.and_eq_true]
    constructor
    · apply decide_eq_true
      rw [List.length_dropLast, List.length_dropLast]
      omega
    · exact List.all_eq_true.mpr fun x hx =>
        List.all_eq_true.mp hlall x (List.mem_of_mem_dropLast hx)
  have hllast_wf : (lns.getLastD (.leaf [])).wfShape = true := by
    rw [hlast_eq]
    exact List.all_eq_true.mp hlall _ (List.getLast_mem hlne)
  have hoklf' : frameOkB { lastf with
      ns := lastf.ns.set (lastf.idx - 1)
        (Node.branch lps.dropLast lns.dropLast) } = true := by
    rw [frameOkB]
    simp only [Bool.and_eq_true]
    refine ⟨⟨⟨decide_eq_true ?_, decide_eq_true ?_⟩, ?_⟩, ?_⟩
    · show lastf.idx < (lastf.ns.set (lastf.idx - 1)
        (Node.branch lps.dropLast lns.dropLast)).length
      rw [List.length_set]
      omega
    · show (lastf.ns.set (lastf.idx - 1)
        (Node.branch lps.dropLast lns.dropLast)).length = lastf.ps.length + 1
      rw [List.length_set]
      omega
    · show ((lastf.ns.set (lastf.idx - 1)
        (Node.branch lps.dropLast lns.dropLast)).take lastf.idx).all
          Node.wfShape = true
      rw [e2, List.all_append, Bool.and_eq_true]
      constructor
      · rw [e1, List.all_append, Bool.and_eq_true] at hptake
        exact hptake.1
      · simp [hls'wf]
    · show ((lastf.ns.set (lastf.idx - 1)
        (Node.branch lps.dropLast lns.dropLast)).drop (lastf.idx + 1)).all
          Node.wfShape = true
      rw [e3]
      exact hpdrop
  obtain ⟨hbase2, hok2⟩ := frames_skel_congr _ _
    (updatePartition_skel ((init ++ [lastf]).length - 1) lastf.idx
      (init ++ [{ lastf with
        ns := lastf.ns.set (lastf.idx - 1)
          (Node.branch lps.dropLast lns.dropLast) }])
      (lps.getLastD none))
  have hcur'wf : (Node.branch (lastf.ps.getD (lastf.idx - 1) none :: cps)
      (lns.getLastD (.leaf []) :: cns)).wfShape = true := by
    rw [Node.wfShape_branch, Bool.and_eq_true]
    refine ⟨decide_eq_true (by simp [hrat]), ?_⟩
    rw [List.all_cons, Bool.and_eq_true]
    exact ⟨hllast_wf, hall⟩
  have hokF1 : framesOkB (init ++ [{ lastf with
      ns := lastf.ns.set (lastf.idx - 1)
        (Node.branch lps.dropLast lns.dropLast) }]) = true := by
    rw [framesOkB_concat, Bool.and_eq_true]
    exact ⟨hokI, hoklf'⟩
  obtain ⟨hW, hC⟩ := rebuild_root_spec _ _ (by rw [hok2]; exact hokF1) hcur'wf
  refine ⟨hW, ?_⟩
  rw [hC, hbase2, framesBase_concat, framesBase_concat]
  have hfr' : frameRest { lastf with
      ns := lastf.ns.set (lastf.idx - 1)
        (Node.branch lps.dropLast lns.dropLast) } =
      (((lastf.ns.take (lastf.idx - 1)).map Node.count).sum +
        (Node.branch lps.dropLast lns.dropLast).count) +
        ((lastf.ns.drop (lastf.idx + 1)).map Node.count).sum := by
    show (((lastf.ns.set (lastf.idx - 1)
        (Node.branch lps.dropLast lns.dropLast)).take lastf.idx).map
          Node.count).sum +
      (((lastf.ns.set (lastf.idx - 1)
        (Node.branch lps.dropLast lns.dropLast)).drop
          (lastf.idx + 1)).map Node.count).sum = _
    rw [e2, e3, List.map_append, List.sum_append]
    simp
  have hfr : frameRest lastf =
      (((lastf.ns.take (lastf.idx - 1)).map Node.count).sum +
        (Node.branch lps lns).count) +
        ((lastf.ns.drop (lastf.idx + 1)).map Node.count).sum := by
    rw [frameRest, e1, List.map_append, List.sum_append]
    simp
  have hcl : (Node.branch lps lns).count =
      (Node.branch lps.dropLast lns.dropLast).count +
        (lns.getLastD (.leaf [])).count := by
    rw [Node.count_branch, Node.count_branch]
    conv_lhs => rw [← hlns_eq]
    rw [List.map_append, List.sum_append]
    simp
  have hcc : (Node.branch (lastf.ps.getD (lastf.idx - 1) none :: cps)
      (lns.getLastD (.leaf []) :: cns)).count =
      (lns.getLastD (.leaf [])).count + (Node.branch cps cns).count := by
    rw [Node.count_branch, Node.count_branch, List.map_cons, List.sum_cons]
  rw [hfr', hfr, hcl, hcc]
  omega

theorem branch_mergeR (fuel : Nat)
    (ih : ∀ (frames : List DFrame) (cps : List JKey) (cns : List Node),
      framesOkB frames = true → stackBranchKids frames = true →
      (Node.branch cps cns).wfShape = true →
      (rebalanceBranchGo fuel frames (.branch cps cns)).wfRootShape = true ∧
      (rebalanceBranchGo fuel frames (.branch cps cns)).count =
        framesBase frames + (Node.branch cps cns).count)
    (init : List DFrame) (lastf : DFrame)
    (cps : List JKey) (cns : List Node) (rps : List JKey) (rns : List Node)
    (hokI : framesOkB init = true) (hokL : frameOkB lastf = true)
    (hbkI : stackBranchKids init = true)
    (hrex : lastf.idx + 1 < lastf.ns.length)
    (hrB : lastf.ns.getD (lastf.idx + 1) (.leaf []) = .branch rps rns)
    (hwf : (Node.branch cps cns).wfShape = true) :
    ∀ frames₂ : List DFrame,
      frames₂.map frameSkel =
        (init ++ [(⟨lastf.ps.eraseIdx lastf.idx,
          (lastf.ns.set lastf.idx
            (Node.branch (cps ++ [lastf.ps.getD lastf.idx none] ++ rps)
              (cns ++ rns))).eraseIdx (lastf.idx + 1),
          lastf.idx⟩ : DFrame)]).map frameSkel →
      (rebalanceBranchGo fuel frames₂.dropLast
        (Node.branch (frames₂.getLastD default).ps
          (frames₂.getLastD default).ns)).wfRootShape = true ∧
      (rebalanceBranchGo fuel frames₂.dropLast
        (Node.branch (frames₂.getLastD default).ps
          (frames₂.getLastD default).ns)).count =
        framesBase (init ++ [lastf]) + (Node.branch cps cns).count := by
  intro frames₂ hskel₂
  obtain ⟨hpidx, hprat, hptake, hpdrop⟩ := frameOk_parts lastf hokL
  rw [Node.wfShape_branch, Bool.and_eq_true] at hwf
  have hrat : cns.length = cps.length + 1 := of_decide_eq_true hwf.1
  have hall := hwf.2
  have hrwf : (Node.branch rps rns).wfShape = true := by
    have := frameOk_sib_wf_right hokL hrex
    rwa [hrB] at this
  rw [Node.wfShape_branch, Bool.and_eq_true] at hrwf
  have hrrat : rns.length = rps.length + 1 := of_decide_eq_true hrwf.1
  have hrall := hrwf.2
  have e1 : lastf.ns.drop (lastf.idx + 1) =
      Node.branch rps rns :: lastf.ns.drop (lastf.idx + 2) := by
    rw [← hrB]
    exact drop_part_head lastf.ns (lastf.idx + 1) (.leaf []) hrex
  have hdrop₂ : (lastf.ns.drop (lastf.idx + 2)).all Node.wfShape = true := by
    rw [e1, List.all_cons, Bool.and_eq_true] at hpdrop
    exact hpdrop.2
  have hcur'wf : (Node.branch (cps ++ [lastf.ps.getD lastf.idx none] ++ rps)
      (cns ++ rns)).wfShape = true := by
    rw [Node.wfShape_branch, Bool.and_eq_true]
    constructor
    · apply decide_eq_true
      rw [List.length_append, List.length_append, List.length_append]
      simp only [List.length_cons, List.length_nil]
      omega
    · rw [List.all_append, Bool.and_eq_true]
      exact ⟨hall, hrall⟩
  have epns : (lastf.ns.set lastf.idx
      (Node.branch (cps ++ [lastf.ps.getD lastf.idx none] ++ rps)
        (cns ++ rns))).eraseIdx (lastf.idx + 1) =
      lastf.ns.take lastf.idx ++
        Node.branch (cps ++ [lastf.ps.getD lastf.idx none] ++ rps)
          (cns ++ rns) :: lastf.ns.drop (lastf.idx + 2) :=
    set_eraseIdx_succ lastf.ns lastf.idx _ hrex
  have hgl : (init ++ [(⟨lastf.ps.eraseIdx lastf.idx,
      (lastf.ns.set lastf.idx
        (Node.branch (cps ++ [lastf.ps.getD lastf.idx none] ++ rps)
          (cns ++ rns))).eraseIdx (lastf.idx + 1),
      lastf.idx⟩ : DFrame)]).getLastD default =
      ⟨lastf.ps.eraseIdx lastf.idx,
        (lastf.ns.set lastf.idx
          (Node.branch (cps ++ [lastf.ps.getD lastf.idx none] ++ rps)
            (cns ++ rns))).eraseIdx (lastf.idx + 1),
        lastf.idx⟩ := by
    rw [List.getLastD_eq_getLast?, List.getLast?_concat, Option.getD_some]
  have hskelL : frameSkel (frames₂.getLastD default) =
      frameSkel ⟨lastf.ps.eraseIdx lastf.idx,
        (lastf.ns.set lastf.idx
          (Node.branch (cps ++ [lastf.ps.getD lastf.idx none] ++ rps)
            (cns ++ rns))).eraseIdx (lastf.idx + 1),
        lastf.idx⟩ := by
    rw [getLastD_eq_getD, skel_getD _ _ hskel₂ (frames₂.length - 1) default,
      skel_length hskel₂, ← getLastD_eq_getD, hgl]
  have hY : (frames₂.getLastD default).ns =
      (lastf.ns.set lastf.idx
        (Node.branch (cps ++ [lastf.ps.getD lastf.idx none] ++ rps)
          (cns ++ rns))).eraseIdx (lastf.idx + 1) :=
    congrArg Prod.fst hskelL
  have hXlen : (frames₂.getLastD default).ps.length =
      (lastf.ps.eraseIdx lastf.idx).length :=
    congrArg (fun x => x.2.2) hskelL
  have hskelD : frames₂.dropLast.map frameSkel = init.map frameSkel := by
    have := skel_dropLast hskel₂
    rwa [List.dropLast_concat] at this
  obtain ⟨hbaseD, hokD⟩ := frames_skel_congr _ _ hskelD
  obtain ⟨hbkD, _⟩ := stack_skel_congr _ _ hskelD
  have hpps : lastf.idx < lastf.ps.length := by omega
  have hnextwf : (Node.branch (frames₂.getLastD default).ps
      ((lastf.ns.set lastf.idx
        (Node.branch (cps ++ [lastf.ps.getD lastf.idx none] ++ rps)
          (cns ++ rns))).eraseIdx (lastf.idx + 1))).wfShape = true := by
    rw [Node.wfShape_branch, Bool.and_eq_true]
    constructor
    · apply decide_eq_true
      rw [epns, List.length_append, List.length_cons, hXlen,
        List.length_eraseIdx, List.length_take, List.length_drop]
      rw [if_pos hpps]
      omega
    · rw [epns, List.all_append, List.all_cons, Bool.and_eq_true,
        Bool.and_eq_true]
      exact ⟨hptake, hcur'wf, hdrop₂⟩
  rw [hY]
  obtain ⟨hW, hC⟩ := ih frames₂.dropLast (frames₂.getLastD default).ps
    ((lastf.ns.set lastf.idx
      (Node.branch (cps ++ [lastf.ps.getD lastf.idx none] ++ rps)
        (cns ++ rns))).eraseIdx (lastf.idx + 1))
    (by rw [hokD]; exact hokI) (by rw [hbkD]; exact hbkI) hnextwf
  refine ⟨hW, ?_⟩
  rw [hC, hbaseD, framesBase_concat]
  have hcnt : (Node.branch (frames₂.getLastD default).ps
      ((lastf.ns.set lastf.idx
        (Node.branch (cps ++ [lastf.ps.getD lastf.idx none] ++ rps)
          (cns ++ rns))).eraseIdx (lastf.idx + 1))).count =
      ((lastf.ns.take lastf.idx).map Node.count).sum +
        ((Node.branch (cps ++ [lastf.ps.getD lastf.idx none] ++ rps)
          (cns ++ rns)).count +
          ((lastf.ns.drop (lastf.idx + 2)).map Node.count).sum) := by
    rw [Node.count_branch, epns, List.map_append, List.sum_append,
      List.map_cons, List.sum_cons]
  have hcur'cnt : (Node.branch (cps ++ [lastf.ps.getD lastf.idx none] ++ rps)
      (cns ++ rns)).count =
      (Node.branch cps cns).count + (Node.branch rps rns).count := by
    rw [Node.count_branch, Node.count_branch, Node.count_branch,
      List.map_append, List.sum_append]
  have hfr : frameRest lastf =
      ((lastf.ns.take lastf.idx).map Node.count).sum +
        ((Node.branch rps rns).count +
          ((lastf.ns.drop (lastf.idx + 2)).map Node.count).sum) := by
    rw [frameRest, e1, List.map_cons, List.sum_cons]
  rw [hcnt, hcur'cnt, hfr]
  omega

theorem branch_mergeL (fuel : Nat)
    (ih : ∀ (frames : List DFrame) (cps : List JKey) (cns : List Node),
      framesOkB frames = true → stackBranchKids frames = true →
      (Node.branch cps cns).wfShape = true →
      (rebalanceBranchGo fuel frames (.branch cps cns)).wfRootShape = true ∧
      (rebalanceBranchGo fuel frames (.branch cps cns)).count =
        framesBase frames + (Node.branch cps cns).count)
    (init : List DFrame) (lastf : DFrame)
    (cps : List JKey) (cns : List Node) (lps : List JKey) (lns : List Node)
    (hokI : framesOkB init = true) (hokL : frameOkB lastf = true)
    (hbkI : stackBranchKids init = true)
    (hlex : 0 < lastf.idx)
    (hlB : lastf.ns.getD (lastf.idx - 1) (.leaf []) = .branch lps lns)
    (hwf : (Node.branch cps cns).wfShape = true) :
    ∀ frames₂ : List DFrame,
      frames₂.map frameSkel =
        (init ++ [(⟨lastf.ps.eraseIdx (lastf.idx - 1),
          (lastf.ns.set (lastf.idx - 1)
            (Node.branch (lps ++ [lastf.ps.getD (lastf.idx - 1) none] ++ cps)
              (lns ++ cns))).eraseIdx lastf.idx,
          lastf.idx⟩ : DFrame)]).map frameSkel →
      (rebalanceBranchGo fuel frames₂.dropLast
        (Node.branch (frames₂.getLastD default).ps
          (frames₂.getLastD default).ns)).wfRootShape = true ∧
      (rebalanceBranchGo fuel frames₂.dropLast
        (Node.branch (frames₂.getLastD default).ps
          (frames₂.getLastD default).ns)).count =
        framesBase (init ++ [lastf]) + (Node.branch cps cns).count := by
  obtain ⟨j, hj⟩ : ∃ j, lastf.idx = j + 1 := ⟨lastf.idx - 1, by omega⟩
  rw [hj]
  simp only [Nat.add_sub_cancel]
  intro frames₂ hskel₂
  obtain ⟨hpidx, hprat, hptake, hpdrop⟩ := frameOk_parts lastf hokL
  rw [hj] at hpidx hptake hpdrop
  rw [Node.wfShape_branch, Bool.and_eq_true] at hwf
  have hrat : cns.length = cps.length + 1 := of_decide_eq_true hwf.1
  have hall := hwf.2
  rw [hj] at hlB
  simp only [Nat.add_sub_cancel] at hlB
  have hlwf : (Node.branch lps lns).wfShape = true := by
    have h := frameOk_sib_wf_left hokL hlex
    rw [hj] at h
    simp only [Nat.add_sub_cancel] at h
    rw [hlB] at h
    exact h
  rw [Node.wfShape_branch, Bool.and_eq_true] at hlwf
  have hlrat : lns.length = lps.length + 1 := of_decide_eq_true hlwf.1
  have hlall := hlwf.2
  have e1 : lastf.ns.take (j + 1) =
      lastf.ns.take j ++ [Node.branch lps lns] := by
    rw [List.take_succ,
      List.getElem?_eq_getElem (by omega : j < lastf.ns.length)]
    rw [← List.getD_eq_getElem lastf.ns (.leaf []) (by omega), hlB]
    rfl
  have htakej : (lastf.ns.take j).all Node.wfShape = true := by
    rw [e1, List.all_append, Bool.and_eq_true] at hptake
    exact hptake.1
  have hnewwf : (Node.branch (lps ++ [lastf.ps.getD j none] ++ cps)
      (lns ++ cns)).wfShape = true := by
    rw [Node.wfShape_branch, Bool.and_eq_true]
    constructor
    · apply decide_eq_true
      rw [List.length_append, List.length_append, List.length_append]
      simp only [List.length_cons, List.length_nil]
      omega
    · rw [List.all_append, Bool.and_eq_true]
      exact ⟨hlall, hall⟩
  have epns : (lastf.ns.set j
      (Node.branch (lps ++ [lastf.ps.getD j none] ++ cps)
        (lns ++ cns))).eraseIdx (j + 1) =
      lastf.ns.take j ++
        Node.branch (lps ++ [lastf.ps.getD j none] ++ cps)
          (lns ++ cns) :: lastf.ns.drop (j + 2) :=
    set_eraseIdx_succ lastf.ns j _ hpidx
  have hgl : (init ++ [(⟨lastf.ps.eraseIdx j,
      (lastf.ns.set j
        (Node.branch (lps ++ [lastf.ps.getD j none] ++ cps)
          (lns ++ cns))).eraseIdx (j + 1),
      j + 1⟩ : DFrame)]).getLastD default =
      ⟨lastf.ps.eraseIdx j,
        (lastf.ns.set j
          (Node.branch (lps ++ [lastf.ps.getD j none] ++ cps)
            (lns ++ cns))).eraseIdx (j + 1),
        j + 1⟩ := by
    rw [List.getLastD_eq_getLast?, List.getLast?_concat, Option.getD_some]
  have hskelL : frameSkel (frames₂.getLastD default) =
      frameSkel ⟨lastf.ps.eraseIdx j,
        (lastf.ns.set j
          (Node.branch (lps ++ [lastf.ps.getD j none] ++ cps)
            (lns ++ cns))).eraseIdx (j + 1),
        j + 1⟩ := by
    rw [getLastD_eq_getD, skel_getD _ _ hskel₂ (frames₂.length - 1) default,
      skel_length hskel₂, ← getLastD_eq_getD, hgl]
  have hY : (frames₂.getLastD default).ns =
      (lastf.ns.set j
        (Node.branch (lps ++ [lastf.ps.getD j none] ++ cps)
          (lns ++ cns))).eraseIdx (j + 1) :=
    congrArg Prod.fst hskelL
  have hXlen : (frames₂.getLastD default).ps.length =
      (lastf.ps.eraseIdx j).length :=
    congrArg (fun x => x.2.2) hskelL
  have hskelD : frames₂.dropLast.map frameSkel = init.map frameSkel := by
    have := skel_dropLast hskel₂
    rwa [List.dropLast_concat] at this
  obtain ⟨hbaseD, hokD⟩ := frames_skel_congr _ _ hskelD
  obtain ⟨hbkD, _⟩ := stack_skel_congr _ _ hskelD
  have hpps : j < lastf.ps.length := by omega
  have hnextwf : (Node.branch (frames₂.getLastD default).ps
      ((lastf.ns.set j
        (Node.branch (lps ++ [lastf.ps.getD j none] ++ cps)
          (lns ++ cns))).eraseIdx (j + 1))).wfShape = true := by
    rw [Node.wfShape_branch, Bool.and_eq_true]
    constructor
    · apply decide_eq_true
      rw [epns, List.length_append, List.length_cons, hXlen,
        List.length_eraseIdx, List.length_take, List.length_drop]
      rw [if_pos hpps]
      omega
    · rw [epns, List.all_append, List.all_cons, Bool.and_eq_true,
        Bool.and_eq_true]
      refine ⟨htakej, hnewwf, ?_⟩
      exact hpdrop
  rw [hY]
  obtain ⟨hW, hC⟩ := ih frames₂.dropLast (frames₂.getLastD default).ps
    ((lastf.ns.set j
      (Node.branch (lps ++ [lastf.ps.getD j none] ++ cps)
        (lns ++ cns))).eraseIdx (j + 1))
    (by rw [hokD]; exact hokI) (by rw [hbkD]; exact hbkI) hnextwf
  refine ⟨hW, ?_⟩
  rw [hC, hbaseD, framesBase_concat]
  have hcnt : (Node.branch (frames₂.getLastD default).ps
      ((lastf.ns.set j
        (Node.branch (lps ++ [lastf.ps.getD j none] ++ cps)
          (lns ++ cns))).eraseIdx (j + 1))).count =
      ((lastf.ns.take j).map Node.count).sum +
        ((Node.branch (lps ++ [lastf.ps.getD j none] ++ cps)
          (lns ++ cns)).count +
          ((lastf.ns.drop (j + 2)).map Node.count).sum) := by
    rw [Node.count_branch, epns, List.map_append, List.sum_append,
      List.map_cons, List.sum_cons]
  have hnewcnt : (Node.branch (lps ++ [lastf.ps.getD j none] ++ cps)
      (lns ++ cns)).count =
      (Node.branch lps lns).count + (Node.branch cps cns).count := by
    rw [Node.count_branch, Node.count_branch, Node.count_branch,
      List.map_append, List.sum_append]
  have hfr : frameRest lastf =
      (((lastf.ns.take j).map Node.count).sum +
        (Node.branch lps lns).count) +
        ((lastf.ns.drop (j + 2)).map Node.count).sum := by
    rw [frameRest, hj, e1, List.map_append, List.sum_append]
    simp
  rw [hcnt, hnewcnt, hfr]
  omega

theorem rebalance_root_aux (fuel : Nat) (cps : List JKey) (cns : List Node)
    (hwf : (Node.branch cps cns).wfShape = true) :
    (rebalanceBranchGo fuel [] (.branch cps cns)).wfRootShape = true ∧
    (rebalanceBranchGo fuel [] (.branch cps cns)).count =
      framesBase [] + (Node.branch cps cns).count := by
  rw [rebalanceBranchGo_nil]
  rw [Node.wfShape_branch, Bool.and_eq_true] at hwf
  have hrat : cns.length = cps.length + 1 := of_decide_eq_true hwf.1
  have hall := hwf.2
  by_cases h0 : (Node.branch cps cns).partitionsOf.length = 0
  · rw [if_pos h0]
    have hcps : cps.length = 0 := h0
    have h1 : cns.length = 1 := by omega
    obtain ⟨c, rfl⟩ := List.length_eq_one.mp h1
    have hcwf : c.wfShape = true := by
      rw [List.all_cons, Bool.and_eq_true] at hall
      exact hall.1
    refine ⟨wfShape_imp_root _ hcwf, ?_⟩
    show c.count = framesBase [] + (Node.branch cps [c]).count
    rw [Node.count_branch]
    simp [framesBase]
  · rw [if_neg h0]
    refine ⟨wfShape_imp_root _ ?_, ?_⟩
    · rw [Node.wfShape_branch, Bool.and_eq_true]
      exact ⟨decide_eq_true hrat, hall⟩
    · show (Node.branch cps cns).count = framesBase [] + (Node.branch cps cns).count
      simp [framesBase]

theorem rebalanceBranchGo_spec : ∀ (fuel : Nat) (frames : List DFrame)
    (cps : List JKey) (cns : List Node),
    framesOkB frames = true →
    stackBranchKids frames = true →
    (Node.branch cps cns).wfShape = true →
    (rebalanceBranchGo fuel frames (.branch cps cns)).wfRootShape = true ∧
    (rebalanceBranchGo fuel frames (.branch cps cns)).count =
      framesBase frames + (Node.branch cps cns).count := by
  intro fuel
  induction fuel with
  | zero =>
    intro frames cps cns hok hbk hwf
    rcases List.eq_nil_or_concat frames with rfl | ⟨init, lastf, hfr⟩
    · exact rebalance_root_aux 0 cps cns hwf
    · rw [List.concat_eq_append] at hfr
      subst hfr
      rw [rebalanceBranchGo_zero _ _ (by simp), ite_self]
      exact rebuild_root_spec _ _ hok hwf
  | succ fuel ih =>
    intro frames cps cns hok hbk hwf
    rcases List.eq_nil_or_concat frames with rfl | ⟨init, lastf, hfr⟩
    · exact rebalance_root_aux (fuel + 1) cps cns hwf
    · rw [List.concat_eq_append] at hfr
      subst hfr
      have hok' := hok
      have hbk' := hbk
      rw [framesOkB_concat, Bool.and_eq_true] at hok'
      obtain ⟨hokI, hokL⟩ := hok'
      rw [stackBranchKids_concat, Bool.and_eq_true] at hbk'
      obtain ⟨hbkI, hbkL⟩ := hbk'
      obtain ⟨hpidx, hprat, hptake, hpdrop⟩ := frameOk_parts lastf hokL
      simp only [rebalanceBranchGo_eq, Node.partitionsOf, Node.nodesOf]
      by_cases hcap : cns.length ≥ NodeCapacity <<< 1
      · rw [if_pos hcap]
        exact rebuild_root_spec _ _ hok hwf
      · rw [if_neg hcap]
        rw [if_pos hpidx]
        by_cases hrex : lastf.idx + 1 < lastf.ns.length
        · have hrsome : lastf.ns[lastf.idx + 1]? =
              some (lastf.ns.getD (lastf.idx + 1) (.leaf [])) := by
            rw [List.getElem?_eq_getElem hrex, List.getD_eq_getElem _ _ hrex]
          rw [hrsome]
          simp only [Option.getD_some, Option.isSome_some]
          obtain ⟨rps, rns, hrB⟩ := kind_branch
            (all_getD hbkL (lastf.idx + 1) (.leaf []) hrex)
          rw [hrB]
          simp only [Node.nodesOf, Node.partitionsOf]
          by_cases hg1 : rns.length > NodeCapacity >>> 1
          · rw [if_pos ⟨trivial, hg1⟩]
            obtain ⟨rn₀, rtail, rfl⟩ : ∃ a t, rns = a :: t := by
              cases rns with
              | nil => simp at hg1
              | cons a t => exact ⟨a, t, rfl⟩
            simp only [List.headD_cons, List.tail_cons, modify_concat]
            exact branch_borrowR init lastf cps cns rps rn₀ rtail hokI hokL
              hrex hrB hwf hg1
          · rw [if_neg (by intro hc; exact hg1 hc.2)]
            by_cases hlex : lastf.idx > 0
            · rw [if_pos hlex]
              have hlsome : lastf.ns[lastf.idx - 1]? =
                  some (lastf.ns.getD (lastf.idx - 1) (.leaf [])) := by
                rw [List.getElem?_eq_getElem (by omega : lastf.idx - 1 < lastf.ns.length),
                  List.getD_eq_getElem _ _ (by omega)]
              rw [hlsome]
              simp only [Option.getD_some, Option.isSome_some]
              obtain ⟨lps, lns, hlB⟩ := kind_branch
                (all_getD hbkL (lastf.idx - 1) (.leaf []) (by omega))
              rw [hlB]
              simp only [Node.nodesOf, Node.partitionsOf]
              by_cases hg2 : lns.length > NodeCapacity >>> 1
              · rw [if_pos ⟨trivial, hg2⟩]
                simp only [modify_concat]
                exact branch_borrowL init lastf cps cns lps lns hokI hokL
                  hlex hlB hwf hg2
              · rw [if_neg (by intro hc; exact hg2 hc.2)]
                by_cases hg3 : rns.length + cns.length ≤ NodeCapacity
                · rw [if_pos ⟨trivial, hg3⟩]
                  simp only [modify_concat]
                  apply branch_mergeR fuel ih init lastf cps cns rps rns hokI
                    hokL hbkI hrex hrB hwf
                  by_cases hup : lastf.idx = 0 ∧
                      (lastf.ps.eraseIdx lastf.idx).length > 0
                  · rw [if_pos hup]
                    exact updatePartition_skel _ _ _ _
                  · rw [if_neg hup]
                · rw [if_neg (by intro hc; exact hg3 hc.2)]
                  by_cases hg4 : lns.length + cns.length ≤ NodeCapacity
                  · rw [if_pos ⟨trivial, hg4⟩]
                    simp only [modify_concat]
                    exact branch_mergeL fuel ih init lastf cps cns lps lns
                      hokI hokL hbkI hlex hlB hwf _ rfl
                  · rw [if_neg (by intro hc; exact hg4 hc.2)]
                    exact rebuild_root_spec _ _ hok hwf
            · rw [if_neg hlex]
              simp only [Option.isSome_none]
              rw [if_neg (by intro hc; exact Bool.false_ne_true hc.1)]
              by_cases hg3 : rns.length + cns.length ≤ NodeCapacity
              · rw [if_pos ⟨trivial, hg3⟩]
                simp only [modify_concat]
                apply branch_mergeR fuel ih init lastf cps cns rps rns hokI
                  hokL hbkI hrex hrB hwf
                by_cases hup : lastf.idx = 0 ∧
                    (lastf.ps.eraseIdx lastf.idx).length > 0
                · rw [if_pos hup]
                  exact updatePartition_skel _ _ _ _
                · rw [if_neg hup]
              · rw [if_neg (by intro hc; exact hg3 hc.2),
                  if_neg (by intro hc; exact Bool.false_ne_true hc.1)]
                exact rebuild_root_spec _ _ hok hwf
        · have hrnone : lastf.ns[lastf.idx + 1]? = none :=
            List.getElem?_eq_none (by omega)
          rw [hrnone]
          simp only [Option.isSome_none]
          rw [if_neg (by intro hc; exact Bool.false_ne_true hc.1)]
          by_cases hlex : lastf.idx > 0
          · rw [if_pos hlex]
            have hlsome : lastf.ns[lastf.idx - 1]? =
                some (lastf.ns.getD (lastf.idx - 1) (.leaf [])) := by
              rw [List.getElem?_eq_getElem (by omega : lastf.idx - 1 < lastf.ns.length),
                List.getD_eq_getElem _ _ (by omega)]
            rw [hlsome]
            simp only [Option.getD_some, Option.isSome_some]
            obtain ⟨lps, lns, hlB⟩ := kind_branch
              (all_getD hbkL (lastf.idx - 1) (.leaf []) (by omega))
            rw [hlB]
            simp only [Node.nodesOf, Node.partitionsOf]
            by_cases hg2 : lns.length > NodeCapacity >>> 1
            · rw [if_pos ⟨trivial, hg2⟩]
              simp only [modify_concat]
              exact branch_borrowL init lastf cps cns lps lns hokI hokL
                hlex hlB hwf hg2
            · rw [if_neg (by intro hc; exact hg2 hc.2)]
              rw [if_neg (by intro hc; exact Bool.false_ne_true hc.1)]
              by_cases hg4 : lns.length + cns.length ≤ NodeCapacity
              · rw [if_pos ⟨trivial, hg4⟩]
                simp only [modify_concat]
                exact branch_mergeL fuel ih init lastf cps cns lps lns
                  hokI hokL hbkI hlex hlB hwf _ rfl
              · rw [if_neg (by intro hc; exact hg4 hc.2)]
                exact rebuild_root_spec _ _ hok hwf
          · rw [if_neg hlex]
            simp only [Option.isSome_none]
            rw [if_neg (by intro hc; exact Bool.false_ne_true hc.1),
              if_neg (by intro hc; exact Bool.false_ne_true hc.1),
              if_neg (by intro hc; exact Bool.false_ne_true hc.1)]
            exact rebuild_root_spec _ _ hok hwf

theorem leaf_borrowR (init : List DFrame) (lastf : DFrame) (leaf : List Int)
    (r₀ : Int) (rtail : List Int)
    (hokI : framesOkB init = true) (hokL : frameOkB lastf = true)
    (hrex : lastf.idx + 1 < lastf.ns.length)
    (hrB : lastf.ns.getD (lastf.idx + 1) (.leaf []) = .leaf (r₀ :: rtail))
    (hrsz : (r₀ :: rtail).length > NodeCapacity >>> 1) :
    (rebuildFrames
        (updatePartition (lastf.idx + 1)
          (init ++ [{ lastf with
            ns := lastf.ns.set (lastf.idx + 1) (Node.leaf rtail) }])
          ((init ++ [lastf]).length - 1) rtail.head?)
        (.leaf (leaf ++ [r₀]))).wfRootShape = true ∧
    (rebuildFrames
        (updatePartition (lastf.idx + 1)
          (init ++ [{ lastf with
            ns := lastf.ns.set (lastf.idx + 1) (Node.leaf rtail) }])
          ((init ++ [lastf]).length - 1) rtail.head?)
        (.leaf (leaf ++ [r₀]))).count =
      framesBase (init ++ [lastf]) + leaf.length := by
  obtain ⟨hpidx, hprat, hptake, hpdrop⟩ := frameOk_parts lastf hokL
  have hcap32 : NodeCapacity >>> 1 = 32 := rfl
  rw [hcap32] at hrsz
  simp only [List.length_cons] at hrsz
  have e1 : lastf.ns.drop (lastf.idx + 1) =
      Node.leaf (r₀ :: rtail) :: lastf.ns.drop (lastf.idx + 2) := by
    rw [← hrB]
    exact drop_part_head lastf.ns (lastf.idx + 1) (.leaf []) hrex
  have e3 : (lastf.ns.set (lastf.idx + 1) (Node.leaf rtail)).take
      lastf.idx = lastf.ns.take lastf.idx := by
    rw [List.set_take]
    exact List.set_eq_of_length_le
      (by rw [List.length_take]; exact le_trans (Nat.min_le_left _ _) (Nat.le_succ _))
  have e2 : (lastf.ns.set (lastf.idx + 1) (Node.leaf rtail)).drop
      (lastf.idx + 1) = Node.leaf rtail :: lastf.ns.drop (lastf.idx + 2) := by
    rw [List.drop_set, if_neg (by omega), Nat.sub_self, e1, List.set_cons_zero]
  have hdrop₂ : (lastf.ns.drop (lastf.idx + 2)).all Node.wfShape = true := by
    rw [e1, List.all_cons, Bool.and_eq_true] at hpdrop
    exact hpdrop.2
  have hrs'wf : (Node.leaf rtail).wfShape = true := by
    rw [Node.wfShape_leaf, Bool.not_eq_true', List.isEmpty_eq_false]
    exact List.ne_nil_of_length_pos (by omega)
  have hoklf' : frameOkB { lastf with
      ns := lastf.ns.set (lastf.idx + 1) (Node.leaf rtail) } = true := by
    rw [frameOkB]
    simp only [Bool.and_eq_true]
    refine ⟨⟨⟨decide_eq_true ?_, decide_eq_true ?_⟩, ?_⟩, ?_⟩
    · show lastf.idx < (lastf.ns.set (lastf.idx + 1) (Node.leaf rtail)).length
      rw [List.length_set]
      omega
    · show (lastf.ns.set (lastf.idx + 1) (Node.leaf rtail)).length =
        lastf.ps.length + 1
      rw [List.length_set]
      omega
    · show ((lastf.ns.set (lastf.idx + 1) (Node.leaf rtail)).take
        lastf.idx).all Node.wfShape = true
      rw [e3]
      exact hptake
    · show ((lastf.ns.set (lastf.idx + 1) (Node.leaf rtail)).drop
        (lastf.idx + 1)).all Node.wfShape = true
      rw [e2, List.all_cons, Bool.and_eq_true]
      exact ⟨hrs'wf, hdrop₂⟩
  have hokF1 : framesOkB (init ++ [{ lastf with
      ns := lastf.ns.set (lastf.idx + 1) (Node.leaf rtail) }]) = true := by
    rw [framesOkB_concat, Bool.and_eq_true]
    exact ⟨hokI, hoklf'⟩
  obtain ⟨hbase2, hok2⟩ := frames_skel_congr _ _
    (updatePartition_skel ((init ++ [lastf]).length - 1) (lastf.idx + 1)
      (init ++ [{ lastf with
        ns := lastf.ns.set (lastf.idx + 1) (Node.leaf rtail) }])
      rtail.head?)
  have hlwf : (Node.leaf (leaf ++ [r₀])).wfShape = true := by
    rw [Node.wfShape_leaf, Bool.not_eq_true', List.isEmpty_eq_false]
    intro hc
    have := congrArg List.length hc
    simp at this
  obtain ⟨hW, hC⟩ := rebuild_root_spec _ _ (by rw [hok2]; exact hokF1) hlwf
  refine ⟨hW, ?_⟩
  rw [hC, hbase2, framesBase_concat, framesBase_concat]
  have hfr' : frameRest { lastf with
      ns := lastf.ns.set (lastf.idx + 1) (Node.leaf rtail) } =
      ((lastf.ns.take lastf.idx).map Node.count).sum +
        ((Node.leaf rtail).count +
          ((lastf.ns.drop (lastf.idx + 2)).map Node.count).sum) := by
    show (((lastf.ns.set (lastf.idx + 1) (Node.leaf rtail)).take
        lastf.idx).map Node.count).sum +
      (((lastf.ns.set (lastf.idx + 1) (Node.leaf rtail)).drop
        (lastf.idx + 1)).map Node.count).sum = _
    rw [e3, e2, List.map_cons, List.sum_cons]
  have hfr : frameRest lastf =
      ((lastf.ns.take lastf.idx).map Node.count).sum +
        ((Node.leaf (r₀ :: rtail)).count +
          ((lastf.ns.drop (lastf.idx + 2)).map Node.count).sum) := by
    rw [frameRest, e1, List.map_cons, List.sum_cons]
  rw [hfr', hfr, Node.count_leaf, Node.count_leaf, Node.count_leaf]
  rw [List.length_append]
  simp only [List.length_cons, List.length_nil]
  omega

theorem leaf_borrowL (init : List DFrame) (lastf : DFrame) (leaf : List Int)
    (les : List Int)
    (hokI : framesOkB init = true) (hokL : frameOkB lastf = true)
    (hlex : 0 < lastf.idx)
    (hlB : lastf.ns.getD (lastf.idx - 1) (.leaf []) = .leaf les)
    (hlsz : les.length > NodeCapacity >>> 1) :
    (rebuildFrames
        (updatePartition lastf.idx
          (init ++ [{ lastf with
            ns := lastf.ns.set (lastf.idx - 1) (Node.leaf les.dropLast) }])
          ((init ++ [lastf]).length - 1) (some (les.getLastD 0)))
        (.leaf (les.getLastD 0 :: leaf))).wfRootShape = true ∧
    (rebuildFrames
        (updatePartition lastf.idx
          (init ++ [{ lastf with
            ns := lastf.ns.set (lastf.idx - 1) (Node.leaf les.dropLast) }])
          ((init ++ [lastf]).length - 1) (some (les.getLastD 0)))
        (.leaf (les.getLastD 0 :: leaf))).count =
      framesBase (init ++ [lastf]) + leaf.length := by
  obtain ⟨hpidx, hprat, hptake, hpdrop⟩ := frameOk_parts lastf hokL
  have hcap32 : NodeCapacity >>> 1 = 32 := rfl
  rw [hcap32] at hlsz
  have hlne : les ≠ [] := List.ne_nil_of_length_pos (by omega)
  have e1 : lastf.ns.take lastf.idx =
      lastf.ns.take (lastf.idx - 1) ++ [Node.leaf les] := by
    have h1 : lastf.idx = (lastf.idx - 1) + 1 := by omega
    conv_lhs => rw [h1, List.take_succ]
    rw [List.getElem?_eq_getElem (by omega : lastf.idx - 1 < lastf.ns.length)]
    rw [← List.getD_eq_getElem lastf.ns (.leaf []) (by omega), hlB]
    rfl
  have e2 : (lastf.ns.set (lastf.idx - 1) (Node.leaf les.dropLast)).take
      lastf.idx =
      lastf.ns.take (lastf.idx - 1) ++ [Node.leaf les.dropLast] := by
    rw [List.set_take, e1, List.set_append_right _ _
      (by rw [List.length_take]; exact Nat.min_le_left _ _)]
    have h2 : lastf.idx - 1 - (lastf.ns.take (lastf.idx - 1)).length = 0 := by
      rw [List.length_take]
      omega
    rw [h2, List.set_cons_zero]
  have e3 : (lastf.ns.set (lastf.idx - 1) (Node.leaf les.dropLast)).drop
      (lastf.idx + 1) = lastf.ns.drop (lastf.idx + 1) := by
    rw [List.drop_set, if_pos (by omega)]
  have hls'wf : (Node.leaf les.dropLast).wfShape = true := by
    rw [Node.wfShape_leaf, Bool.not_eq_true', List.isEmpty_eq_false]
    apply List.ne_nil_of_length_pos
    rw [List.length_dropLast]
    omega
  have hoklf' : frameOkB { lastf with
      ns := lastf.ns.set (lastf.idx - 1) (Node.leaf les.dropLast) } = true := by
    rw [frameOkB]
    simp only [Bool.and_eq_true]
    refine ⟨⟨⟨decide_eq_true ?_, decide_eq_true ?_⟩, ?_⟩, ?_⟩
    · show lastf.idx < (lastf.ns.set (lastf.idx - 1)
        (Node.leaf les.dropLast)).length
      rw [List.length_set]
      omega
    · show (lastf.ns.set (lastf.idx - 1) (Node.leaf les.dropLast)).length =
        lastf.ps.length + 1
      rw [List.length_set]
      omega
    · show ((lastf.ns.set (lastf.idx - 1) (Node.leaf les.dropLast)).take
        lastf.idx).all Node.wfShape = true
      rw [e2, List.all_append, Bool.and_eq_true]
      constructor
      · rw [e1, List.all_append, Bool.and_eq_true] at hptake
        exact hptake.1
      · simp [hls'wf]
    · show ((lastf.ns.set (lastf.idx - 1) (Node.leaf les.dropLast)).drop
        (lastf.idx + 1)).all Node.wfShape = true
      rw [e3]
      exact hpdrop
  have hokF1 : framesOkB (init ++ [{ lastf with
      ns := lastf.ns.set (lastf.idx - 1) (Node.leaf les.dropLast) }]) = true := by
    rw [framesOkB_concat, Bool.and_eq_true]
    exact ⟨hokI, hoklf'⟩
  obtain ⟨hbase2, hok2⟩ := frames_skel_congr _ _
    (updatePartition_skel ((init ++ [lastf]).length - 1) lastf.idx
      (init ++ [{ lastf with
        ns := lastf.ns.set (lastf.idx - 1) (Node.leaf les.dropLast) }])
      (some (les.getLastD 0)))
  have hlwf : (Node.leaf (les.getLastD 0 :: leaf)).wfShape = true := by
    rw [Node.wfShape_leaf, Bool.not_eq_true', List.isEmpty_eq_false]
    exact List.cons_ne_nil _ _
  obtain ⟨hW, hC⟩ := rebuild_root_spec _ _ (by rw [hok2]; exact hokF1) hlwf
  refine ⟨hW, ?_⟩
  rw [hC, hbase2, framesBase_concat, framesBase_concat]
  have hfr' : frameRest { lastf with
      ns := lastf.ns.set (lastf.idx - 1) (Node.leaf les.dropLast) } =
      (((lastf.ns.take (lastf.idx - 1)).map Node.count).sum +
        (Node.leaf les.dropLast).count) +
        ((lastf.ns.drop (lastf.idx + 1)).map Node.count).sum := by
    show (((lastf.ns.set (lastf.idx - 1) (Node.leaf les.dropLast)).take
        lastf.idx).map Node.count).sum +
      (((lastf.ns.set (lastf.idx - 1) (Node.leaf les.dropLast)).drop
        (lastf.idx + 1)).map Node.count).sum = _
    rw [e2, e3, List.map_append, List.sum_append]
    simp
  have hfr : frameRest lastf =
      (((lastf.ns.take (lastf.idx - 1)).map Node.count).sum +
        (Node.leaf les).count) +
        ((lastf.ns.drop (lastf.idx + 1)).map Node.count).sum := by
    rw [frameRest, e1, List.map_append, List.sum_append]
    simp
  rw [hfr', hfr, Node.count_leaf, Node.count_leaf, Node.count_leaf]
  rw [List.length_dropLast]
  simp only [List.length_cons]
  omega

theorem leaf_mergeR (init : List DFrame) (lastf : DFrame) (leaf : List Int)
    (res : List Int)
    (hokI : framesOkB init = true) (hokL : frameOkB lastf = true)
    (hbkI : stackBranchKids init = true)
    (hrex : lastf.idx + 1 < lastf.ns.length)
    (hrB : lastf.ns.getD (lastf.idx + 1) (.leaf []) = .leaf res) :
    ∀ frames₂ : List DFrame,
      frames₂.map frameSkel =
        (init ++ [(⟨lastf.ps.eraseIdx lastf.idx,
          (lastf.ns.set lastf.idx
            (Node.leaf (leaf ++ res))).eraseIdx (lastf.idx + 1),
          lastf.idx⟩ : DFrame)]).map frameSkel →
      (rebalanceBranch frames₂.dropLast
        (Node.branch (frames₂.getLastD default).ps
          (frames₂.getLastD default).ns)).wfRootShape = true ∧
      (rebalanceBranch frames₂.dropLast
        (Node.branch (frames₂.getLastD default).ps
          (frames₂.getLastD default).ns)).count =
        framesBase (init ++ [lastf]) + leaf.length := by
  intro frames₂ hskel₂
  obtain ⟨hpidx, hprat, hptake, hpdrop⟩ := frameOk_parts lastf hokL
  have hrwf : (Node.leaf res).wfShape = true := by
    have := frameOk_sib_wf_right hokL hrex
    rwa [hrB] at this
  rw [Node.wfShape_leaf, Bool.not_eq_true', List.isEmpty_eq_false] at hrwf
  have e1 : lastf.ns.drop (lastf.idx + 1) =
      Node.leaf res :: lastf.ns.drop (lastf.idx + 2) := by
    rw [← hrB]
    exact drop_part_head lastf.ns (lastf.idx + 1) (.leaf []) hrex
  have hdrop₂ : (lastf.ns.drop (lastf.idx + 2)).all Node.wfShape = true := by
    rw [e1, List.all_cons, Bool.and_eq_true] at hpdrop
    exact hpdrop.2
  have hnewwf : (Node.leaf (leaf ++ res)).wfShape = true := by
    rw [Node.wfShape_leaf, Bool.not_eq_true', List.isEmpty_eq_false]
    intro hc
    exact hrwf (List.append_eq_nil.mp hc).2
  have epns : (lastf.ns.set lastf.idx
      (Node.leaf (leaf ++ res))).eraseIdx (lastf.idx + 1) =
      lastf.ns.take lastf.idx ++
        Node.leaf (leaf ++ res) :: lastf.ns.drop (lastf.idx + 2) :=
    set_eraseIdx_succ lastf.ns lastf.idx _ hrex
  have hgl : (init ++ [(⟨lastf.ps.eraseIdx lastf.idx,
      (lastf.ns.set lastf.idx
        (Node.leaf (leaf ++ res))).eraseIdx (lastf.idx + 1),
      lastf.idx⟩ : DFrame)]).getLastD default =
      ⟨lastf.ps.eraseIdx lastf.idx,
        (lastf.ns.set lastf.idx
          (Node.leaf (leaf ++ res))).eraseIdx (lastf.idx + 1),
        lastf.idx⟩ := by
    rw [List.getLastD_eq_getLast?, List.getLast?_concat, Option.getD_some]
  have hskelL : frameSkel (frames₂.getLastD default) =
      frameSkel ⟨lastf.ps.eraseIdx lastf.idx,
        (lastf.ns.set lastf.idx
          (Node.leaf (leaf ++ res))).eraseIdx (lastf.idx + 1),
        lastf.idx⟩ := by
    rw [getLastD_eq_getD, skel_getD _ _ hskel₂ (frames₂.length - 1) default,
      skel_length hskel₂, ← getLastD_eq_getD, hgl]
  have hY : (frames₂.getLastD default).ns =
      (lastf.ns.set lastf.idx
        (Node.leaf (leaf ++ res))).eraseIdx (lastf.idx + 1) :=
    congrArg Prod.fst hskelL
  have hXlen : (frames₂.getLastD default).ps.length =
      (lastf.ps.eraseIdx lastf.idx).length :=
    congrArg (fun x => x.2.2) hskelL
  have hskelD : frames₂.dropLast.map frameSkel = init.map frameSkel := by
    have := skel_dropLast hskel₂
    rwa [List.dropLast_concat] at this
  obtain ⟨hbaseD, hokD⟩ := frames_skel_congr _ _ hskelD
  obtain ⟨hbkD, _⟩ := stack_skel_congr _ _ hskelD
  have hpps : lastf.idx < lastf.ps.length := by omega
  have hnextwf : (Node.branch (frames₂.getLastD default).ps
      ((lastf.ns.set lastf.idx
        (Node.leaf (leaf ++ res))).eraseIdx (lastf.idx + 1))).wfShape = true := by
    rw [Node.wfShape_branch, Bool.and_eq_true]
    constructor
    · apply decide_eq_true
      rw [epns, List.length_append, List.length_cons, hXlen,
        List.length_eraseIdx, List.length_take, List.length_drop]
      rw [if_pos hpps]
      omega
    · rw [epns, List.all_append, List.all_cons, Bool.and_eq_true,
        Bool.and_eq_true]
      exact ⟨hptake, hnewwf, hdrop₂⟩
  rw [hY, rebalanceBranch]
  obtain ⟨hW, hC⟩ := rebalanceBranchGo_spec frames₂.dropLast.length
    frames₂.dropLast (frames₂.getLastD default).ps
    ((lastf.ns.set lastf.idx
      (Node.leaf (leaf ++ res))).eraseIdx (lastf.idx + 1))
    (by rw [hokD]; exact hokI) (by rw [hbkD]; exact hbkI) hnextwf
  refine ⟨hW, ?_⟩
  rw [hC, hbaseD, framesBase_concat]
  have hcnt : (Node.branch (frames₂.getLastD default).ps
      ((lastf.ns.set lastf.idx
        (Node.leaf (leaf ++ res))).eraseIdx (lastf.idx + 1))).count =
      ((lastf.ns.take lastf.idx).map Node.count).sum +
        ((Node.leaf (leaf ++ res)).count +
          ((lastf.ns.drop (lastf.idx + 2)).map Node.count).sum) := by
    rw [Node.count_branch, epns, List.map_append, List.sum_append,
      List.map_cons, List.sum_cons]
  have hfr : frameRest lastf =
      ((lastf.ns.take lastf.idx).map Node.count).sum +
        ((Node.leaf res).count +
          ((lastf.ns.drop (lastf.idx + 2)).map Node.count).sum) := by
    rw [frameRest, e1, List.map_cons, List.sum_cons]
  rw [hcnt, hfr, Node.count_leaf, Node.count_leaf, List.length_append]
  omega

theorem leaf_mergeL (init : List DFrame) (lastf : DFrame) (leaf : List Int)
    (les : List Int)
    (hokI : framesOkB init = true) (hokL : frameOkB lastf = true)
    (hbkI : stackBranchKids init = true)
    (hlex : 0 < lastf.idx)
    (hlB : lastf.ns.getD (lastf.idx - 1) (.leaf []) = .leaf les) :
    ∀ frames₂ : List DFrame,
      frames₂.map frameSkel =
        (init ++ [(⟨lastf.ps.eraseIdx (lastf.idx - 1),
          (lastf.ns.set (lastf.idx - 1)
            (Node.leaf (les ++ leaf))).eraseIdx lastf.idx,
          lastf.idx⟩ : DFrame)]).map frameSkel →
      (rebalanceBranch frames₂.dropLast
        (Node.branch (frames₂.getLastD default).ps
          (frames₂.getLastD default).ns)).wfRootShape = true ∧
      (rebalanceBranch frames₂.dropLast
        (Node.branch (frames₂.getLastD default).ps
          (frames₂.getLastD default).ns)).count =
        framesBase (init ++ [lastf]) + leaf.length := by
  obtain ⟨j, hj⟩ : ∃ j, lastf.idx = j + 1 := ⟨lastf.idx - 1, by omega⟩
  rw [hj]
  simp only [Nat.add_sub_cancel]
  intro frames₂ hskel₂
  obtain ⟨hpidx, hprat, hptake, hpdrop⟩ := frameOk_parts lastf hokL
  rw [hj] at hpidx hptake hpdrop
  rw [hj] at hlB
  simp only [Nat.add_sub_cancel] at hlB
  have hlwf : (Node.leaf les).wfShape = true := by
    have h := frameOk_sib_wf_left hokL hlex
    rw [hj] at h
    simp only [Nat.add_sub_cancel] at h
    rw [hlB] at h
    exact h
  rw [Node.wfShape_leaf, Bool.not_eq_true', List.isEmpty_eq_false] at hlwf
  have e1 : lastf.ns.take (j + 1) =
      lastf.ns.take j ++ [Node.leaf les] := by
    rw [List.take_succ,
      List.getElem?_eq_getElem (by omega : j < lastf.ns.length)]
    rw [← List.getD_eq_getElem lastf.ns (.leaf []) (by omega), hlB]
    rfl
  have htakej : (lastf.ns.take j).all Node.wfShape = true := by
    rw [e1, List.all_append, Bool.and_eq_true] at hptake
    exact hptake.1
  have hnewwf : (Node.leaf (les ++ leaf)).wfShape = true := by
    rw [Node.wfShape_leaf, Bool.not_eq_true', List.isEmpty_eq_false]
    intro hc
    exact hlwf (List.append_eq_nil.mp hc).1
  have epns : (lastf.ns.set j
      (Node.leaf (les ++ leaf))).eraseIdx (j + 1) =
      lastf.ns.take j ++
        Node.leaf (les ++ leaf) :: lastf.ns.drop (j + 2) :=
    set_eraseIdx_succ lastf.ns j _ hpidx
  have hgl : (init ++ [(⟨lastf.ps.eraseIdx j,
      (lastf.ns.set j
        (Node.leaf (les ++ leaf))).eraseIdx (j + 1),
      j + 1⟩ : DFrame)]).getLastD default =
      ⟨lastf.ps.eraseIdx j,
        (lastf.ns.set j
          (Node.leaf (les ++ leaf))).eraseIdx (j + 1),
        j + 1⟩ := by
    rw [List.getLastD_eq_getLast?, List.getLast?_concat, Option.getD_some]
  have hskelL : frameSkel (frames₂.getLastD default) =
      frameSkel ⟨lastf.ps.eraseIdx j,
        (lastf.ns.set j
          (Node.leaf (les ++ leaf))).eraseIdx (j + 1),
        j + 1⟩ := by
    rw [getLastD_eq_getD, skel_getD _ _ hskel₂ (frames₂.length - 1) default,
      skel_length hskel₂, ← getLastD_eq_getD, hgl]
  have hY : (frames₂.getLastD default).ns =
      (lastf.ns.set j
        (Node.leaf (les ++ leaf))).eraseIdx (j + 1) :=
    congrArg Prod.fst hskelL
  have hXlen : (frames₂.getLastD default).ps.length =
      (lastf.ps.eraseIdx j).length :=
    congrArg (fun x => x.2.2) hskelL
  have hskelD : frames₂.dropLast.map frameSkel = init.map frameSkel := by
    have := skel_dropLast hskel₂
    rwa [List.dropLast_concat] at this
  obtain ⟨hbaseD, hokD⟩ := frames_skel_congr _ _ hskelD
  obtain ⟨hbkD, _⟩ := stack_skel_congr _ _ hskelD
  have hpps : j < lastf.ps.length := by omega
  have hnextwf : (Node.branch (frames₂.getLastD default).ps
      ((lastf.ns.set j
        (Node.leaf (les ++ leaf))).eraseIdx (j + 1))).wfShape = true := by
    rw [Node.wfShape_branch, Bool.and_eq_true]
    constructor
    · apply decide_eq_true
      rw [epns, List.length_append, List.length_cons, hXlen,
        List.length_eraseIdx, List.length_take, List.length_drop]
      rw [if_pos hpps]
      omega
    · rw [epns, List.all_append, List.all_cons, Bool.and_eq_true,
        Bool.and_eq_true]
      exact ⟨htakej, hnewwf, hpdrop⟩
  rw [hY, rebalanceBranch]
  obtain ⟨hW, hC⟩ := rebalanceBranchGo_spec frames₂.dropLast.length
    frames₂.dropLast (frames₂.getLastD default).ps
    ((lastf.ns.set j
      (Node.leaf (les ++ leaf))).eraseIdx (j + 1))
    (by rw [hokD]; exact hokI) (by rw [hbkD]; exact hbkI) hnextwf
  refine ⟨hW, ?_⟩
  rw [hC, hbaseD, framesBase_concat]
  have hcnt : (Node.branch (frames₂.getLastD default).ps
      ((lastf.ns.set j
        (Node.leaf (les ++ leaf))).eraseIdx (j + 1))).count =
      ((lastf.ns.take j).map Node.count).sum +
        ((Node.leaf (les ++ leaf)).count +
          ((lastf.ns.drop (j + 2)).map Node.count).sum) := by
    rw [Node.count_branch, epns, List.map_append, List.sum_append,
      List.map_cons, List.sum_cons]
  have hfr : frameRest lastf =
      (((lastf.ns.take j).map Node.count).sum +
        (Node.leaf les).count) +
        ((lastf.ns.drop (j + 2)).map Node.count).sum := by
    rw [frameRest, hj, e1, List.map_append, List.sum_append]
    simp
  rw [hcnt, hfr, Node.count_leaf, Node.count_leaf, List.length_append]
  omega

theorem rebalanceLeaf_spec (init : List DFrame) (lastf : DFrame) (leaf : List Int)
    (hok : framesOkB (init ++ [lastf]) = true)
    (hbkI : stackBranchKids init = true)
    (hlk : lastf.ns.all Node.isLeafB = true)
    (hpp : 1 ≤ lastf.ps.length) :
    (rebalanceLeaf (init ++ [lastf]) leaf).wfRootShape = true ∧
    (rebalanceLeaf (init ++ [lastf]) leaf).count =
      framesBase (init ++ [lastf]) + leaf.length := by
  have hok' := hok
  rw [framesOkB_concat, Bool.and_eq_true] at hok'
  obtain ⟨hokI, hokL⟩ := hok'
  obtain ⟨hpidx, hprat, hptake, hpdrop⟩ := frameOk_parts lastf hokL
  have h64 : NodeCapacity = 64 := rfl
  have h32 : NodeCapacity >>> 1 = 32 := rfl
  simp only [rebalanceLeaf_eq]
  by_cases hbig : leaf.length ≥ NodeCapacity >>> 1
  · rw [if_pos (Or.inr hbig)]
    rw [h32] at hbig
    obtain ⟨hW, hC⟩ := rebuild_root_spec (init ++ [lastf]) (.leaf leaf) hok
      (by rw [Node.wfShape_leaf, Bool.not_eq_true', List.isEmpty_eq_false]
          exact List.ne_nil_of_length_pos (by omega))
    exact ⟨hW, by rw [hC, Node.count_leaf]⟩
  · rw [if_neg (by
      intro hc
      rcases hc with h | h
      · simp at h
      · exact hbig h)]
    rw [if_pos hpidx]
    by_cases hrex : lastf.idx + 1 < lastf.ns.length
    · have hrsome : lastf.ns[lastf.idx + 1]? =
          some (lastf.ns.getD (lastf.idx + 1) (.leaf [])) := by
        rw [List.getElem?_eq_getElem hrex, List.getD_eq_getElem _ _ hrex]
      rw [hrsome]
      simp only [Option.getD_some, Option.isSome_some]
      obtain ⟨res, hrB⟩ := kind_leaf
        (all_getD hlk (lastf.idx + 1) (.leaf []) hrex)
      rw [hrB]
      simp only [Node.entriesOf]
      by_cases hg1 : res.length > NodeCapacity >>> 1
      · rw [if_pos ⟨trivial, hg1⟩]
        obtain ⟨r₀, rtail, rfl⟩ : ∃ a t, res = a :: t := by
          cases res with
          | nil => rw [h32] at hg1; simp at hg1
          | cons a t => exact ⟨a, t, rfl⟩
        simp only [List.headD_cons, List.tail_cons, modify_concat]
        exact leaf_borrowR init lastf leaf r₀ rtail hokI hokL hrex hrB hg1
      · rw [if_neg (by intro hc; exact hg1 hc.2)]
        by_cases hlex : lastf.idx > 0
        · rw [if_pos hlex]
          have hlsome : lastf.ns[lastf.idx - 1]? =
              some (lastf.ns.getD (lastf.idx - 1) (.leaf [])) := by
            rw [List.getElem?_eq_getElem (by omega : lastf.idx - 1 < lastf.ns.length),
              List.getD_eq_getElem _ _ (by omega)]
          rw [hlsome]
          simp only [Option.getD_some, Option.isSome_some]
          obtain ⟨les, hlB⟩ := kind_leaf
            (all_getD hlk (lastf.idx - 1) (.leaf []) (by omega))
          rw [hlB]
          simp only [Node.entriesOf]
          by_cases hg2 : les.length > NodeCapacity >>> 1
          · rw [if_pos ⟨trivial, hg2⟩]
            simp only [modify_concat]
            exact leaf_borrowL init lastf leaf les hokI hokL hlex hlB hg2
          · rw [if_neg (by intro hc; exact hg2 hc.2)]
            by_cases hg3 : res.length + leaf.length ≤ NodeCapacity
            · rw [if_pos ⟨trivial, hg3⟩]
              simp only [modify_concat]
              apply leaf_mergeR init lastf leaf res hokI hokL hbkI hrex hrB
              by_cases hup : lastf.idx = 0
              · rw [if_pos hup]
                exact updatePartition_skel _ _ _ _
              · rw [if_neg hup]
            · exfalso
              rw [h32] at hg1 hbig
              rw [h64] at hg3
              omega
        · rw [if_neg hlex]
          simp only [Option.isSome_none]
          rw [if_neg (by intro hc; exact Bool.false_ne_true hc.1)]
          by_cases hg3 : res.length + leaf.length ≤ NodeCapacity
          · rw [if_pos ⟨trivial, hg3⟩]
            simp only [modify_concat]
            apply leaf_mergeR init lastf leaf res hokI hokL hbkI hrex hrB
            by_cases hup : lastf.idx = 0
            · rw [if_pos hup]
              exact updatePartition_skel _ _ _ _
            · rw [if_neg hup]
          · exfalso
            rw [h32] at hg1 hbig
            rw [h64] at hg3
            omega
    · have hrnone : lastf.ns[lastf.idx + 1]? = none :=
        List.getElem?_eq_none (by omega)
      rw [hrnone]
      simp only [Option.isSome_none]
      rw [if_neg (by intro hc; exact Bool.false_ne_true hc.1)]
      have hlex : lastf.idx > 0 := by omega
      rw [if_pos hlex]
      have hlsome : lastf.ns[lastf.idx - 1]? =
          some (lastf.ns.getD (lastf.idx - 1) (.leaf [])) := by
        rw [List.getElem?_eq_getElem (by omega : lastf.idx - 1 < lastf.ns.length),
          List.getD_eq_getElem _ _ (by omega)]
      rw [hlsome]
      simp only [Option.getD_some, Option.isSome_some]
      obtain ⟨les, hlB⟩ := kind_leaf
        (all_getD hlk (lastf.idx - 1) (.leaf []) (by omega))
      rw [hlB]
      simp only [Node.entriesOf]
      by_cases hg2 : les.length > NodeCapacity >>> 1
      · rw [if_pos ⟨trivial, hg2⟩]
        simp only [modify_concat]
        exact leaf_borrowL init lastf leaf les hokI hokL hlex hlB hg2
      · rw [if_neg (by intro hc; exact hg2 hc.2)]
        rw [if_neg (by intro hc; exact Bool.false_ne_true hc.1)]
        by_cases hg4 : les.length + leaf.length ≤ NodeCapacity
        · rw [if_pos ⟨trivial, hg4⟩]
          simp only [modify_concat]
          exact leaf_mergeL init lastf leaf les hokI hokL hbkI hlex hlB _ rfl
        · exfalso
          rw [h32] at hg2 hbig
          rw [h64] at hg4
          omega

theorem validOn_leaf : ∀ (is : List Nat) (n : Node) (li : Nat),
    validOnB n is li = true → ∃ es, n.alongD is = .leaf es := by
  intro is
  induction is with
  | nil =>
    intro n li h
    cases n with
    | leaf es => exact ⟨es, rfl⟩
    | branch ps ns => simp [validOnB] at h
  | cons j is ih =>
    intro n li h
    cases n with
    | leaf es => simp [validOnB] at h
    | branch ps ns =>
      rw [validOnB_branch, Bool.and_eq_true] at h
      exact ih (ns.getD j (.leaf [])) li h.2

theorem internalDelete_spec (t : BTreeT) (p : PathIdx)
    (hs : t.root.wfRootShape = true)
    (hb2 : branch2B t.root = true)
    (hhomo : homoB t.root = true)
    (hon : p.isOn = true)
    (hv : validOnB t.root p.branches p.leafIndex = true) :
    (t.internalDelete p).1 = true ∧
    (t.internalDelete p).2.wfRootShape = true ∧
    (t.internalDelete p).2.count + 1 = t.root.count := by
  obtain ⟨es, hleaf⟩ := validOn_leaf p.branches t.root p.leafIndex hv
  have hli : p.leafIndex < es.length := by
    have h := validOnB_lt p.branches t.root p.leafIndex hv
    rwa [Node.leafAt, hleaf, Node.entriesOf] at h
  have hvt := validOnB_to p.branches t.root p.leafIndex hv
  have hleafAt : t.root.leafAt p.branches = es := by
    rw [Node.leafAt, hleaf, Node.entriesOf]
  simp only [BTreeT.internalDelete]
  rw [if_pos hon, hleafAt]
  by_cases h0 : p.branches.length = 0
  · rw [if_pos h0]
    have hbn : p.branches = [] := by
      cases hpb : p.branches with
      | nil => rfl
      | cons a l => rw [hpb] at h0; simp at h0
    rw [hbn, Node.alongD] at hleaf
    refine ⟨rfl, rfl, ?_⟩
    show (Node.leaf (es.eraseIdx p.leafIndex)).count + 1 = t.root.count
    rw [Node.count_leaf, hleaf, Node.count_leaf, List.length_eraseIdx,
      if_pos hli]
    omega
  · rw [if_neg h0]
    have hbne : p.branches ≠ [] := by
      intro hc
      rw [hc] at h0
      exact h0 rfl
    obtain ⟨hokF, hcntF, _⟩ := dframesOf_spec p.branches t.root hs hvt
    obtain ⟨hppF, _⟩ := dframesOf_ps_pos p.branches t.root hb2 hvt
    obtain ⟨init, lastf, hdf, hbkI, hlk⟩ :=
      dframesOf_kinds p.branches t.root hhomo hvt (by rw [hleaf]; rfl) hbne
    obtain ⟨F1, hF1⟩ : ∃ F1, (if p.leafIndex = 0 then
        updatePartition ((dframesOf t.root p.branches).getLastD default).idx
          (dframesOf t.root p.branches)
          ((dframesOf t.root p.branches).length - 1)
          (es.eraseIdx p.leafIndex)[p.leafIndex]?
      else dframesOf t.root p.branches) = F1 := ⟨_, rfl⟩
    rw [hF1]
    have hskel₁ : F1.map frameSkel = (init ++ [lastf]).map frameSkel := by
      rw [← hF1, ← hdf]
      by_cases hz : p.leafIndex = 0
      · rw [if_pos hz]
        exact updatePartition_skel _ _ _ _
      · rw [if_neg hz]
    have hF1ne : F1 ≠ [] := by
      intro hc
      rw [hc] at hskel₁
      simp at hskel₁
    obtain ⟨init₁, lastf₁, hF1c⟩ : ∃ a b, F1 = a ++ [b] := by
      rcases List.eq_nil_or_concat F1 with hc | ⟨a, b, hc⟩
      · exact absurd hc hF1ne
      · exact ⟨a, b, by rw [hc, List.concat_eq_append]⟩
    subst hF1c
    rw [hdf] at hokF hcntF hppF
    have hok₁ : framesOkB (init₁ ++ [lastf₁]) = true := by
      rw [(frames_skel_congr _ _ hskel₁).2]
      exact hokF
    have hskelD : init₁.map frameSkel = init.map frameSkel := by
      have h := skel_dropLast hskel₁
      rwa [List.dropLast_concat, List.dropLast_concat] at h
    have hbkI₁ : stackBranchKids init₁ = true := by
      rw [(stack_skel_congr _ _ hskelD).1]
      exact hbkI
    have hskelL : frameSkel lastf₁ = frameSkel lastf := by
      have h := skel_getD _ _ hskel₁ ((init₁ ++ [lastf₁]).length - 1) default
      rw [← getLastD_eq_getD] at h
      rw [skel_length hskel₁, ← getLastD_eq_getD] at h
      rwa [List.getLastD_eq_getLast?, List.getLast?_concat, Option.getD_some,
        List.getLastD_eq_getLast?, List.getLast?_concat, Option.getD_some] at h
    have hlk₁ : lastf₁.ns.all Node.isLeafB = true := by
      rw [show lastf₁.ns = lastf.ns from congrArg Prod.fst hskelL]
      exact hlk
    have hpp : 1 ≤ lastf.ps.length := by
      rw [List.all_append, List.all_cons, List.all_nil, Bool.and_true,
        Bool.and_eq_true] at hppF
      exact of_decide_eq_true hppF.2
    have hpp₁ : 1 ≤ lastf₁.ps.length := by
      rw [show lastf₁.ps.length = lastf.ps.length from
        congrArg (fun x => x.2.2) hskelL]
      exact hpp
    obtain ⟨hW, hC⟩ :=
      rebalanceLeaf_spec init₁ lastf₁ (es.eraseIdx p.leafIndex) hok₁ hbkI₁
        hlk₁ hpp₁
    refine ⟨rfl, hW, ?_⟩
    show (rebalanceLeaf (init₁ ++ [lastf₁]) (es.eraseIdx p.leafIndex)).count + 1 =
      t.root.count
    rw [hC, (frames_skel_congr _ _ hskel₁).1, hcntF, hleaf, Node.count_leaf,
      List.length_eraseIdx, if_pos hli]
    omega

/-- C6: on a fresh path produced by `find` against a well-formed tree (shape
and order invariants, every branch with at least two children, uniform
node kinds per level), `deleteAt` on a matching path returns `true` and
removes exactly one entry — `getCount` decreases by one — while on a
non-matching path it returns `false` and leaves the tree unchanged. -/
theorem c6_deleteAt (t : BTreeT) (k : Int)
    (hwf : WFB t = true) (hb2 : branch2B t.root = true)
    (hhomo : homoB t.root = true) :
    ((t.find k).isOn = true →
      ∃ t' : BTreeT, t.deleteAt (t.find k) = .ok (true, t') ∧
        t'.getCount + 1 = t.getCount) ∧
    ((t.find k).isOn = false →
      t.deleteAt (t.find k) = .ok (false, t)) := by
  have hwf' := hwf
  rw [WFB, Bool.and_eq_true] at hwf'
  obtain ⟨hord, hs⟩ := hwf'
  have hvalid : t.isValid (t.find k) = true := by
    rw [BTreeT.isValid]
    exact decide_eq_true rfl
  constructor
  · intro hon
    have hv : validOnB t.root (t.find k).branches (t.find k).leafIndex = true :=
      (getPath_spec t.root none none k hord rfl rfl).2.2 hon
    obtain ⟨h1, h2, h3⟩ := internalDelete_spec t (t.find k) hs hb2 hhomo hon hv
    refine ⟨⟨(t.internalDelete (t.find k)).2, t.version + 1⟩, ?_, ?_⟩
    · simp only [BTreeT.deleteAt]
      rw [if_neg (fun hc => hc hvalid), if_pos h1]
    · rw [getCount_eq ⟨(t.internalDelete (t.find k)).2, t.version + 1⟩ h2,
        getCount_eq t hs]
      exact h3
  · intro hoff
    have hid : t.internalDelete (t.find k) = (false, t.root) := by
      simp only [BTreeT.internalDelete]
      rw [if_neg (by rw [hoff]; exact Bool.false_ne_true)]
    simp only [BTreeT.deleteAt]
    rw [if_neg (fun hc => hc hvalid), hid]
    rw [if_neg (by simp)]

/-- Witness for C6 on the tree holding 1, 2, 3: deleting at `find 2`
removes one entry, deleting at `find 5` (absent) is a no-op. -/
theorem c6_deleteAt_witness :
    (WFB (insertList [1, 2, 3]) = true ∧
      branch2B (insertList [1, 2, 3]).root = true ∧
      homoB (insertList [1, 2, 3]).root = true) ∧
    (((insertList [1, 2, 3]).find 2).isOn = true ∧
      (∃ t', (insertList [1, 2, 3]).deleteAt ((insertList [1, 2, 3]).find 2) =
        .ok (true, t') ∧ t'.getCount + 1 = (insertList [1, 2, 3]).getCount)) ∧
    (((insertList [1, 2, 3]).find 5).isOn = false ∧
      (insertList [1, 2, 3]).deleteAt ((insertList [1, 2, 3]).find 5) =
        .ok (false, insertList [1, 2, 3])) :=
  ⟨⟨by decide, by decide, by decide⟩,
   ⟨by decide, (c6_deleteAt (insertList [1, 2, 3]) 2 (by decide) (by decide)
      (by decide)).1 (by decide)⟩,
   ⟨by decide, (c6_deleteAt (insertList [1, 2, 3]) 5 (by decide) (by decide)
      (by decide)).2 (by decide)⟩⟩

theorem moveToLastIdx_spec : ∀ (n : Node), n.wfShape = true →
    posGo n (moveToLastIdx n).1 + ((moveToLastIdx n).2.1 + 1) = n.count ∧
    (moveToLastIdx n).2.2 = true ∧
    validOnB n (moveToLastIdx n).1 (moveToLastIdx n).2.1 = true := by
  intro n
  induction n using Node.inductionOn with
  | hleaf es =>
    intro h
    rw [Node.wfShape_leaf] at h
    rw [moveToLastIdx_leaf]
    have hne : 0 < es.length := by
      cases es with
      | nil => simp at h
      | cons a t => simp
    rw [if_pos hne]
    refine ⟨?_, by simpa using hne, ?_⟩
    · rw [Node.count_leaf]
      show posGo (Node.leaf es) [] + (es.length - 1 + 1) = es.length
      rw [posGo]
      omega
    · show validOnB (.leaf es) [] (es.length - 1) = true
      simp [validOnB]
      omega
  | hbranch ps ns ih =>
    intro h
    rw [Node.wfShape_branch, Bool.and_eq_true] at h
    have hlen : ns.length = ps.length + 1 := by simpa using h.1
    have hlast : ps.length < ns.length := by omega
    have hcw : (ns.getD ps.length (.leaf [])).wfShape = true := by
      apply List.all_eq_true.mp h.2
      rw [List.getD_eq_getElem _ _ hlast]
      exact List.getElem_mem _
    have hchld : (Node.branch ps ns).childAt ps.length =
        ns.getD ps.length (.leaf []) := by
      simp [Node.childAt, Node.nodesOf]
    have IH := ih (ns.getD ps.length (.leaf [])) (by
      rw [List.getD_eq_getElem _ _ hlast]
      exact List.getElem_mem _) hcw
    rw [moveToLastIdx_branch]
    simp only [hchld]
    refine ⟨?_, IH.2.1, ?_⟩
    · rw [posGo_branch]
      have hdrop : ns.drop (ps.length + 1) = [] :=
        List.drop_eq_nil_of_le (by omega)
      have hcnt := sum_map_take_drop Node.count ns ps.length (.leaf []) hlast
      rw [hdrop] at hcnt
      simp only [List.map_nil, List.sum_nil, Nat.add_zero] at hcnt
      rw [Node.count_branch, hcnt]
      omega
    · rw [validOnB_branch, Bool.and_eq_true]
      exact ⟨by simpa using hlast, IH.2.2⟩

theorem posGo_zeros : ∀ (is : List Nat) (n : Node),
    (∀ f ∈ framesOf n is, f.2 = 0) → posGo n is = 0
  | [], _, _ => rfl
  | j :: is, n, h => by
    have hj : j = 0 := by
      have := h (n, j) (by rw [framesOf]; simp)
      simpa using this
    subst hj
    show ((n.nodesOf.take 0).map Node.count).sum + posGo (n.childAt 0) is = 0
    rw [List.take_zero, List.map_nil, List.sum_nil,
      posGo_zeros is (n.childAt 0) (fun f hf => h f (by
        rw [framesOf]
        exact List.mem_cons.mpr (Or.inr hf)))]

theorem validOffB_lt : ∀ (is : List Nat) (n : Node) (li : Nat),
    validOffB n is li = true → li ≤ (n.leafAt is).length
  | [], n, li, h => by
    cases n with
    | leaf es => simpa [validOffB, Node.leafAt, Node.alongD, Node.entriesOf] using h
    | branch ps ns => simp [validOffB] at h
  | j :: is, n, li, h => by
    cases n with
    | leaf es => simp [validOffB] at h
    | branch ps ns =>
      rw [validOffB_branch, Bool.and_eq_true] at h
      exact validOffB_lt is _ li h.2

theorem validOff_to_on : ∀ (is : List Nat) (n : Node) (li li' : Nat),
    validOffB n is li = true → li' < (n.leafAt is).length →
    validOnB n is li' = true
  | [], n, li, li', h, h' => by
    cases n with
    | leaf es =>
      simp only [validOnB]
      simpa [Node.leafAt, Node.alongD, Node.entriesOf] using h'
    | branch ps ns => simp [validOffB] at h
  | j :: is, n, li, li', h, h' => by
    cases n with
    | leaf es => simp [validOffB] at h
    | branch ps ns =>
      rw [validOffB_branch, Bool.and_eq_true] at h
      rw [validOnB_branch, Bool.and_eq_true]
      exact ⟨h.1, validOff_to_on is _ li li' h.2 h'⟩

theorem validOffB_to : ∀ (is : List Nat) (n : Node) (li : Nat),
    validOffB n is li = true → validToB n is = true
  | [], n, li, h => by cases n <;> rfl
  | j :: is, n, li, h => by
    cases n with
    | leaf es => simp [validOffB] at h
    | branch ps ns =>
      rw [validOffB_branch, Bool.and_eq_true] at h
      show (decide (j < ns.length) && validToB (ns.getD j (.leaf [])) is) = true
      rw [Bool.and_eq_true]
      exact ⟨h.1, validOffB_to is _ li h.2⟩

theorem validOnB_off : ∀ (is : List Nat) (n : Node) (li : Nat),
    validOnB n is li = true → validOffB n is li = true
  | [], n, li, h => by
    cases n with
    | leaf es =>
      have : li < es.length := by simpa [validOnB] using h
      simpa [validOffB] using Nat.le_of_lt this
    | branch ps ns => simp [validOnB] at h
  | j :: is, n, li, h => by
    cases n with
    | leaf es => simp [validOnB] at h
    | branch ps ns =>
      rw [validOnB_branch, Bool.and_eq_true] at h
      rw [validOffB_branch, Bool.and_eq_true]
      exact ⟨h.1, validOnB_off is _ li h.2⟩

theorem framesOf_lt_of_validTo : ∀ (is : List Nat) (n : Node),
    validToB n is = true →
    ((framesOf n is).all fun f => decide (f.2 < f.1.nodesOf.length)) = true
  | [], n, _ => rfl
  | j :: is, n, h => by
    cases n with
    | leaf es => simp [validToB] at h
    | branch ps ns =>
      have h' : (decide (j < ns.length) &&
          validToB (ns.getD j (.leaf [])) is) = true := h
      rw [Bool.and_eq_true] at h'
      show ((Node.branch ps ns, j) ::
        framesOf ((Node.branch ps ns).childAt j) is).all _ = true
      rw [List.all_cons, Bool.and_eq_true]
      constructor
      · simpa [Node.nodesOf] using h'.1
      · have : (Node.branch ps ns).childAt j = ns.getD j (.leaf []) := by
          simp [Node.childAt, Node.nodesOf]
        rw [this]
        exact framesOf_lt_of_validTo is _ h'.2

theorem internalNext_off_spec (t : Node) (p : PathIdx)
    (hoff : p.isOn = false)
    (hvt : validToB t p.branches = true) :
    (p.leafIndex < (t.leafAt p.branches).length →
      internalNext t p = { p with isOn := true }) ∧
    ((t.leafAt p.branches).length ≤ p.leafIndex →
      internalNext t p = p) := by
  constructor
  · intro hlt
    simp only [internalNext, hoff, Bool.not_false]
    rw [if_pos (by simp)]
    rw [if_pos (by
      rw [Bool.and_eq_true]
      exact ⟨framesOf_lt_of_validTo p.branches t hvt, decide_eq_true hlt⟩)]
  · intro hge
    simp only [internalNext, hoff, Bool.not_false]
    rw [if_pos (by simp)]
    rw [if_neg (by
      intro hc
      rw [Bool.and_eq_true] at hc
      have := of_decide_eq_true hc.2
      omega)]

theorem internalPrior_spec (t : Node) (p : PathIdx)
    (hs : t.wfRootShape = true)
    (hv : validOffB t p.branches p.leafIndex = true) :
    ((internalPrior t p).isOn = false ∧ position t p = 0) ∨
    ((internalPrior t p).isOn = true ∧
      validOnB t (internalPrior t p).branches (internalPrior t p).leafIndex = true ∧
      position t (internalPrior t p) + 1 = position t p) := by
  have hle := validOffB_lt p.branches t p.leafIndex hv
  by_cases h0 : p.leafIndex = 0
  · rcases list_prefix_split (fun f : Node × Nat => f.2 = 0)
        (framesOf t p.branches).reverse with hall | ⟨A, g, B, heq, hA, hg⟩
    · have hscan : popScanPrior (framesOf t p.branches).reverse =
          ((framesOf t p.branches).reverse.length, false) :=
        popScanPrior_all _ hall
      have hres : internalPrior t p =
          { p with leafIndex := 0, isOn := false } := by
        simp only [internalPrior]
        rw [if_pos h0, hscan]
        rw [if_pos (by simp)]
      rw [hres]
      left
      refine ⟨rfl, ?_⟩
      have hzero : posGo t p.branches = 0 :=
        posGo_zeros p.branches t (fun f hf => hall f (by simpa using hf))
      rw [position, hzero, h0]
    · obtain ⟨u, b, w, hbr, hu, hgeq, hAx, hAlen⟩ := frames_decomp t p.branches heq
      have hscan : popScanPrior (framesOf t p.branches).reverse =
          (A.length, true) := by
        rw [heq]
        exact popScanPrior_found A g B hA hg
      have hbne : ¬ b = 0 := by
        intro hc
        apply hg
        rw [hgeq]
        exact hc
      have hvsplit : validToB t u = true ∧
          validOffB (t.alongD u) (b :: w) p.leafIndex = true := by
        have hx := hv
        rw [hbr, validOffB_split, Bool.and_eq_true] at hx
        exact hx
      have hUshape := alongD_rootShape u t hs hvsplit.1
      cases hnodeU : t.alongD u with
      | leaf es =>
        rw [hnodeU] at hvsplit
        simp [validOffB] at hvsplit
      | branch psU nsU =>
        rw [hnodeU, wfRootShape_branch, Bool.and_eq_true] at hUshape
        have hUlen : nsU.length = psU.length + 1 := by simpa using hUshape.1
        have hv2 := hvsplit.2
        rw [hnodeU, validOffB_branch, Bool.and_eq_true] at hv2
        have hbin : b < nsU.length := by simpa using hv2.1
        have hbm : b - 1 < nsU.length := by omega
        have hchw : (nsU.getD b (.leaf [])).wfShape = true := by
          apply List.all_eq_true.mp hUshape.2
          rw [List.getD_eq_getElem _ _ hbin]
          exact List.getElem_mem _
        have hchwm : (nsU.getD (b - 1) (.leaf [])).wfShape = true := by
          apply List.all_eq_true.mp hUshape.2
          rw [List.getD_eq_getElem _ _ hbm]
          exact List.getElem_mem _
        have hlenbr : p.branches.length = u.length + 1 + w.length := by
          rw [hbr]
          simp
          omega
        have hlenam : p.branches.length - A.length = u.length + 1 := by omega
        have htake : p.branches.take (u.length + 1) = u ++ [b] := by
          rw [hbr, List.take_append_eq_append_take,
            List.take_of_length_le (by omega)]
          congr 1
          have h1 : u.length + 1 - u.length = 1 := by omega
          rw [h1]
          rfl
        have hchild2 : t.alongD (u ++ [b - 1]) = nsU.getD (b - 1) (.leaf []) := by
          rw [alongD_append, hnodeU]
          simp [Node.alongD, Node.childAt, Node.nodesOf]
        have hmv := moveToLastIdx_spec (nsU.getD (b - 1) (.leaf [])) hchwm
        have hres : internalPrior t p =
            ⟨(u ++ [b - 1]) ++ (moveToLastIdx (nsU.getD (b - 1) (.leaf []))).1,
              (moveToLastIdx (nsU.getD (b - 1) (.leaf []))).2.1,
              (moveToLastIdx (nsU.getD (b - 1) (.leaf []))).2.2,
              p.version⟩ := by
          simp only [internalPrior]
          rw [if_pos h0, hscan]
          rw [if_neg (by simp)]
          rw [hlenam, htake, List.dropLast_concat, List.getLast?_concat]
          simp only [Option.getD_some]
          rw [hchild2]
        rw [hres]
        right
        refine ⟨hmv.2.1, ?_, ?_⟩
        · show validOnB t ((u ++ [b - 1]) ++ _) _ = true
          rw [validOnB_split, Bool.and_eq_true]
          constructor
          · rw [validToB_append, Bool.and_eq_true]
            refine ⟨hvsplit.1, ?_⟩
            rw [hnodeU]
            show (decide (b - 1 < nsU.length) &&
              validToB (nsU.getD (b - 1) (.leaf [])) []) = true
            rw [validToB_nil]
            simpa using hbm
          · rw [hchild2]
            exact hmv.2.2
        · show position t ⟨(u ++ [b - 1]) ++ _, _, _, _⟩ + 1 = _
          rw [position, position]
          simp only
          rw [posGo_append, posGo_append, hchild2, hbr, posGo_append, hnodeU]
          have hp1 : posGo (Node.branch psU nsU) [b - 1] =
              ((nsU.take (b - 1)).map Node.count).sum := by
            rw [posGo_branch]
            show _ + posGo _ [] = _
            rw [posGo]
            simp [Node.nodesOf]
          have hp2 : posGo (Node.branch psU nsU) (b :: w) =
              ((nsU.take b).map Node.count).sum +
                posGo (nsU.getD b (.leaf [])) w := by
            rw [posGo_branch]
          have hwzero : posGo (nsU.getD b (.leaf [])) w = 0 := by
            apply posGo_zeros
            intro f hf
            apply hA
            rw [← List.mem_reverse, ← hAx]
            have hfr : framesOf ((t.alongD u).childAt b) w =
                framesOf (nsU.getD b (.leaf [])) w := by
              rw [hnodeU]
              simp [Node.childAt, Node.nodesOf]
            rw [hfr]
            exact hf
          have hsplit : ((nsU.take b).map Node.count).sum =
              ((nsU.take (b - 1)).map Node.count).sum +
                (nsU.getD (b - 1) (.leaf [])).count := by
            have h1 : b = (b - 1) + 1 := by omega
            conv_lhs => rw [h1]
            exact sum_take_succ_counts nsU (b - 1) hbm
          rw [hp1, hp2, hwzero, hsplit, h0]
          omega
  · have hres : internalPrior t p =
        { p with leafIndex := p.leafIndex - 1, isOn := true } := by
      simp only [internalPrior]
      rw [if_neg h0]
    rw [hres]
    right
    refine ⟨rfl, ?_, ?_⟩
    · exact validOff_to_on p.branches t p.leafIndex (p.leafIndex - 1) hv
        (by omega)
    · show posGo t p.branches + (p.leafIndex - 1) + 1 =
        posGo t p.branches + p.leafIndex
      omega

theorem sorted_getElem?_lt {l : List Int} (hp : l.Pairwise (· < ·)) (x : Int)
    (i : Nat) (hi : i < l.countP (fun y => decide (y < x))) {v : Int}
    (hv : l[i]? = some v) : v < x := by
  have hc := List.countP_le_length (fun y => decide (y < x)) (l := l)
  have hil : i < l.length := by omega
  have hit : i < (l.take (l.countP (fun y => decide (y < x)))).length := by
    rw [List.length_take]
    omega
  have hmem : v ∈ l.take (l.countP (fun y => decide (y < x))) := by
    have h1 : (l.take (l.countP (fun y => decide (y < x)))).get ⟨i, hit⟩ = v := by
      have h2 : (l.take (l.countP (fun y => decide (y < x))))[i] = l[i] :=
        List.getElem_take l
      rw [List.getElem?_eq_getElem hil] at hv
      injection hv with hv
      show (l.take _)[i] = v
      rw [h2, hv]
    rw [← h1]
    exact List.getElem_mem hit
  exact (sorted_countP_split x l hp).1 v hmem

theorem sorted_getElem?_ge {l : List Int} (hp : l.Pairwise (· < ·)) (x : Int)
    (i : Nat) (hi : l.countP (fun y => decide (y < x)) ≤ i) {v : Int}
    (hv : l[i]? = some v) : ¬ v < x := by
  have hil : i < l.length := by
    by_contra hc
    rw [List.getElem?_eq_none (by omega)] at hv
    exact Option.noConfusion hv
  have hdl : i - l.countP (fun y => decide (y < x)) <
      (l.drop (l.countP (fun y => decide (y < x)))).length := by
    rw [List.length_drop]
    omega
  have hmem : v ∈ l.drop (l.countP (fun y => decide (y < x))) := by
    have h2 : (l.drop (l.countP (fun y => decide (y < x)))).get
        ⟨i - l.countP (fun y => decide (y < x)), hdl⟩ = l.get ⟨i, hil⟩ := by
      show (l.drop (l.countP (fun y => decide (y < x))))[
        i - l.countP (fun y => decide (y < x))] = l[i]
      rw [List.getElem_drop l]
      congr 1
      omega
    rw [List.getElem?_eq_getElem hil] at hv
    injection hv with hv
    have h1 : (l.drop (l.countP (fun y => decide (y < x)))).get ⟨_, hdl⟩ = v := by
      rw [h2]
      exact hv
    rw [← h1]
    exact List.getElem_mem hdl
  exact (sorted_countP_split x l hp).2 v hmem

theorem sorted_getElem?_countP {l : List Int} (hp : l.Pairwise (· < ·)) {x : Int}
    (hx : x ∈ l) : l[l.countP (fun y => decide (y < x))]? = some x := by
  have hc : l.countP (fun y => decide (y < x)) < l.length :=
    countP_lt_length_of_mem hx
  rw [List.getElem?_eq_getElem hc]
  have hdrop : l.drop (l.countP (fun y => decide (y < x))) =
      l[l.countP (fun y => decide (y < x))] ::
        l.drop (l.countP (fun y => decide (y < x)) + 1) :=
    List.drop_eq_getElem_cons hc
  have hxd : x ∈ l.drop (l.countP (fun y => decide (y < x))) := by
    have := List.take_append_drop (l.countP (fun y => decide (y < x))) l
    have hx' : x ∈ l.take (l.countP (fun y => decide (y < x))) ++
        l.drop (l.countP (fun y => decide (y < x))) := by
      rw [this]
      exact hx
    rcases List.mem_append.mp hx' with h | h
    · exact absurd ((sorted_countP_split x l hp).1 x h) (lt_irrefl x)
    · exact h
  have hpd : (l.drop (l.countP (fun y => decide (y < x)))).Pairwise (· < ·) :=
    hp.drop
  rw [hdrop] at hxd hpd
  rw [List.pairwise_cons] at hpd
  rcases List.mem_cons.mp hxd with h | h
  · exact congrArg some h.symm
  · exfalso
    have hlt := hpd.1 x h
    have hge : ¬ l[l.countP (fun y => decide (y < x))] < x :=
      sorted_getElem?_ge hp x _ (le_refl _) (List.getElem?_eq_getElem hc)
    exact hge hlt

theorem entry_at_pos (t : Node) (p : PathIdx)
    (hv : validOnB t p.branches p.leafIndex = true) :
    entryAtPath t p = t.toList[position t p]? :=
  (validOn_entry p.branches t p.leafIndex hv).2.2

theorem find_facts (t : BTreeT) (k : Int) (hwf : WFB t = true) :
    ((t.find k).isOn = decide (k ∈ t.root.toList)) ∧
    validOffB t.root (t.find k).branches (t.find k).leafIndex = true ∧
    position t.root (t.find k) =
      t.root.toList.countP (fun x => decide (x < k)) ∧
    ((t.find k).isOn = true →
      validOnB t.root (t.find k).branches (t.find k).leafIndex = true) := by
  rw [WFB, Bool.and_eq_true] at hwf
  have hgp := getPath_spec t.root none none k hwf.1 rfl rfl
  exact ⟨hgp.1.1, hgp.1.2, hgp.2.1, hgp.2.2⟩

theorem find_on_entry (t : BTreeT) (k : Int) (hwf : WFB t = true)
    (hon : (t.find k).isOn = true) :
    entryAtPath t.root (t.find k) = some k ∧ k ∈ t.root.toList := by
  obtain ⟨hiseq, hvoff, hpos, hvon⟩ := find_facts t k hwf
  have hmem : k ∈ t.root.toList := by
    rw [hon] at hiseq
    exact of_decide_eq_true hiseq.symm
  have hsorted : t.root.toList.Pairwise (· < ·) := by
    rw [WFB, Bool.and_eq_true] at hwf
    exact (ordB_toList t.root none none hwf.1).1
  refine ⟨?_, hmem⟩
  rw [entry_at_pos t.root (t.find k) (hvon hon), hpos]
  exact sorted_getElem?_countP hsorted hmem

theorem next_of_find (t : BTreeT) (x : Int) (hwf : WFB t = true) :
    (internalNext t.root (t.find x)).isOn = false ∨
    ∃ m, entryAtPath t.root (internalNext t.root (t.find x)) = some m ∧
      ¬ m < x ∧ (x ∈ t.root.toList → x < m) := by
  have hwf' := hwf
  rw [WFB, Bool.and_eq_true] at hwf'
  have hsorted : t.root.toList.Pairwise (· < ·) :=
    (ordB_toList t.root none none hwf'.1).1
  obtain ⟨hiseq, hvoff, hpos, hvon⟩ := find_facts t x hwf
  by_cases hon : (t.find x).isOn = true
  · have hmem : x ∈ t.root.toList := by
      rw [hon] at hiseq
      exact of_decide_eq_true hiseq.symm
    rcases internalNext_spec t.root (t.find x) hwf'.2 hon (hvon hon) with
      ⟨hoff2, _⟩ | ⟨hon2, hvon2, hpos2⟩
    · exact Or.inl hoff2
    · right
      have hlt := validOn_entry (internalNext t.root (t.find x)).branches t.root
        (internalNext t.root (t.find x)).leafIndex hvon2
      obtain ⟨m, hm⟩ : ∃ m,
          t.root.toList[position t.root (internalNext t.root (t.find x))]? =
            some m := by
        have h1 : position t.root (internalNext t.root (t.find x)) <
            t.root.toList.length := hlt.1
        rw [List.getElem?_eq_getElem h1]
        exact ⟨_, rfl⟩
      refine ⟨m, ?_, ?_, fun _ => ?_⟩
      · rw [entry_at_pos t.root _ hvon2, hm]
      · exact sorted_getElem?_ge hsorted x _ (by rw [hpos2, hpos]; omega) hm
      · have hkx := sorted_getElem?_countP hsorted hmem
        rw [hpos2, hpos] at hm
        have hcm : t.root.toList.countP (fun y => decide (y < x)) <
            t.root.toList.length := countP_lt_length_of_mem hmem
        have hcm1 : t.root.toList.countP (fun y => decide (y < x)) + 1 <
            t.root.toList.length := by
          by_contra hc
          rw [List.getElem?_eq_none (by omega)] at hm
          exact Option.noConfusion hm
        have hpw := List.pairwise_iff_getElem.mp hsorted
          (t.root.toList.countP (fun y => decide (y < x)))
          (t.root.toList.countP (fun y => decide (y < x)) + 1)
          hcm hcm1 (by omega)
        rw [List.getElem?_eq_getElem hcm] at hkx
        rw [List.getElem?_eq_getElem hcm1] at hm
        injection hkx with hkx
        injection hm with hm
        rw [hkx, hm] at hpw
        exact hpw
  · have hoff : (t.find x).isOn = false := by
      cases hfo : (t.find x).isOn with
      | false => rfl
      | true => exact absurd hfo hon
    have hvt : validToB t.root (t.find x).branches :=
      validOffB_to _ _ _ hvoff
    obtain ⟨hA, hB⟩ := internalNext_off_spec t.root (t.find x) hoff hvt
    by_cases hlt : (t.find x).leafIndex <
        (t.root.leafAt (t.find x).branches).length
    · right
      rw [hA hlt]
      have hvon2 : validOnB t.root (t.find x).branches (t.find x).leafIndex :=
        validOff_to_on _ _ _ _ hvoff hlt
      have hent := validOn_entry (t.find x).branches t.root
        (t.find x).leafIndex hvon2
      obtain ⟨m, hm⟩ : ∃ m,
          t.root.toList[posGo t.root (t.find x).branches +
            (t.find x).leafIndex]? = some m := by
        rw [List.getElem?_eq_getElem hent.1]
        exact ⟨_, rfl⟩
      refine ⟨m, ?_, ?_, fun hmem => ?_⟩
      · show (t.root.leafAt (t.find x).branches)[(t.find x).leafIndex]? = some m
        rw [hent.2.2]
        exact hm
      · refine sorted_getElem?_ge hsorted x _ ?_ hm
        have h2 := hpos
        rw [position] at h2
        omega
      · exfalso
        rw [hoff] at hiseq
        rw [decide_eq_true hmem] at hiseq
        exact Bool.false_ne_true hiseq
    · left
      rw [hB (by omega)]
      exact hoff

theorem prior_of_find (t : BTreeT) (x : Int) (hwf : WFB t = true) :
    (internalPrior t.root (t.find x)).isOn = false ∨
    ∃ m, entryAtPath t.root (internalPrior t.root (t.find x)) = some m ∧
      m < x := by
  have hwf' := hwf
  rw [WFB, Bool.and_eq_true] at hwf'
  have hsorted : t.root.toList.Pairwise (· < ·) :=
    (ordB_toList t.root none none hwf'.1).1
  obtain ⟨hiseq, hvoff, hpos, hvon⟩ := find_facts t x hwf
  rcases internalPrior_spec t.root (t.find x) hwf'.2 hvoff with
    ⟨hoff2, _⟩ | ⟨hon2, hvon2, hpos2⟩
  · exact Or.inl hoff2
  · right
    have hent := validOn_entry (internalPrior t.root (t.find x)).branches t.root
      (internalPrior t.root (t.find x)).leafIndex hvon2
    obtain ⟨m, hm⟩ : ∃ m,
        t.root.toList[position t.root (internalPrior t.root (t.find x))]? =
          some m := by
      have h1 : position t.root (internalPrior t.root (t.find x)) <
          t.root.toList.length := hent.1
      rw [List.getElem?_eq_getElem h1]
      exact ⟨_, rfl⟩
    refine ⟨m, ?_, ?_⟩
    · rw [entry_at_pos t.root _ hvon2, hm]
    · refine sorted_getElem?_lt hsorted x _ ?_ hm
      have h2 := hpos2
      rw [hpos] at h2
      omega

theorem compareKeys_pos {a b : Int} (h : b < a) :
    compareKeys (some a) (some b) > 0 := by
  show (if a < b then (-1 : Int) else if a > b then 1 else 0) > 0
  rw [if_neg (by omega), if_pos (by omega)]
  omega

theorem compareKeys_self (a : Int) : compareKeys (some a) (some a) = 0 := by
  show (if a < a then (-1 : Int) else if a > a then 1 else 0) = 0
  rw [if_neg (by omega), if_neg (by omega)]

theorem compareKeys_neg {a b : Int} (h : a < b) :
    compareKeys (some a) (some b) < 0 := by
  show (if a < b then (-1 : Int) else if a > b then 1 else 0) < 0
  rw [if_pos h]
  omega

theorem rangeGo_succ (t : Node) (fuel : Nat) (p : PathIdx) (endOn : Bool)
    (endKey : JKey) (asc : Bool) :
    rangeGo t (fuel + 1) p endOn endKey asc =
      (if ¬ p.isOn then []
       else if ¬ endOn then []
       else if compareKeys (entryAtPath t p) endKey *
           (if asc then 1 else -1) > 0 then []
       else (t.leafAt p.branches).getD p.leafIndex 0 ::
         rangeGo t fuel ((if asc then internalNext else internalPrior) t p)
           endOn endKey asc) := by
  rw [rangeGo]

theorem rangeGo_empty (t : Node) (fuel : Nat) (p : PathIdx) (endOn : Bool)
    (endKey : JKey) (asc : Bool)
    (h : p.isOn = false ∨ endOn = false ∨
      compareKeys (entryAtPath t p) endKey * (if asc then 1 else -1) > 0) :
    rangeGo t fuel p endOn endKey asc = [] := by
  cases fuel with
  | zero => rfl
  | succ fuel =>
    rw [rangeGo_succ]
    by_cases hp : p.isOn = true
    · rw [if_neg (by rw [hp]; simp)]
      by_cases he : endOn = true
      · rw [if_neg (by rw [he]; simp)]
        rcases h with h | h | h
        · rw [hp] at h
          exact absurd h (by simp)
        · rw [he] at h
          exact absurd h (by simp)
        · rw [if_pos h]
      · rw [if_pos (by simpa using he)]
    · rw [if_pos (by simpa using hp)]

theorem findFirst_asc (t : BTreeT) (x : Int) (ol : Option KeyBoundF)
    (inc : Bool) (hwf : WFB t = true) :
    (t.findFirst ⟨some ⟨x, inc⟩, ol, true⟩).isOn = false ∨
    ∃ v, entryAtPath t.root (t.findFirst ⟨some ⟨x, inc⟩, ol, true⟩) = some v ∧
      ¬ v < x ∧ (inc = false → x ∈ t.root.toList → x < v) := by
  simp only [BTreeT.findFirst, Option.getD_some]
  by_cases hinc : inc = true
  · by_cases hon : (t.find x).isOn = true
    · rw [if_neg (by
        rw [hinc, hon]
        intro hc
        rcases hc with hc | hc <;> exact hc rfl)]
      right
      obtain ⟨hent, hmem⟩ := find_on_entry t x hwf hon
      exact ⟨x, hent, lt_irrefl x, fun hf => absurd hinc (by rw [hf]; simp)⟩
    · rw [if_pos (Or.inl hon)]
      rcases next_of_find t x hwf with hoff | ⟨m, hm, hge, hstrict⟩
      · exact Or.inl hoff
      · exact Or.inr ⟨m, hm, hge, fun _ => hstrict⟩
  · rw [if_pos (Or.inr hinc)]
    rcases next_of_find t x hwf with hoff | ⟨m, hm, hge, hstrict⟩
    · exact Or.inl hoff
    · exact Or.inr ⟨m, hm, hge, fun _ => hstrict⟩

theorem findLast_asc (t : BTreeT) (y : Int) (of : Option KeyBoundF)
    (inc : Bool) (hwf : WFB t = true) :
    (t.findLast ⟨of, some ⟨y, inc⟩, true⟩).isOn = false ∨
    ∃ v, entryAtPath t.root (t.findLast ⟨of, some ⟨y, inc⟩, true⟩) = some v ∧
      ¬ y < v ∧ (inc = false → v < y) := by
  simp only [BTreeT.findLast, Option.getD_some]
  by_cases hinc : inc = true
  · by_cases hon : (t.find y).isOn = true
    · rw [if_neg (by
        rw [hinc, hon]
        intro hc
        rcases hc with hc | hc <;> exact hc rfl)]
      right
      obtain ⟨hent, hmem⟩ := find_on_entry t y hwf hon
      exact ⟨y, hent, lt_irrefl y, fun hf => absurd hinc (by rw [hf]; simp)⟩
    · rw [if_pos (Or.inl hon)]
      rcases prior_of_find t y hwf with hoff | ⟨m, hm, hlt⟩
      · exact Or.inl hoff
      · exact Or.inr ⟨m, hm, by omega, fun _ => hlt⟩
  · rw [if_pos (Or.inr hinc)]
    rcases prior_of_find t y hwf with hoff | ⟨m, hm, hlt⟩
    · exact Or.inl hoff
    · exact Or.inr ⟨m, hm, by omega, fun _ => hlt⟩

theorem findFirst_desc (t : BTreeT) (x : Int) (ol : Option KeyBoundF)
    (hwf : WFB t = true) :
    (t.findFirst ⟨some ⟨x, true⟩, ol, false⟩).isOn = false ∨
    ∃ v, entryAtPath t.root (t.findFirst ⟨some ⟨x, true⟩, ol, false⟩) = some v ∧
      ¬ x < v := by
  simp only [BTreeT.findFirst, Option.getD_some]
  by_cases hon : (t.find x).isOn = true
  · rw [if_neg (by
      rw [hon]
      intro hc
      rcases hc with hc | hc <;> exact hc (by trivial))]
    right
    obtain ⟨hent, hmem⟩ := find_on_entry t x hwf hon
    exact ⟨x, hent, lt_irrefl x⟩
  · rw [if_pos (Or.inl hon)]
    rcases prior_of_find t x hwf with hoff | ⟨m, hm, hlt⟩
    · exact Or.inl hoff
    · exact Or.inr ⟨m, hm, by omega⟩

theorem findLast_desc (t : BTreeT) (y : Int) (of : Option KeyBoundF)
    (hwf : WFB t = true) :
    (t.findLast ⟨of, some ⟨y, true⟩, false⟩).isOn = false ∨
    ∃ v, entryAtPath t.root (t.findLast ⟨of, some ⟨y, true⟩, false⟩) = some v ∧
      ¬ v < y := by
  simp only [BTreeT.findLast, Option.getD_some]
  by_cases hon : (t.find y).isOn = true
  · rw [if_neg (by
      rw [hon]
      intro hc
      rcases hc with hc | hc <;> exact hc (by trivial))]
    right
    obtain ⟨hent, hmem⟩ := find_on_entry t y hwf hon
    exact ⟨y, hent, lt_irrefl y⟩
  · rw [if_pos (Or.inl hon)]
    rcases next_of_find t y hwf with hoff | ⟨m, hm, hge, _⟩
    · exact Or.inl hoff
    · exact Or.inr ⟨m, hm, hge⟩

/-- C8: on a well-formed tree, a range whose bounds are inverted in the
scan direction yields nothing (in either direction); a single-point range
on a present key with both bounds inclusive yields exactly that entry; the
same point with any bound exclusive yields nothing. -/
theorem c8_range (t : BTreeT) (a b k : Int) (inc1 inc2 : Bool)
    (hwf : WFB t = true) :
    (b < a → t.range ⟨some ⟨a, true⟩, some ⟨b, true⟩, true⟩ = []) ∧
    (a < b → t.range ⟨some ⟨a, true⟩, some ⟨b, true⟩, false⟩ = []) ∧
    (k ∈ t.root.toList →
      t.range ⟨some ⟨k, true⟩, some ⟨k, true⟩, true⟩ = [k] ∧
      ((inc1 && inc2) = false →
        t.range ⟨some ⟨k, inc1⟩, some ⟨k, inc2⟩, true⟩ = [])) := by
  refine ⟨?_, ?_, ?_⟩
  · intro hba
    simp only [BTreeT.range]
    apply rangeGo_empty
    rcases findFirst_asc t a (some ⟨b, true⟩) true hwf with
      hoffS | ⟨va, hva, hva2, _⟩
    · exact Or.inl hoffS
    rcases findLast_asc t b (some ⟨a, true⟩) true hwf with
      hoffE | ⟨vb, hvb, hvb2, _⟩
    · exact Or.inr (Or.inl hoffE)
    refine Or.inr (Or.inr ?_)
    rw [hva, hvb, if_pos rfl, mul_one]
    exact compareKeys_pos (by omega)
  · intro hab
    simp only [BTreeT.range]
    apply rangeGo_empty
    rcases findFirst_desc t a (some ⟨b, true⟩) hwf with
      hoffS | ⟨va, hva, hva2⟩
    · exact Or.inl hoffS
    rcases findLast_desc t b (some ⟨a, true⟩) hwf with
      hoffE | ⟨vb, hvb, hvb2⟩
    · exact Or.inr (Or.inl hoffE)
    refine Or.inr (Or.inr ?_)
    rw [hva, hvb, if_neg (by simp)]
    have hcmp : compareKeys (some va) (some vb) < 0 :=
      compareKeys_neg (by omega)
    omega
  · intro hmem
    have hon : (t.find k).isOn = true := by
      obtain ⟨hiseq, _, _, _⟩ := find_facts t k hwf
      rw [hiseq]
      exact decide_eq_true hmem
    obtain ⟨hent, _⟩ := find_on_entry t k hwf hon
    constructor
    · simp only [BTreeT.range]
      have hff : t.findFirst ⟨some ⟨k, true⟩, some ⟨k, true⟩, true⟩ =
          t.find k := by
        simp only [BTreeT.findFirst, Option.getD_some]
        rw [if_neg (by
          rw [hon]
          intro hc
          rcases hc with hc | hc <;> exact hc (by trivial))]
      have hfl : t.findLast ⟨some ⟨k, true⟩, some ⟨k, true⟩, true⟩ =
          t.find k := by
        simp only [BTreeT.findLast, Option.getD_some]
        rw [if_neg (by
          rw [hon]
          intro hc
          rcases hc with hc | hc <;> exact hc (by trivial))]
      rw [hff, hfl, rangeGo_succ]
      rw [if_neg (by rw [hon]; simp)]
      rw [if_neg (by rw [hon]; simp)]
      rw [hent]
      rw [if_neg (by rw [compareKeys_self]; simp)]
      have hval : (t.root.leafAt (t.find k).branches).getD
          (t.find k).leafIndex 0 = k := by
        have h1 := hent
        rw [entryAtPath] at h1
        rw [List.getD_eq_getElem?_getD, h1, Option.getD_some]
      rw [hval, if_pos rfl]
      have htail : rangeGo t.root t.root.count
          (internalNext t.root (t.find k)) (t.find k).isOn (some k) true =
          [] := by
        apply rangeGo_empty
        rcases next_of_find t k hwf with hoff | ⟨m, hm, _, hstrict⟩
        · exact Or.inl hoff
        · refine Or.inr (Or.inr ?_)
          rw [hm, if_pos rfl, mul_one]
          exact compareKeys_pos (hstrict hmem)
      rw [htail]
    · intro hincs
      simp only [BTreeT.range]
      apply rangeGo_empty
      rcases findFirst_asc t k (some ⟨k, inc2⟩) inc1 hwf with
        hoffS | ⟨va, hva, hva2, hva3⟩
      · exact Or.inl hoffS
      rcases findLast_asc t k (some ⟨k, inc1⟩) inc2 hwf with
        hoffE | ⟨vb, hvb, hvb2, hvb3⟩
      · exact Or.inr (Or.inl hoffE)
      refine Or.inr (Or.inr ?_)
      rw [hva, hvb, if_pos rfl, mul_one]
      apply compareKeys_pos
      have h12 : inc1 = false ∨ inc2 = false := by
        cases inc1 with
        | false => exact Or.inl rfl
        | true =>
          cases inc2 with
          | false => exact Or.inr rfl
          | true => simp at hincs
      rcases h12 with h1 | h2
      · have := hva3 h1 hmem
        omega
      · have := hvb3 h2
        omega

/-- Witness for C8 on the tree holding 1, 2, 3: the inverted ranges 5..2
(ascending) and 1..3 (descending) are empty, the inclusive point range at
the present key 2 yields exactly [2], and the same point with both bounds
exclusive yields nothing. -/
theorem c8_range_witness :
    WFB (insertList [1, 2, 3]) = true ∧
    ((2 : Int) < 5 ∧
      (insertList [1, 2, 3]).range ⟨some ⟨5, true⟩, some ⟨2, true⟩, true⟩ = []) ∧
    ((1 : Int) < 3 ∧
      (insertList [1, 2, 3]).range ⟨some ⟨1, true⟩, some ⟨3, true⟩, false⟩ = []) ∧
    ((2 : Int) ∈ (insertList [1, 2, 3]).root.toList ∧
      (insertList [1, 2, 3]).range ⟨some ⟨2, true⟩, some ⟨2, true⟩, true⟩ = [2] ∧
      (insertList [1, 2, 3]).range ⟨some ⟨2, false⟩, some ⟨2, false⟩, true⟩ = []) :=
  ⟨by decide,
   ⟨by decide,
    (c8_range (insertList [1, 2, 3]) 5 2 2 false false (by decide)).1 (by decide)⟩,
   ⟨by decide,
    (c8_range (insertList [1, 2, 3]) 1 3 2 false false (by decide)).2.1 (by decide)⟩,
   ⟨by decide,
    ((c8_range (insertList [1, 2, 3]) 5 2 2 false false (by decide)).2.2
      (by decide)).1,
    ((c8_range (insertList [1, 2, 3]) 5 2 2 false false (by decide)).2.2
      (by decide)).2 (by decide)⟩⟩

end Digitree